import Mathlib

/-! Junction tree construction and elimination (gtsam/inference/JunctionTree-inst.h),
`wrap::Function::initializeOrCheck` (wrap/Function.cpp) and the triangulation
bookkeeping of smart stereo projection factors
(gtsam_unstable/slam/SmartStereoProjectionFactor.h).

A shallow embedding of `JunctionTree::FromEliminationTree` and
`JunctionTree::eliminate` together with the visitors they run, of
`initializeOrCheck`, and of `decideIfTriangulate`, `triangulateSafe`,
`triangulateForLinearize`, `triangulateAndComputeE` and `linearizeDamped`,
followed by the properties proved about them.
-/

namespace gtsam

/-- Variable identifiers (`gtsam::Key`). -/
abbrev Key := Nat

/-- Modelled from the spec: `SymbolicFactor` is declared outside the shown
sources; it is the symbolic residual passed from a child to its parent and is
only handed back to symbolic elimination. -/
structure SymbolicFactor where
  keys : List Key
deriving DecidableEq, Repr

/-- Modelled from the spec: `SymbolicConditional` is declared outside the shown
sources; the builder reads `nrParents()` and `size()`, the latter counting the
frontal and the parent variables. -/
structure SymbolicConditional where
  nrFrontals : Nat
  nrParents : Nat
deriving DecidableEq, Repr

/-- The accessor `size()` of a symbolic conditional: frontals plus parents. -/
def SymbolicConditional.size (c : SymbolicConditional) : Nat :=
  c.nrFrontals + c.nrParents

/-- An elimination tree node (`ETREE::Node`): one variable, the factors
attached to it, and its children. -/
inductive ETreeNode (F : Type) where
  | mk (key : Key) (factors : List F) (children : List (ETreeNode F))

/-- The field `key` of an elimination tree node. -/
def ETreeNode.key {F : Type} : ETreeNode F → Key
  | .mk k _ _ => k

/-- The field `factors` of an elimination tree node. -/
def ETreeNode.factors {F : Type} : ETreeNode F → List F
  | .mk _ fs _ => fs

/-- The field `children` of an elimination tree node. -/
def ETreeNode.children {F : Type} : ETreeNode F → List (ETreeNode F)
  | .mk _ _ cs => cs

/-- An elimination tree as `FromEliminationTree` reads it: `roots()` and
`remainingFactors()`. -/
structure EliminationTree (F : Type) where
  roots : List (ETreeNode F)
  remainingFactors : List F

/-- A junction tree node (`JunctionTree::Node`): `keys` are the frontal keys. -/
inductive Node (F : Type) where
  | mk (keys : List Key) (factors : List F) (children : List (Node F))
      (problemSize_ : Int)

/-- The field `keys` (frontal keys) of a junction tree node. -/
def Node.keys {F : Type} : Node F → List Key
  | .mk ks _ _ _ => ks

/-- The field `factors` of a junction tree node. -/
def Node.factors {F : Type} : Node F → List F
  | .mk _ fs _ _ => fs

/-- The field `children` of a junction tree node. -/
def Node.children {F : Type} : Node F → List (Node F)
  | .mk _ _ cs _ => cs

/-- The field `problemSize_` of a junction tree node. -/
def Node.problemSize_ {F : Type} : Node F → Int
  | .mk _ _ _ p => p

/-- The junction tree object (`JunctionTree<BAYESTREE,GRAPH>`): `roots_` and
`remainingFactors_`. -/
structure JunctionTree (F : Type) where
  roots_ : List (Node F)
  remainingFactors_ : List F

/-- `ConstructorTraversalData` without its `parentData` pointer: the parent's
data is threaded through the traversal explicitly. -/
structure ConstructorTraversalData (F : Type) where
  myJTNode : Node F
  childSymbolicConditionals : List SymbolicConditional
  childSymbolicFactors : List SymbolicFactor

/-- What a run of the builder depends on besides its input and the shown
sources.  The symbolic side lives outside the shown sources:
`SymbolicFactor::FromKeys` and `EliminateSymbolic` are taken as parameters, so
every outcome of symbolic elimination is covered.  `erasedProblemSize` is the
value that the merge loop obtains when it reads `childToMerge.problemSize_`:
the read comes after `children.erase`, which has released the child node, so
the program does not define the value and it is a parameter as well, given
the node as it was when it was released. -/
structure Symbolic (F : Type) where
  FromKeys : F → SymbolicFactor
  EliminateSymbolic : List SymbolicFactor → List Key →
    SymbolicConditional × SymbolicFactor
  erasedProblemSize : Node F → Int

section Builder

variable {F : Type}

/-- `ConstructorTraversalVisitorPre`: returns the node's own data and the
parent's data after `children.push_back(myData.myJTNode)`.  A freshly made node
has empty `keys`, `factors` and `children`; its `problemSize_` is written only
by the post-order visitor and is taken as 0 until then. -/
def ConstructorTraversalVisitorPre (node : ETreeNode F)
    (parentData : ConstructorTraversalData F) :
    ConstructorTraversalData F × ConstructorTraversalData F :=
  let myJTNode : Node F := Node.mk ([] ++ [node.key]) (node.factors ++ []) [] 0
  ({ myJTNode := myJTNode, childSymbolicConditionals := [], childSymbolicFactors := [] },
   { parentData with
     myJTNode := Node.mk parentData.myJTNode.keys parentData.myJTNode.factors
       (parentData.myJTNode.children ++ [myJTNode]) parentData.myJTNode.problemSize_ })

/-- The local variables the merge loop of the post-order visitor updates:
the three fields of `myData.myJTNode`, `nrMergedChildren` and
`combinedProblemSize`. -/
structure MergeState (F : Type) where
  keys : List Key
  factors : List F
  children : List (Node F)
  nrMergedChildren : Nat
  combinedProblemSize : Int

/-- The merge loop `for(child = 0; child < childSymbolicConditionals.size(); ++child)`,
run on the conditionals from index `child` on.  Reading
`children[child - nrMergedChildren]` outside the vector has no defined
behaviour and yields `none`. `childToMerge` is a reference to the child node,
taken before the erase: its keys, factors and children are read before the
erase, from the node as it is; its `problemSize_` is read after the erase has
released the node, and `erasedProblemSize` stands for what that read
yields. -/
def mergeLoop (erasedProblemSize : Node F → Int) (myNrParents : Nat) :
    List SymbolicConditional → Nat → MergeState F → Option (MergeState F)
  | [], _, s => some s
  | c :: rest, child, s =>
    if myNrParents + 1 = c.nrParents then
      match s.children[child - s.nrMergedChildren]? with
      | none => none
      | some childToMerge =>
        mergeLoop erasedProblemSize myNrParents rest (child + 1)
          { keys := childToMerge.keys ++ s.keys
            factors := s.factors ++ childToMerge.factors
            children := (s.children ++ childToMerge.children).eraseIdx
              (child - s.nrMergedChildren)
            nrMergedChildren := s.nrMergedChildren + 1
            combinedProblemSize :=
              max s.combinedProblemSize (erasedProblemSize childToMerge) }
    else
      mergeLoop erasedProblemSize myNrParents rest (child + 1) s

/-- `ConstructorTraversalVisitorPost`: symbolic elimination of the node, the
results pushed to the parent's data, then the merge loop.  The conversion
`(int)` of the conditional's size, a count of keys, is taken as exact.
`myData.myJTNode` is the object that the pre-order visitor pushed last into
the parent's `children`, so the node as it stands after the loop replaces that
last entry.  The `assert` on the sizes is compiled out and is not part of the
embedding. -/
def ConstructorTraversalVisitorPost (S : Symbolic F) (ETreeNode : ETreeNode F)
    (myData parentData : ConstructorTraversalData F) :
    Option (ConstructorTraversalData F) :=
  let symbolicFactors : List SymbolicFactor :=
    ETreeNode.factors.map S.FromKeys ++ myData.childSymbolicFactors
  let keyAsOrdering : List Key := [ETreeNode.key]
  let symbolicElimResult := S.EliminateSymbolic symbolicFactors keyAsOrdering
  let myNrParents := symbolicElimResult.1.nrParents
  let combinedProblemSize : Int := (symbolicElimResult.1.size : Int)
  match mergeLoop S.erasedProblemSize myNrParents myData.childSymbolicConditionals 0
      { keys := myData.myJTNode.keys
        factors := myData.myJTNode.factors
        children := myData.myJTNode.children
        nrMergedChildren := 0
        combinedProblemSize := combinedProblemSize } with
  | none => none
  | some s =>
    some
      { myJTNode := Node.mk parentData.myJTNode.keys parentData.myJTNode.factors
          (parentData.myJTNode.children.dropLast ++
            [Node.mk s.keys s.factors s.children s.combinedProblemSize])
          parentData.myJTNode.problemSize_
        childSymbolicConditionals :=
          parentData.childSymbolicConditionals ++ [symbolicElimResult.1]
        childSymbolicFactors :=
          parentData.childSymbolicFactors ++ [symbolicElimResult.2] }

mutual
/-- Modelled from the spec: `treeTraversal::DepthFirstForest` is outside the
shown sources.  A node is visited pre-order, then its children one after the
other in list order, then post-order; the result is the parent's data after
the whole subtree. -/
def visitNode (S : Symbolic F) :
    ETreeNode F → ConstructorTraversalData F → Option (ConstructorTraversalData F)
  | .mk key factors children, parentData =>
    let pre := ConstructorTraversalVisitorPre (.mk key factors children) parentData
    match visitForest S children pre.1 with
    | none => none
    | some myData =>
      ConstructorTraversalVisitorPost S (.mk key factors children) myData pre.2
/-- The traversal of a list of sibling subtrees, sharing the parent's data. -/
def visitForest (S : Symbolic F) :
    List (ETreeNode F) → ConstructorTraversalData F → Option (ConstructorTraversalData F)
  | [], parentData => some parentData
  | n :: ns, parentData =>
    match visitNode S n parentData with
    | none => none
    | some parentData1 => visitForest S ns parentData1
end

/-- `JunctionTree::FromEliminationTree`: traverse from a dummy node that
gathers the roots, then take its children as roots and copy the remaining
factors. -/
def JunctionTree.FromEliminationTree (S : Symbolic F) (eliminationTree : EliminationTree F) :
    Option (JunctionTree F) :=
  let rootData : ConstructorTraversalData F :=
    { myJTNode := Node.mk [] [] [] 0
      childSymbolicConditionals := []
      childSymbolicFactors := [] }
  match visitForest S eliminationTree.roots rootData with
  | none => none
  | some rootData1 =>
    some { roots_ := rootData1.myJTNode.children
           remainingFactors_ := eliminationTree.remainingFactors }

/-! ### The clique built for an elimination tree node, written as a function

The definitions below describe what the traversal computes node by node; the
theorems relate them to `visitNode`. -/

mutual
/-- The result of symbolic elimination at an elimination tree node: the node's
own factors in symbolic form followed by the symbolic factors passed up from
its children, eliminated on the node's key (the first half of the post-order
visitor). -/
def symbolicElim (S : Symbolic F) : ETreeNode F → SymbolicConditional × SymbolicFactor
  | .mk key factors children =>
    S.EliminateSymbolic (factors.map S.FromKeys ++ symbolicFactorsOf S children) [key]
/-- The symbolic factors passed up by a list of sibling nodes. -/
def symbolicFactorsOf (S : Symbolic F) : List (ETreeNode F) → List SymbolicFactor
  | [] => []
  | n :: ns => (symbolicElim S n).2 :: symbolicFactorsOf S ns
end

/-- The symbolic conditional of an elimination tree node. -/
def conditionalOf (S : Symbolic F) (n : ETreeNode F) : SymbolicConditional :=
  (symbolicElim S n).1

/-- The number of parents of a node's symbolic conditional. -/
def nrParentsOf (S : Symbolic F) (n : ETreeNode F) : Nat :=
  (conditionalOf S n).nrParents

/-- The merge test of the post-order visitor, decided for every child first. -/
def mergeDecisions (myNrParents : Nat) (conds : List SymbolicConditional) : List Bool :=
  conds.map (fun c => decide (myNrParents + 1 = c.nrParents))

/-- The child cliques marked for merging, in their original order. -/
def mergedChildren (K : List (Node F)) (decisions : List Bool) : List (Node F) :=
  ((K.zip decisions).filter (fun kd => kd.2)).map Prod.fst

/-- The child cliques marked for keeping, in their original order. -/
def keptChildren (K : List (Node F)) (decisions : List Bool) : List (Node F) :=
  ((K.zip decisions).filter (fun kd => !kd.2)).map Prod.fst

/-- The "decide keep-or-merge first, then rebuild once" form of the merge: the
clique of a node with variable `key`, own factors `factors` and child cliques
`K`, from the list of decisions. -/
def rebuildOnce (erasedProblemSize : Node F → Int) (key : Key) (factors : List F)
    (K : List (Node F)) (decisions : List Bool) (size : Int) : Node F :=
  Node.mk
    ((mergedChildren K decisions).reverse.flatMap Node.keys ++ [key])
    (factors ++ (mergedChildren K decisions).flatMap Node.factors)
    (keptChildren K decisions ++ (mergedChildren K decisions).flatMap Node.children)
    ((mergedChildren K decisions).foldl (fun a k => max a (erasedProblemSize k)) size)

mutual
/-- The clique that the traversal builds for an elimination tree node. -/
def cliqueOf (S : Symbolic F) : ETreeNode F → Node F
  | .mk key factors children =>
    rebuildOnce S.erasedProblemSize key factors (cliquesOf S children)
      (mergeDecisions (nrParentsOf S (.mk key factors children))
        (children.map (conditionalOf S)))
      ((conditionalOf S (.mk key factors children)).size : Int)
/-- The cliques built for a list of sibling nodes. -/
def cliquesOf (S : Symbolic F) : List (ETreeNode F) → List (Node F)
  | [] => []
  | n :: ns => cliqueOf S n :: cliquesOf S ns
end

mutual
/-- All nodes of the subtree of an elimination tree node, the node first. -/
def ETreeNode.nodes : ETreeNode F → List (ETreeNode F)
  | .mk key factors children => .mk key factors children :: ETreeNode.nodesList children
/-- All nodes of a list of subtrees. -/
def ETreeNode.nodesList : List (ETreeNode F) → List (ETreeNode F)
  | [] => []
  | n :: ns => n.nodes ++ ETreeNode.nodesList ns
end

/-- The proper descendants of an elimination tree node: the nodes of the
subtrees of its children.  A node is a proper ancestor of exactly these. -/
def ETreeNode.properDescendants (a : ETreeNode F) : List (ETreeNode F) :=
  ETreeNode.nodesList a.children

/-- All nodes of an elimination tree. -/
def EliminationTree.nodes (et : EliminationTree F) : List (ETreeNode F) :=
  ETreeNode.nodesList et.roots

/-- The variables of an elimination tree, one per node. -/
def EliminationTree.variables (et : EliminationTree F) : List Key :=
  et.nodes.map ETreeNode.key

mutual
/-- All cliques of the subtree of a junction tree node, the node first. -/
def Node.cliques : Node F → List (Node F)
  | .mk keys factors children p => .mk keys factors children p :: Node.cliquesList children
/-- All cliques of a list of subtrees. -/
def Node.cliquesList : List (Node F) → List (Node F)
  | [] => []
  | c :: cs => c.cliques ++ Node.cliquesList cs
end

/-- All cliques of a junction tree. -/
def JunctionTree.cliques (jt : JunctionTree F) : List (Node F) :=
  Node.cliquesList jt.roots_

/-- The merge test of the post-order visitor for a node with `myNrParents`
parents and a child node `c`. -/
def shouldMerge (S : Symbolic F) (myNrParents : Nat) (c : ETreeNode F) : Bool :=
  decide (myNrParents + 1 = nrParentsOf S c)

mutual
/-- The elimination tree nodes whose variables make up the clique built for a
node: those of the merged children, last merged first, then the node. -/
def membersOf (S : Symbolic F) : ETreeNode F → List (ETreeNode F)
  | .mk key factors children =>
    membersOfMerged S (nrParentsOf S (.mk key factors children)) children ++
      [.mk key factors children]
/-- The members contributed by the children that pass the merge test. -/
def membersOfMerged (S : Symbolic F) (myNrParents : Nat) :
    List (ETreeNode F) → List (ETreeNode F)
  | [] => []
  | c :: cs =>
    membersOfMerged S myNrParents cs ++
      (if myNrParents + 1 = nrParentsOf S c then membersOf S c else [])
end

/-! ### Sample inputs -/

/-- A sample symbolic side over factors given by their key lists: the parents
of the eliminated variable are the other variables of the gathered factors,
and they form the symbolic factor passed up.  A read of `problemSize_` after
an erase gives what the released node held. -/
def sampleSymbolic : Symbolic (List Key) where
  FromKeys f := { keys := f }
  EliminateSymbolic fs ord :=
    let parents := ((fs.flatMap (fun f => f.keys)).dedup).filter (fun k => !(ord.contains k))
    ({ nrFrontals := ord.length, nrParents := parents.length }, { keys := parents })
  erasedProblemSize n := n.problemSize_

/-- The sample symbolic side with every read of `problemSize_` after an erase
giving `v`. -/
def sampleSymbolicReading (v : Int) : Symbolic (List Key) :=
  { sampleSymbolic with erasedProblemSize := fun _ => v }

/-- A symbolic side whose parent counts are read off the first key of the
node's first factor, so that any parent count can be prescribed per node.  A
read of `problemSize_` after an erase gives what the released node held. -/
def prescribedSymbolic : Symbolic Nat where
  FromKeys f := { keys := [f] }
  EliminateSymbolic fs _ :=
    ({ nrFrontals := 1, nrParents := ((fs.head?.map (fun f => f.keys)).getD []).headD 0 },
     { keys := [] })
  erasedProblemSize n := n.problemSize_

/-- The star of the spec: hub 0 is the root, leaves 1, 2, 3 each carry one
factor on the leaf and the hub. -/
def starTree : EliminationTree (List Key) :=
  { roots := [.mk 0 [] [.mk 1 [[1, 0]] [], .mk 2 [[2, 0]] [], .mk 3 [[3, 0]] []]]
    remainingFactors := [] }

/-- The hub node of the star tree. -/
def starHub : ETreeNode (List Key) :=
  .mk 0 [] [.mk 1 [[1, 0]] [], .mk 2 [[2, 0]] [], .mk 3 [[3, 0]] []]

/-- The cliques of the three leaves of the star tree, as built at the leaves. -/
def starLeafCliques : List (Node (List Key)) :=
  [Node.mk [1] [[1, 0]] [] 2, Node.mk [2] [[2, 0]] [] 2, Node.mk [3] [[3, 0]] [] 2]

/-- The traversal data of the hub of the star tree when its post-order visit
starts: the three leaves have been visited. -/
def starHubData : ConstructorTraversalData (List Key) :=
  { myJTNode := Node.mk [0] [] starLeafCliques 0
    childSymbolicConditionals := [⟨1, 1⟩, ⟨1, 1⟩, ⟨1, 1⟩]
    childSymbolicFactors := [⟨[0]⟩, ⟨[0]⟩, ⟨[0]⟩] }

/-- The data of the dummy root while the hub of the star tree is visited. -/
def starRootData : ConstructorTraversalData (List Key) :=
  { myJTNode := Node.mk [] [] [Node.mk [0] [] [] 0] 0
    childSymbolicConditionals := []
    childSymbolicFactors := [] }

/-- The three-variable chain of the spec with A = 1, B = 2, C = 3 and
elimination order C, B, A: C carries a factor on C and B, B one on B and A. -/
def chainTree : EliminationTree (List Key) :=
  { roots := [.mk 1 [] [.mk 2 [[2, 1]] [.mk 3 [[3, 2]] []]]]
    remainingFactors := [] }

/-- A chain-shaped elimination tree, given root first: the root `key` with
its factors, then the nodes towards the leaf, each the only child of the one
before. -/
def chain : Key → List F → List (Key × List F) → ETreeNode F
  | key, factors, [] => .mk key factors []
  | key, factors, (k, fs) :: rest => .mk key factors [chain k fs rest]

/-- Along a chain, every node's symbolic conditional has exactly one parent
less than that of its child. -/
def chainParentCounts (S : Symbolic F) : Key → List F → List (Key × List F) → Prop
  | _, _, [] => True
  | key, factors, (k, fs) :: rest =>
    nrParentsOf S (chain key factors ((k, fs) :: rest)) + 1 = nrParentsOf S (chain k fs rest) ∧
      chainParentCounts S k fs rest

/-- A three-node chain over factors that prescribe the parent counts 0, 1, 2
from the root A = 1 over B = 2 to the leaf C = 3. -/
def prescribedChain : EliminationTree Nat :=
  { roots := [chain 1 [0] [(2, [1]), (3, [2])]]
    remainingFactors := [] }

end Builder

/-! ## Elimination (`JunctionTree::eliminate`) -/

/-- A Bayes tree clique (`BayesTreeType::Node`) as the elimination writes it:
the conditional, the weak parent pointer and the children.  Cliques live in a
store and are referred to by their position in it. -/
structure BayesTreeNode (C : Type) where
  conditional_ : Option C
  parent_ : Option Nat
  children : List Nat

/-- `EliminationData` without its `parentData` pointer: `parentData` records
whether that pointer is non-null, and the parent's data is threaded through
the traversal explicitly.  `childFactors` holds shared pointers that may be
null (`none`); `bayesTreeNode` points into the clique store. -/
structure EliminationData (F : Type) where
  parentData : Bool
  myIndexInParent : Nat
  childFactors : List (Option F)
  bayesTreeNode : Nat

/-- What an `eliminate` pass writes besides the traversal data: the store of
Bayes tree cliques, the variable-to-clique index `nodes_` of the result, and
a log of the invocations of the elimination function (the factor collection
and the ordering handed to it), kept for stating properties. -/
structure EliminationState (F C : Type) where
  cliques : List (BayesTreeNode C)
  nodesIndex : List (Key × Nat)
  calls : List (List (Option F) × List Key)

/-- The operations of the factor and conditional types that the elimination
uses and that are declared outside the shown sources: the run-time test for a
`BayesTreeOrphanWrapper` (giving the wrapped clique), `FactorType::empty()`
and `ConditionalType::frontals()`. -/
structure FactorTraits (F C : Type) where
  asSubtree : F → Option Nat
  empty : F → Bool
  frontals : C → List Key

/-- The Bayes tree returned by `eliminate`: its roots and its index. -/
structure BayesTree where
  roots_ : List Nat
  nodes_ : List (Key × Nat)

section Elimination

variable {F C E : Type}

/-- The constructor `EliminationData(_parentData, nChildren)`: a new Bayes tree
clique is allocated; with a parent, a null slot is pushed to the parent's
`childFactors`, the new clique gets its parent pointer unless the parent is
the dummy, and it is pushed to the children of the parent's clique.  Returns
the new data, the parent's data and the state after these writes. -/
def EliminationData.construct (_parentData : Option (EliminationData F)) (_nChildren : Nat)
    (st : EliminationState F C) :
    EliminationData F × Option (EliminationData F) × EliminationState F C :=
  let bayesTreeNode := st.cliques.length
  let cliques0 : List (BayesTreeNode C) :=
    st.cliques ++ [{ conditional_ := none, parent_ := none, children := [] }]
  match _parentData with
  | some parentData =>
    let cliques1 :=
      if parentData.parentData then
        cliques0.modify (fun n => { n with parent_ := some parentData.bayesTreeNode })
          bayesTreeNode
      else cliques0
    let cliques2 :=
      cliques1.modify (fun n => { n with children := n.children ++ [bayesTreeNode] })
        parentData.bayesTreeNode
    ({ parentData := true, myIndexInParent := parentData.childFactors.length,
       childFactors := [], bayesTreeNode := bayesTreeNode },
     some { parentData with childFactors := parentData.childFactors ++ [none] },
     { st with cliques := cliques2 })
  | none =>
    ({ parentData := false, myIndexInParent := 0, childFactors := [],
       bayesTreeNode := bayesTreeNode },
     none,
     { st with cliques := cliques0 })

/-- `eliminationPreOrderVisitor`: constructs the data of the visited node. -/
def eliminationPreOrderVisitor (node : Node F) (parentData : EliminationData F)
    (st : EliminationState F C) :
    EliminationData F × EliminationData F × EliminationState F C :=
  let r := EliminationData.construct (some parentData) node.children.length st
  (r.1, r.2.1.getD parentData, r.2.2)

/-- `EliminationPostOrderVisitor::operator()`.  The factor graph
`gatheredFactors` is a vector of shared pointers and `+=` with a container
appends the container's entries as they are, null or not.  Orphan subtrees
among the node's own factors are attached to the node's clique; then the
elimination function is called (the call is logged) and may fail, which ends
the visit with the error and the state as written so far.  Otherwise the
conditional is stored, the index is filled without overwriting, and a
non-empty remaining factor is written to the node's slot in the parent. -/
def EliminationPostOrderVisitor (T : FactorTraits F C)
    (eliminationFunction : List (Option F) → List Key → Except E (C × F))
    (node : Node F) (myData parentData : EliminationData F) (st : EliminationState F C) :
    Except E (EliminationData F) × EliminationState F C :=
  let gatheredFactors : List (Option F) := ([] ++ node.factors.map some) ++ myData.childFactors
  let cliques1 := node.factors.foldl
    (fun cliques f =>
      match T.asSubtree f with
      | some clique =>
        (cliques.modify (fun n => { n with children := n.children ++ [clique] })
          myData.bayesTreeNode).modify
            (fun n => { n with parent_ := some myData.bayesTreeNode }) clique
      | none => cliques)
    st.cliques
  let st1 : EliminationState F C :=
    { st with cliques := cliques1, calls := st.calls ++ [(gatheredFactors, node.keys)] }
  match eliminationFunction gatheredFactors node.keys with
  | .error e => (.error e, st1)
  | .ok eliminationResult =>
    let cliques2 := st1.cliques.modify
      (fun n => { n with conditional_ := some eliminationResult.1 }) myData.bayesTreeNode
    let nodesIndex := (T.frontals eliminationResult.1).foldl
      (fun index j =>
        if index.any (fun entry => entry.1 == j) then index
        else index ++ [(j, myData.bayesTreeNode)])
      st1.nodesIndex
    let parentData1 :=
      if !T.empty eliminationResult.2 then
        { parentData with
          childFactors := parentData.childFactors.set myData.myIndexInParent
            (some eliminationResult.2) }
      else parentData
    (.ok parentData1, { st1 with cliques := cliques2, nodesIndex := nodesIndex })

mutual
/-- Modelled from the spec: `treeTraversal::DepthFirstForest` on the clique
forest, with the elimination visitors: pre-order visit, the children in list
order, post-order visit.  An error ends the traversal. -/
def eliminateNode (T : FactorTraits F C)
    (eliminationFunction : List (Option F) → List Key → Except E (C × F)) :
    Node F → EliminationData F → EliminationState F C →
      Except E (EliminationData F) × EliminationState F C
  | .mk keys factors children p, parentData, st =>
    let pre := eliminationPreOrderVisitor (.mk keys factors children p) parentData st
    match eliminateForest T eliminationFunction children pre.1 pre.2.2 with
    | (.error e, st2) => (.error e, st2)
    | (.ok myData, st2) =>
      EliminationPostOrderVisitor T eliminationFunction (.mk keys factors children p)
        myData pre.2.1 st2
/-- The elimination traversal of a list of sibling cliques. -/
def eliminateForest (T : FactorTraits F C)
    (eliminationFunction : List (Option F) → List Key → Except E (C × F)) :
    List (Node F) → EliminationData F → EliminationState F C →
      Except E (EliminationData F) × EliminationState F C
  | [], parentData, st => (.ok parentData, st)
  | n :: ns, parentData, st =>
    match eliminateNode T eliminationFunction n parentData st with
    | (.error e, st1) => (.error e, st1)
    | (.ok parentData1, st1) => eliminateForest T eliminationFunction ns parentData1 st1
end

/-- A weak parent pointer as it reads once the cliques at the positions from
`h0` on have been destroyed: a pointer to one of them is expired and reads as
null. -/
def expire (h0 : Nat) : Option Nat → Option Nat
  | some p => if p < h0 then some p else none
  | none => none

/-- What is left of the store when the exception of the elimination function
leaves `eliminate`.  The cliques allocated by the pass, at the positions from
`h0` on, are owned only by the traversal data, the dummy root and the result
object, all locals of `eliminate` and of the traversal, and are destroyed with
them; `parent_` is a weak pointer, so a parent pointer that the pass has set
to one of its cliques is expired afterwards. -/
def unwind (h0 : Nat) (store : List (BayesTreeNode C)) : List (BayesTreeNode C) :=
  (store.take h0).map (fun n => { n with parent_ := expire h0 n.parent_ })

/-- `JunctionTree::eliminate` on a junction tree `this`, started with the
Bayes tree cliques `cliques` that exist before the call (those that orphan
wrappers refer to).  Returns the Bayes tree with the remaining factors, or the
error of the elimination function, together with the final state.  When the
elimination function fails, the exception leaves `eliminate`: what the pass
allocated is destroyed (`unwind`), the index with the result object; the log
of calls is kept for stating properties. -/
def JunctionTree.eliminate (T : FactorTraits F C) (this : JunctionTree F)
    (function : List (Option F) → List Key → Except E (C × F))
    (cliques : List (BayesTreeNode C)) :
    Except E (BayesTree × List F) × EliminationState F C :=
  let rc := EliminationData.construct (none : Option (EliminationData F)) this.roots_.length
    ({ cliques := cliques, nodesIndex := [], calls := [] } : EliminationState F C)
  match eliminateForest T function this.roots_ rc.1 rc.2.2 with
  | (.error e, st) =>
    (.error e, { cliques := unwind cliques.length st.cliques, nodesIndex := [],
                 calls := st.calls })
  | (.ok rootsContainer, st) =>
    let roots := ((st.cliques[rootsContainer.bayesTreeNode]?).map (fun n => n.children)).getD []
    let allRemainingFactors :=
      this.remainingFactors_ ++ rootsContainer.childFactors.filterMap (fun factor => factor)
    (.ok ({ roots_ := roots, nodes_ := st.nodesIndex }, allRemainingFactors), st)

mutual
/-- The entry that the elimination of a clique leaves in its slot of the
parent's `childFactors`: its remaining factor when the elimination function
returns one that is not empty, the null pointer otherwise. -/
def residualSlot (T : FactorTraits F C)
    (function : List (Option F) → List Key → Except E (C × F)) : Node F → Option F
  | .mk keys factors children _ =>
    match function (factors.map some ++ residualSlots T function children) keys with
    | .ok r => if T.empty r.2 then none else some r.2
    | .error _ => none
/-- The slots of a list of sibling cliques, in order. -/
def residualSlots (T : FactorTraits F C)
    (function : List (Option F) → List Key → Except E (C × F)) :
    List (Node F) → List (Option F)
  | [] => []
  | c :: cs => residualSlot T function c :: residualSlots T function cs
end

mutual
/-- The invocations of the elimination function for the cliques of a subtree,
in post-order: for each clique, its own factors followed by one slot per
child, and its frontal keys. -/
def invocations (T : FactorTraits F C)
    (function : List (Option F) → List Key → Except E (C × F)) :
    Node F → List (List (Option F) × List Key)
  | .mk keys factors children _ =>
    invocationsList T function children ++
      [(factors.map some ++ residualSlots T function children, keys)]
/-- The invocations for a list of sibling subtrees. -/
def invocationsList (T : FactorTraits F C)
    (function : List (Option F) → List Key → Except E (C × F)) :
    List (Node F) → List (List (Option F) × List Key)
  | [] => []
  | c :: cs => invocations T function c ++ invocationsList T function cs
end

mutual
/-- Modelled from the spec: `treeTraversal::CloneForest` is outside the shown
sources.  Copying a clique forest makes new nodes with the same keys, in the
same order, the same factor references and the same problem size, and
rebuilds the child lists from the copies of the children. -/
def CloneNode : Node F → Node F
  | .mk keys factors children p => .mk keys factors (CloneForest children) p
/-- The copies of a list of sibling subtrees, in order. -/
def CloneForest : List (Node F) → List (Node F)
  | [] => []
  | c :: cs => CloneNode c :: CloneForest cs
end

/-- `JunctionTree::operator=`: the roots become a clone of the other forest and
the remaining factors are copied as references. -/
def JunctionTree.assign (_this other : JunctionTree F) : JunctionTree F :=
  { roots_ := CloneForest other.roots_
    remainingFactors_ := other.remainingFactors_ }

mutual
/-- The cliques of a subtree in post-order: those of the children's subtrees,
child by child, then the clique itself. -/
def Node.postOrder : Node F → List (Node F)
  | .mk keys factors children p =>
    Node.postOrderList children ++ [.mk keys factors children p]
/-- The cliques of a list of subtrees in post-order. -/
def Node.postOrderList : List (Node F) → List (Node F)
  | [] => []
  | c :: cs => c.postOrder ++ Node.postOrderList cs
end

/-- The cliques that the orphan wrappers among a clique's own factors refer
to, in factor order. -/
def Node.orphans (T : FactorTraits F C) (Q : Node F) : List Nat :=
  Q.factors.filterMap T.asSubtree

/-- The cliques of the store below position `h0` are kept by a pass from
store `before` to store `after`: each keeps its conditional and its children,
and keeps its parent pointer unless it is one of `adopted`, whose parent
pointer is then a position from `h0` on. -/
def preservedBelow (h0 : Nat) (adopted : List Nat)
    (before after : List (BayesTreeNode C)) : Prop :=
  ∀ i, i < h0 → ∀ cell, before[i]? = some cell →
    ∃ cell1, after[i]? = some cell1 ∧ cell1.conditional_ = cell.conditional_ ∧
      cell1.children = cell.children ∧
      (cell1.parent_ = cell.parent_ ∨
        (i ∈ adopted ∧ ∃ p, h0 ≤ p ∧ cell1.parent_ = some p))

/-- The conditional that the elimination function returns for a clique, given
the slots of its children. -/
def conditionalOfClique (T : FactorTraits F C)
    (function : List (Option F) → List Key → Except E (C × F)) (Q : Node F) : Option C :=
  match function (Q.factors.map some ++ Q.children.map (residualSlot T function)) Q.keys with
  | .ok r => some r.1
  | .error _ => none

/-- The positions in the store of the output cliques of a list of sibling
cliques, when the first of them is allocated at position `b`: each subtree
takes as many consecutive positions as it has cliques. -/
def childIds : List (Node F) → Nat → List Nat
  | [], _ => []
  | c :: cs, b => b :: childIds cs (b + c.cliques.length)

mutual
/-- The output cliques of a subtree in the order they are allocated
(pre-order): for each clique its position in the store, the parent pointer it
is given, and the clique.  The root of the subtree is allocated at `b` and
gets the parent pointer `pp`; a child's parent pointer is the position of its
parent clique's output clique. -/
def placement : Node F → Nat → Option Nat → List (Nat × Option Nat × Node F)
  | .mk keys factors children p, b, pp =>
    (b, pp, .mk keys factors children p) :: placementList children (b + 1) (some b)
/-- The placement of a list of sibling subtrees, the first allocated at `b`. -/
def placementList : List (Node F) → Nat → Option Nat → List (Nat × Option Nat × Node F)
  | [], _, _ => []
  | c :: cs, b, pp => placement c b pp ++ placementList cs (b + c.cliques.length) pp
end

/-- The output clique of a placed clique as a successful pass leaves it: the
conditional returned for the clique, the parent pointer of the placement, and
as children the output cliques of the clique's children followed by the
orphan cliques its factors refer to. -/
def outputClique (T : FactorTraits F C)
    (function : List (Option F) → List Key → Except E (C × F))
    (x : Nat × Option Nat × Node F) : BayesTreeNode C :=
  { conditional_ := conditionalOfClique T function x.2.2
    parent_ := x.2.1
    children := childIds x.2.2.children (x.1 + 1) ++ x.2.2.orphans T }

mutual
/-- The adoptions of orphan cliques made in a subtree whose root is allocated
at `b`, in the order they are made (post-order): pairs of the orphan clique
and the output clique that becomes its parent. -/
def adoptions (T : FactorTraits F C) : Node F → Nat → List (Nat × Nat)
  | .mk _ factors children _, b =>
    adoptionsList T children (b + 1) ++ (factors.filterMap T.asSubtree).map (fun q => (q, b))
/-- The adoptions made in a list of sibling subtrees, the first allocated at `b`. -/
def adoptionsList (T : FactorTraits F C) : List (Node F) → Nat → List (Nat × Nat)
  | [], _ => []
  | c :: cs, b => adoptions T c b ++ adoptionsList T cs (b + c.cliques.length)
end

/-- The store after a list of adoptions: each sets the parent pointer of the
orphan clique. -/
def adopt (store : List (BayesTreeNode C)) (as : List (Nat × Nat)) :
    List (BayesTreeNode C) :=
  as.foldl (fun h a => h.modify (fun n => { n with parent_ := some a.2 }) a.1) store

/-- A factor type with orphan wrappers: an ordinary factor given by its keys,
or a wrapper around a clique of the store. -/
inductive WrappedFactor where
  | factor (keys : List Key)
  | orphanWrapper (clique : Nat)
deriving DecidableEq, Repr

/-- The traits of `WrappedFactor`. -/
def wrappedTraits : FactorTraits WrappedFactor (List Key) where
  asSubtree f :=
    match f with
    | .orphanWrapper clique => some clique
    | .factor _ => none
  empty f :=
    match f with
    | .factor keys => keys.isEmpty
    | .orphanWrapper _ => false
  frontals c := c

/-- A forest of one clique whose factors are an ordinary factor and an orphan
wrapper around the clique at position 0 of the store. -/
def orphanForest : JunctionTree WrappedFactor :=
  { roots_ := [Node.mk [1] [.factor [1], .orphanWrapper 0] [] 1]
    remainingFactors_ := [] }

/-- A store with one pre-built clique, at position 0, without parent. -/
def orphanStore : List (BayesTreeNode (List Key)) :=
  [{ conditional_ := some [5], parent_ := none, children := [] }]

/-- The identity elimination function on wrapped factors. -/
def wrappedIdentity : List (Option WrappedFactor) → List Key →
    Except Nat (List Key × WrappedFactor) :=
  fun _ keys => .ok (keys, .factor [])

/-- Registration in the index without overwriting: an entry is appended when
its variable has no entry yet, as in the post-order visitor's
`nodesIndex_.insert`. -/
def registerAll (index entries : List (Key × Nat)) : List (Key × Nat) :=
  entries.foldl
    (fun index e => if index.any (fun entry => entry.1 == e.1) then index else index ++ [e])
    index

mutual
/-- The cliques of a subtree in the order they are eliminated (post-order),
each with the position of its output clique, the root being allocated at `b`. -/
def postPlacement : Node F → Nat → List (Nat × Node F)
  | .mk keys factors children p, b =>
    postPlacementList children (b + 1) ++ [(b, .mk keys factors children p)]
/-- The post-order placement of a list of sibling subtrees. -/
def postPlacementList : List (Node F) → Nat → List (Nat × Node F)
  | [], _ => []
  | c :: cs, b => postPlacement c b ++ postPlacementList cs (b + c.cliques.length)
end

/-- The index entries that the elimination of a placed clique asks to
register: one per frontal variable of the returned conditional, in the order
of the conditional, all pointing to the clique's output clique. -/
def indexEntries (T : FactorTraits F C)
    (function : List (Option F) → List Key → Except E (C × F))
    (x : Nat × Node F) : List (Key × Nat) :=
  match conditionalOfClique T function x.2 with
  | some c => (T.frontals c).map (fun j => (j, x.1))
  | none => []

/-- The frontal variables of the conditional returned for a clique. -/
def frontalsOf (T : FactorTraits F C)
    (function : List (Option F) → List Key → Except E (C × F)) (Q : Node F) : List Key :=
  match conditionalOfClique T function Q with
  | some c => T.frontals c
  | none => []

/-- Sample factor traits over factors given by their key lists: no orphan
wrappers, a factor is empty when it has no keys, a conditional is the list of
its frontal keys. -/
def sampleTraits : FactorTraits (List Key) (List Key) where
  asSubtree _ := none
  empty f := f.isEmpty
  frontals c := c

/-- The "identity" elimination function of the spec: the conditional lists the
ordered keys and the remaining factor is empty. -/
def identityEliminate : List (Option (List Key)) → List Key →
    Except Unit (List Key × List Key) :=
  fun _ keys => .ok (keys, [])

/-- An elimination function that fails, with error code 7, on the ordering
`[2, 1]` and is the identity elimination function elsewhere. -/
def failingEliminate : List (Option (List Key)) → List Key →
    Except Nat (List Key × List Key) :=
  fun _ keys => if keys = [2, 1] then .error 7 else .ok (keys, [])

/-- The forest that the builder returns for the chain A - B - C: the root
clique `[B, A]` with the child clique `[C]`. -/
def chainForest : JunctionTree (List Key) :=
  { roots_ := [Node.mk [2, 1] [[2, 1]] [Node.mk [3] [[3, 2]] [] 2] 2]
    remainingFactors_ := [] }

/-- The result of `eliminate` on `chainForest` with the identity elimination
function and an empty store: the root is the output clique at position 1, the
index maps C to the output clique at 2 and B and A to the one at 1, and no
factor remains. -/
def chainOutput : BayesTree × List (List Key) :=
  ({ roots_ := [1], nodes_ := [(3, 2), (2, 1), (1, 1)] }, [])

/-- The result of `eliminate` on `orphanForest` with the identity elimination
function and the store `orphanStore`: the root is the output clique at
position 2, the index maps the variable 1 to it, and no factor remains. -/
def orphanOutput : BayesTree × List WrappedFactor :=
  ({ roots_ := [2], nodes_ := [(1, 2)] }, [])

/-- An elimination function whose conditional always lists the variable 1 as
its only frontal variable, with an empty remaining factor. -/
def constantEliminate : List (Option (List Key)) → List Key →
    Except Unit (List Key × List Key) :=
  fun _ _ => .ok ([1], [])

/-- The result of `eliminate` on `chainForest` with `constantEliminate` and an
empty store: the index has the single entry of the variable 1, pointing to
the output clique at position 2. -/
def constantOutput : BayesTree × List (List Key) :=
  ({ roots_ := [1], nodes_ := [(1, 2)] }, [])

end Elimination

end gtsam

/-! ## Wrapped functions (`wrap/Function.cpp`) -/

namespace std

/-- The exception `std::runtime_error`, with its message. -/
structure runtime_error where
  what : String
deriving DecidableEq, Repr

end std

namespace wrap

/-- The operations of `wrap::Qualified` that `Function.cpp` uses, taken as
parameters (Qualified.h is not among the sources): `operator!=` and
`qualifiedName(delim)`. -/
structure QualifiedOps (Q : Type) where
  ne : Q → Q → Bool
  qualifiedName : Q → String → String

/-- The members of `wrap::Function` that `initializeOrCheck` reads and writes:
the name, the template argument value and the verbose flag. -/
structure Function (Q : Type) where
  name_ : String
  templateArgValue_ : Q
  verbose_ : Bool

/-- `Function::initializeOrCheck`: the outcome (the returned boolean or the
exception thrown) and the object afterwards.  An empty name is refused; an
object without a name is initialised and `true` is returned; otherwise the
arguments are compared with the stored members, a difference throws and
agreement returns `false`. -/
def Function.initializeOrCheck {Q : Type} (ops : QualifiedOps Q) (this : Function Q)
    (name : String) (instName : Q) (verbose : Bool) :
    Except std.runtime_error Bool × Function Q :=
  if name = "" then
    (.error ⟨"Function::initializeOrCheck called with empty name"⟩, this)
  else if this.name_ = "" then
    (.ok true, { name_ := name, templateArgValue_ := instName, verbose_ := verbose })
  else if this.name_ != name || ops.ne this.templateArgValue_ instName
      || this.verbose_ != verbose then
    (.error ⟨"Function::initializeOrCheck called with different arguments:  with name "
        ++ name ++ " instead of expected " ++ this.name_
        ++ ", or with template argument " ++ ops.qualifiedName instName ":"
        ++ " instead of expected " ++ ops.qualifiedName this.templateArgValue_ ":"⟩, this)
  else (.ok false, this)

/-- Sample operations on qualified names given as strings: `!=` is inequality
of strings and the qualified name is the string itself. -/
def stringOps : QualifiedOps String where
  ne a b := a != b
  qualifiedName q _ := q

/-- A function object that has not been initialised. -/
def blankFunction : Function String :=
  { name_ := "", templateArgValue_ := "", verbose_ := false }

end wrap

/-! ## Smart stereo projection factors
(`gtsam_unstable/slam/SmartStereoProjectionFactor.h`) -/

namespace gtsam

section SmartStereo

/-- Linearization mode: what factor to linearize to. -/
inductive LinearizationMode where
  | HESSIAN
  | IMPLICIT_SCHUR
  | JACOBIAN_Q
  | JACOBIAN_SVD
deriving DecidableEq, Repr

/-- How to manage degeneracy. -/
inductive DegeneracyMode where
  | IGNORE_DEGENERACY
  | ZERO_ON_DEGENERACY
  | HANDLE_INFINITY
deriving DecidableEq, Repr

/-- `SmartStereoProjectionParams`, without the triangulation parameters, which
the functions embedded here do not read. -/
structure SmartStereoProjectionParams (Tol : Type) where
  linearizationMode : LinearizationMode
  degeneracyMode : DegeneracyMode
  retriangulationThreshold : Tol
  throwCheirality : Bool
  verboseCheirality : Bool

/-- Modelled from the spec: `TriangulationResult` (gtsam/geometry/triangulation.h
is not among the sources), as its uses in the factor have it: an optional
point with a status.  `ofPoint p` is `TriangulationResult(p)`, which holds the
point and is valid; `Degenerate` and `BehindCamera` are the results of the
factory functions of those names, which hold no point. -/
inductive TriangulationResult (Point3 : Type) where
  | ofPoint (p : Point3)
  | Degenerate
  | BehindCamera
deriving DecidableEq, Repr

/-- Modelled from the spec: the conversion of a `TriangulationResult` to
`bool`, that of the optional point: true when the result holds a point. -/
def TriangulationResult.valid {Point3 : Type} : TriangulationResult Point3 → Bool
  | .ofPoint _ => true
  | .Degenerate => false
  | .BehindCamera => false

/-- Modelled from the spec: `TriangulationResult::degenerate()`. -/
def TriangulationResult.degenerate {Point3 : Type} : TriangulationResult Point3 → Bool
  | .Degenerate => true
  | _ => false

/-- The operations on cameras, poses and points that the factor uses, taken as
parameters (their sources are not among the files): `StereoCamera::pose()`,
`Pose3::equals(other, tol)`, the default point `Point3()`, and
`CameraSet::project2(point, boost::none, E)`, which gives the new `E` or
throws. -/
structure StereoOps (Camera Pose Point3 Tol Matrix X : Type) where
  pose : Camera → Pose
  equals : Pose → Pose → Tol → Bool
  origin : Point3
  project2 : List Camera → Point3 → Except X Matrix

/-- The mutable members of `SmartStereoProjectionFactor` and its parameters:
the cached triangulation result and the poses used for the last
triangulation. -/
structure SmartStereoProjectionFactor (Pose Point3 Tol : Type) where
  params_ : SmartStereoProjectionParams Tol
  result_ : TriangulationResult Point3
  cameraPosesTriangulation_ : List Pose

variable {Camera Pose Point3 Tol Matrix X : Type}

/-- The constructor of `SmartStereoProjectionFactor`: the result is
`TriangulationResult::Degenerate()` and no pose is cached. -/
def SmartStereoProjectionFactor.construct (params : SmartStereoProjectionParams Tol) :
    SmartStereoProjectionFactor Pose Point3 Tol :=
  { params_ := params, result_ := .Degenerate, cameraPosesTriangulation_ := [] }

/-- The comparison loop of `decideIfTriangulate`, entered with as many cameras
as cached poses: camera `i` is compared with cached pose `i`, and the loop
ends with `true` at the first pair that is not equal within the threshold. -/
def posesDiffer (ops : StereoOps Camera Pose Point3 Tol Matrix X) (threshold : Tol) :
    List Camera → List Pose → Bool
  | camera :: cameras, cached :: rest =>
    if !ops.equals (ops.pose camera) cached threshold then true
    else posesDiffer ops threshold cameras rest
  | _, _ => false

/-- `decideIfTriangulate`: whether to re-triangulate, and the factor
afterwards.  When the answer is `true` the cache is replaced by the poses of
the cameras. -/
def SmartStereoProjectionFactor.decideIfTriangulate
    (ops : StereoOps Camera Pose Point3 Tol Matrix X)
    (this : SmartStereoProjectionFactor Pose Point3 Tol) (cameras : List Camera) :
    Bool × SmartStereoProjectionFactor Pose Point3 Tol :=
  let retriangulate0 : Bool :=
    this.cameraPosesTriangulation_.isEmpty
      || cameras.length != this.cameraPosesTriangulation_.length
  let retriangulate : Bool :=
    if !retriangulate0 then
      posesDiffer ops this.params_.retriangulationThreshold cameras
        this.cameraPosesTriangulation_
    else retriangulate0
  if retriangulate then
    (true, { this with cameraPosesTriangulation_ := cameras.map ops.pose })
  else (false, this)

/-- `triangulateSafe`: with fewer than two cameras the degenerate result;
otherwise `decideIfTriangulate` is run (the triangulation it would trigger is
commented out in the source) and the result is `TriangulationResult(Point3())`.
The member `result_` is not assigned. -/
def SmartStereoProjectionFactor.triangulateSafe
    (ops : StereoOps Camera Pose Point3 Tol Matrix X)
    (this : SmartStereoProjectionFactor Pose Point3 Tol) (cameras : List Camera) :
    TriangulationResult Point3 × SmartStereoProjectionFactor Pose Point3 Tol :=
  let m := cameras.length
  if m < 2 then (.Degenerate, this)
  else
    let r := this.decideIfTriangulate ops cameras
    (.ofPoint ops.origin, r.2)

/-- `triangulateForLinearize`: calls `triangulateSafe`, drops what it returns,
and returns the member `result_` converted to `bool`. -/
def SmartStereoProjectionFactor.triangulateForLinearize
    (ops : StereoOps Camera Pose Point3 Tol Matrix X)
    (this : SmartStereoProjectionFactor Pose Point3 Tol) (cameras : List Camera) :
    Bool × SmartStereoProjectionFactor Pose Point3 Tol :=
  let this1 := (this.triangulateSafe ops cameras).2
  (this1.result_.valid, this1)

/-- `triangulateAndComputeE`: the returned boolean and the matrix `E`
afterwards, or the exception of `project2`; and the factor afterwards.  `E`
is written only when `nonDegenerate` is true, that is when `result_` holds a
point, which `*result_` then reads. -/
def SmartStereoProjectionFactor.triangulateAndComputeE
    (ops : StereoOps Camera Pose Point3 Tol Matrix X)
    (this : SmartStereoProjectionFactor Pose Point3 Tol) (E : Matrix)
    (cameras : List Camera) :
    Except X (Bool × Matrix) × SmartStereoProjectionFactor Pose Point3 Tol :=
  let r := this.triangulateForLinearize ops cameras
  let nonDegenerate := r.1
  if nonDegenerate then
    match r.2.result_ with
    | .ofPoint point =>
      match ops.project2 cameras point with
      | .ok E1 => (.ok (nonDegenerate, E1), r.2)
      | .error e => (.error e, r.2)
    | _ => (.ok (nonDegenerate, E), r.2)
  else (.ok (nonDegenerate, E), r.2)

/-- `linearizeDamped` on cameras: the switch on the linearization mode.  What
`createHessianFactor` does is a parameter; the default branch throws without
doing anything else. -/
def SmartStereoProjectionFactor.linearizeDamped {Lambda R : Type}
    (createHessianFactor :
      SmartStereoProjectionFactor Pose Point3 Tol → List Camera → Lambda → R)
    (this : SmartStereoProjectionFactor Pose Point3 Tol) (cameras : List Camera)
    (lambda : Lambda) : Except std.runtime_error R :=
  match this.params_.linearizationMode with
  | .HESSIAN => .ok (createHessianFactor this cameras lambda)
  | _ => .error ⟨"SmartStereoFactorlinearize: unknown mode"⟩

/-- Sample operations: cameras are their poses, poses are integers, equal
within a threshold when their distance is at most the threshold; `project2`
gives the number of cameras. -/
def sampleStereoOps : StereoOps Int Int Int Nat Nat Unit where
  pose c := c
  equals a b tol := decide ((a - b).natAbs ≤ tol)
  origin := 0
  project2 cameras _ := .ok cameras.length

/-- Sample parameters: those of the default constructor, with threshold 0. -/
def sampleParams : SmartStereoProjectionParams Nat :=
  { linearizationMode := .HESSIAN, degeneracyMode := .IGNORE_DEGENERACY,
    retriangulationThreshold := 0, throwCheirality := false, verboseCheirality := false }

/-- A factor as constructed from the sample parameters. -/
def freshFactor : SmartStereoProjectionFactor Int Int Nat :=
  SmartStereoProjectionFactor.construct sampleParams

end SmartStereo

/-! ## Theorems -/

section BuilderTheorems

variable {F : Type}

mutual
/-- Induction over elimination tree nodes: a property holds of every node if it
holds of a node whenever it holds of all its children. -/
theorem etreeNode_induct {motive : ETreeNode F → Prop}
    (h : ∀ k fs cs, (∀ c ∈ cs, motive c) → motive (.mk k fs cs)) :
    ∀ n, motive n
  | .mk k fs cs => h k fs cs (etreeNode_induct_list h cs)
/-- The list part of `etreeNode_induct`. -/
theorem etreeNode_induct_list {motive : ETreeNode F → Prop}
    (h : ∀ k fs cs, (∀ c ∈ cs, motive c) → motive (.mk k fs cs)) :
    ∀ (cs : List (ETreeNode F)) (c : ETreeNode F), c ∈ cs → motive c
  | [], _, hc => absurd hc (List.not_mem_nil _)
  | c :: cs, x, hx =>
    (List.mem_cons.1 hx).elim (fun e => e ▸ etreeNode_induct h c)
      (fun hx1 => etreeNode_induct_list h cs x hx1)
end

mutual
/-- Induction over junction tree nodes. -/
theorem node_induct {motive : Node F → Prop}
    (h : ∀ ks fs cs p, (∀ c ∈ cs, motive c) → motive (.mk ks fs cs p)) :
    ∀ n, motive n
  | .mk ks fs cs p => h ks fs cs p (node_induct_list h cs)
/-- The list part of `node_induct`. -/
theorem node_induct_list {motive : Node F → Prop}
    (h : ∀ ks fs cs p, (∀ c ∈ cs, motive c) → motive (.mk ks fs cs p)) :
    ∀ (cs : List (Node F)) (c : Node F), c ∈ cs → motive c
  | [], _, hc => absurd hc (List.not_mem_nil _)
  | c :: cs, x, hx =>
    (List.mem_cons.1 hx).elim (fun e => e ▸ node_induct h c)
      (fun hx1 => node_induct_list h cs x hx1)
end

@[simp] theorem node_keys_mk (ks : List Key) (fs : List F) (cs : List (Node F)) (p : Int) :
    (Node.mk ks fs cs p).keys = ks := rfl

@[simp] theorem node_factors_mk (ks : List Key) (fs : List F) (cs : List (Node F)) (p : Int) :
    (Node.mk ks fs cs p).factors = fs := rfl

@[simp] theorem node_children_mk (ks : List Key) (fs : List F) (cs : List (Node F)) (p : Int) :
    (Node.mk ks fs cs p).children = cs := rfl

@[simp] theorem node_problemSize_mk (ks : List Key) (fs : List F) (cs : List (Node F))
    (p : Int) : (Node.mk ks fs cs p).problemSize_ = p := rfl

@[simp] theorem node_mk_eta (n : Node F) :
    Node.mk n.keys n.factors n.children n.problemSize_ = n := by
  cases n; rfl

@[simp] theorem etreeNode_key_mk (k : Key) (fs : List F) (cs : List (ETreeNode F)) :
    (ETreeNode.mk k fs cs).key = k := rfl

@[simp] theorem etreeNode_factors_mk (k : Key) (fs : List F) (cs : List (ETreeNode F)) :
    (ETreeNode.mk k fs cs).factors = fs := rfl

@[simp] theorem etreeNode_children_mk (k : Key) (fs : List F) (cs : List (ETreeNode F)) :
    (ETreeNode.mk k fs cs).children = cs := rfl

theorem symbolicFactorsOf_eq_map (S : Symbolic F) (ns : List (ETreeNode F)) :
    symbolicFactorsOf S ns = ns.map (fun n => (symbolicElim S n).2) := by
  induction ns with
  | nil => simp [symbolicFactorsOf]
  | cons n ns ih => simp [symbolicFactorsOf, ih]

theorem cliquesOf_eq_map (S : Symbolic F) (ns : List (ETreeNode F)) :
    cliquesOf S ns = ns.map (cliqueOf S) := by
  induction ns with
  | nil => simp [cliquesOf]
  | cons n ns ih => simp [cliquesOf, ih]

theorem nodesList_eq_flatMap (ns : List (ETreeNode F)) :
    ETreeNode.nodesList ns = ns.flatMap ETreeNode.nodes := by
  induction ns with
  | nil => simp [ETreeNode.nodesList]
  | cons n ns ih => simp [ETreeNode.nodesList, ih]

theorem cliquesList_eq_flatMap (cs : List (Node F)) :
    Node.cliquesList cs = cs.flatMap Node.cliques := by
  induction cs with
  | nil => simp [Node.cliquesList]
  | cons n ns ih => simp [Node.cliquesList, ih]

theorem mergedChildren_cons (K : Node F) (Ks : List (Node F)) (d : Bool) (ds : List Bool) :
    mergedChildren (K :: Ks) (d :: ds) =
      if d then K :: mergedChildren Ks ds else mergedChildren Ks ds := by
  cases d <;> simp [mergedChildren]

theorem keptChildren_cons (K : Node F) (Ks : List (Node F)) (d : Bool) (ds : List Bool) :
    keptChildren (K :: Ks) (d :: ds) =
      if d then keptChildren Ks ds else K :: keptChildren Ks ds := by
  cases d <;> simp [keptChildren]

theorem mergedChildren_nil (ds : List Bool) :
    mergedChildren ([] : List (Node F)) ds = [] := by
  simp [mergedChildren]

theorem keptChildren_nil (ds : List Bool) :
    keptChildren ([] : List (Node F)) ds = [] := by
  simp [keptChildren]

theorem eraseIdx_length_append_cons {α : Type} (pre : List α) (x : α) (post : List α) :
    (pre ++ x :: post).eraseIdx pre.length = pre ++ post := by
  induction pre with
  | nil => simp
  | cons a pre ih => simp [ih]

/-- The merge loop, started anywhere: with `pre` the children already kept,
`Ks` the original children still to be looked at and `spl` the children
spliced in so far, the loop ends in the state that the decisions describe. -/
theorem mergeLoop_spec (rd : Node F → Int) (p : Nat) :
    ∀ (rest : List SymbolicConditional) (Ks : List (Node F)),
      Ks.length = rest.length →
      ∀ (child : Nat) (pre spl : List (Node F)) (ks : List Key) (fs : List F)
        (n : Nat) (ps : Int), pre.length + n = child →
      mergeLoop rd p rest child
          { keys := ks, factors := fs, children := pre ++ Ks ++ spl,
            nrMergedChildren := n, combinedProblemSize := ps } =
        some
          { keys := (mergedChildren Ks (mergeDecisions p rest)).reverse.flatMap Node.keys ++ ks
            factors := fs ++ (mergedChildren Ks (mergeDecisions p rest)).flatMap Node.factors
            children := pre ++ keptChildren Ks (mergeDecisions p rest) ++ spl ++
              (mergedChildren Ks (mergeDecisions p rest)).flatMap Node.children
            nrMergedChildren := n + (mergedChildren Ks (mergeDecisions p rest)).length
            combinedProblemSize :=
              (mergedChildren Ks (mergeDecisions p rest)).foldl
                (fun a k => max a (rd k)) ps } := by
  intro rest
  induction rest with
  | nil =>
    intro Ks hlen child pre spl ks fs n ps _
    have hK : Ks = [] := List.length_eq_zero.1 (by simpa using hlen)
    subst hK
    simp [mergeLoop, mergeDecisions, mergedChildren_nil, keptChildren_nil]
  | cons c rest ih =>
    intro Ks hlen child pre spl ks fs n ps hidx
    cases Ks with
    | nil => simp at hlen
    | cons K Ks =>
      have hlen1 : Ks.length = rest.length := by simpa using hlen
      have hsub : child - n = pre.length := by omega
      by_cases hm : p + 1 = c.nrParents
      · have hget : (pre ++ K :: Ks ++ spl)[child - n]? = some K := by
          rw [hsub, List.append_assoc, List.getElem?_append_right (Nat.le_refl _)]
          simp
        have herase : ((pre ++ K :: Ks ++ spl) ++ K.children).eraseIdx (child - n) =
            pre ++ Ks ++ (spl ++ K.children) := by
          rw [hsub]
          have := eraseIdx_length_append_cons pre K (Ks ++ spl ++ K.children)
          simpa [List.append_assoc] using this
        have hrec := ih Ks hlen1 (child + 1) pre (spl ++ K.children) (K.keys ++ ks)
          (fs ++ K.factors) (n + 1) (max ps (rd K)) (by omega)
        simp only [mergeLoop, if_pos hm, hget, herase, hrec]
        simp [mergeDecisions, mergedChildren_cons, keptChildren_cons, hm, List.flatMap_append,
          List.append_assoc, Nat.add_assoc, Nat.add_comm 1]
      · have hrec := ih Ks hlen1 (child + 1) (pre ++ [K]) spl ks fs n ps
          (by simp; omega)
        have hch : pre ++ K :: Ks ++ spl = pre ++ [K] ++ Ks ++ spl := by simp
        simp only [mergeLoop, if_neg hm, hch, hrec]
        simp [mergeDecisions, mergedChildren_cons, keptChildren_cons, hm, List.append_assoc]

/-- The post-order visitor on a node whose clique still has the shape the
pre-order visitor gave it (`ks`, `fs`) plus the child cliques `Ks`. -/
theorem post_visitor_spec (S : Symbolic F) (N : ETreeNode F)
    (myData parentData : ConstructorTraversalData F)
    (ks : List Key) (fs : List F) (Ks : List (Node F)) (ps0 : Int)
    (hnode : myData.myJTNode = Node.mk ks fs Ks ps0)
    (hlen : Ks.length = myData.childSymbolicConditionals.length) :
    ConstructorTraversalVisitorPost S N myData parentData =
      some
        { myJTNode := Node.mk parentData.myJTNode.keys parentData.myJTNode.factors
            (parentData.myJTNode.children.dropLast ++
              [Node.mk
                ((mergedChildren Ks (mergeDecisions
                    (S.EliminateSymbolic (N.factors.map S.FromKeys ++
                      myData.childSymbolicFactors) [N.key]).1.nrParents
                    myData.childSymbolicConditionals)).reverse.flatMap Node.keys ++ ks)
                (fs ++ (mergedChildren Ks (mergeDecisions
                    (S.EliminateSymbolic (N.factors.map S.FromKeys ++
                      myData.childSymbolicFactors) [N.key]).1.nrParents
                    myData.childSymbolicConditionals)).flatMap Node.factors)
                (keptChildren Ks (mergeDecisions
                    (S.EliminateSymbolic (N.factors.map S.FromKeys ++
                      myData.childSymbolicFactors) [N.key]).1.nrParents
                    myData.childSymbolicConditionals) ++
                  (mergedChildren Ks (mergeDecisions
                    (S.EliminateSymbolic (N.factors.map S.FromKeys ++
                      myData.childSymbolicFactors) [N.key]).1.nrParents
                    myData.childSymbolicConditionals)).flatMap Node.children)
                ((mergedChildren Ks (mergeDecisions
                    (S.EliminateSymbolic (N.factors.map S.FromKeys ++
                      myData.childSymbolicFactors) [N.key]).1.nrParents
                    myData.childSymbolicConditionals)).foldl
                  (fun a k => max a (S.erasedProblemSize k))
                  ((S.EliminateSymbolic (N.factors.map S.FromKeys ++
                      myData.childSymbolicFactors) [N.key]).1.size : Int))])
            parentData.myJTNode.problemSize_
          childSymbolicConditionals := parentData.childSymbolicConditionals ++
            [(S.EliminateSymbolic (N.factors.map S.FromKeys ++
                myData.childSymbolicFactors) [N.key]).1]
          childSymbolicFactors := parentData.childSymbolicFactors ++
            [(S.EliminateSymbolic (N.factors.map S.FromKeys ++
                myData.childSymbolicFactors) [N.key]).2] } := by
  have h := mergeLoop_spec S.erasedProblemSize
    (S.EliminateSymbolic (N.factors.map S.FromKeys ++ myData.childSymbolicFactors)
      [N.key]).1.nrParents
    myData.childSymbolicConditionals Ks hlen 0 [] [] ks fs 0
    ((S.EliminateSymbolic (N.factors.map S.FromKeys ++ myData.childSymbolicFactors)
      [N.key]).1.size : Int) (by simp)
  simp only [List.nil_append, List.append_nil] at h
  simp only [ConstructorTraversalVisitorPost, hnode, node_keys_mk, node_factors_mk,
    node_children_mk, h]

/-- What the traversal of a list of siblings does, given what it does on each. -/
theorem visitForest_spec_of (S : Symbolic F) :
    ∀ (ns : List (ETreeNode F)),
      (∀ n ∈ ns, ∀ d : ConstructorTraversalData F, visitNode S n d =
        some { myJTNode := Node.mk d.myJTNode.keys d.myJTNode.factors
                 (d.myJTNode.children ++ [cliqueOf S n]) d.myJTNode.problemSize_
               childSymbolicConditionals := d.childSymbolicConditionals ++ [conditionalOf S n]
               childSymbolicFactors := d.childSymbolicFactors ++ [(symbolicElim S n).2] }) →
      ∀ d : ConstructorTraversalData F, visitForest S ns d =
        some { myJTNode := Node.mk d.myJTNode.keys d.myJTNode.factors
                 (d.myJTNode.children ++ cliquesOf S ns) d.myJTNode.problemSize_
               childSymbolicConditionals :=
                 d.childSymbolicConditionals ++ ns.map (conditionalOf S)
               childSymbolicFactors := d.childSymbolicFactors ++ symbolicFactorsOf S ns } := by
  intro ns
  induction ns with
  | nil =>
    intro _ d
    simp [visitForest, cliquesOf, symbolicFactorsOf]
  | cons n ns ih =>
    intro h d
    have hn := h n (List.mem_cons_self _ _) d
    have hns := ih (fun m hm => h m (List.mem_cons_of_mem _ hm))
    simp only [visitForest, hn, hns]
    simp [cliquesOf, symbolicFactorsOf, List.append_assoc]

/-- The traversal of one subtree appends to the parent's data the clique built
for the node, its symbolic conditional and its symbolic factor. -/
theorem visitNode_spec (S : Symbolic F) (n : ETreeNode F) :
    ∀ d : ConstructorTraversalData F, visitNode S n d =
      some { myJTNode := Node.mk d.myJTNode.keys d.myJTNode.factors
               (d.myJTNode.children ++ [cliqueOf S n]) d.myJTNode.problemSize_
             childSymbolicConditionals := d.childSymbolicConditionals ++ [conditionalOf S n]
             childSymbolicFactors := d.childSymbolicFactors ++ [(symbolicElim S n).2] } := by
  induction n using etreeNode_induct with
  | h k fs cs ih =>
    intro d
    have hf := visitForest_spec_of S cs ih (ConstructorTraversalVisitorPre (.mk k fs cs) d).1
    have hlen : (cliquesOf S cs).length = (cs.map (conditionalOf S)).length := by
      simp [cliquesOf_eq_map]
    have hp := post_visitor_spec S (.mk k fs cs)
      { myJTNode := Node.mk [k] fs (cliquesOf S cs) 0
        childSymbolicConditionals := cs.map (conditionalOf S)
        childSymbolicFactors := symbolicFactorsOf S cs }
      (ConstructorTraversalVisitorPre (.mk k fs cs) d).2 [k] fs (cliquesOf S cs) 0 rfl hlen
    simp only [ConstructorTraversalVisitorPre, etreeNode_key_mk, etreeNode_factors_mk,
      node_keys_mk, node_factors_mk, node_children_mk, node_problemSize_mk, List.nil_append,
      List.append_nil] at hf hp
    simp only [visitNode, ConstructorTraversalVisitorPre, etreeNode_key_mk,
      etreeNode_factors_mk, node_keys_mk, node_factors_mk, node_children_mk,
      node_problemSize_mk, List.nil_append, List.append_nil, hf, hp, List.dropLast_concat]
    simp [cliqueOf, rebuildOnce, conditionalOf, nrParentsOf, symbolicElim]

/-- The traversal of a list of siblings, unconditionally. -/
theorem visitForest_spec (S : Symbolic F) (ns : List (ETreeNode F))
    (d : ConstructorTraversalData F) :
    visitForest S ns d =
      some { myJTNode := Node.mk d.myJTNode.keys d.myJTNode.factors
               (d.myJTNode.children ++ cliquesOf S ns) d.myJTNode.problemSize_
             childSymbolicConditionals :=
               d.childSymbolicConditionals ++ ns.map (conditionalOf S)
             childSymbolicFactors := d.childSymbolicFactors ++ symbolicFactorsOf S ns } :=
  visitForest_spec_of S ns (fun n _ => visitNode_spec S n) d

/-- The builder always returns, and its roots are the cliques built for the
roots of the elimination tree. -/
theorem FromEliminationTree_eq (S : Symbolic F) (et : EliminationTree F) :
    JunctionTree.FromEliminationTree S et =
      some { roots_ := cliquesOf S et.roots, remainingFactors_ := et.remainingFactors } := by
  simp [JunctionTree.FromEliminationTree, visitForest_spec]

theorem node_cliques_eq (n : Node F) :
    n.cliques = n :: n.children.flatMap Node.cliques := by
  cases n with
  | mk ks fs cs p => simp [Node.cliques, cliquesList_eq_flatMap]

theorem etreeNode_nodes_eq (n : ETreeNode F) :
    n.nodes = n :: n.children.flatMap ETreeNode.nodes := by
  cases n with
  | mk k fs cs => simp [ETreeNode.nodes, nodesList_eq_flatMap]

theorem mergeDecisions_map (S : Symbolic F) (p : Nat) (cs : List (ETreeNode F)) :
    mergeDecisions p (cs.map (conditionalOf S)) = cs.map (shouldMerge S p) := by
  simp [mergeDecisions, shouldMerge, nrParentsOf, Function.comp_def]

theorem mergedChildren_map_map {α : Type} (f : α → Node F) (g : α → Bool) (cs : List α) :
    mergedChildren (cs.map f) (cs.map g) = (cs.filter g).map f := by
  induction cs with
  | nil => simp [mergedChildren_nil]
  | cons c cs ih =>
    cases hg : g c <;> simp [mergedChildren_cons, hg, ih]

theorem keptChildren_map_map {α : Type} (f : α → Node F) (g : α → Bool) (cs : List α) :
    keptChildren (cs.map f) (cs.map g) = (cs.filter (fun c => !g c)).map f := by
  induction cs with
  | nil => simp [keptChildren_nil]
  | cons c cs ih =>
    cases hg : g c <;> simp [keptChildren_cons, hg, ih]

theorem mergedChildren_map (S : Symbolic F) (p : Nat) (cs : List (ETreeNode F)) :
    mergedChildren (cs.map (cliqueOf S)) (mergeDecisions p (cs.map (conditionalOf S))) =
      (cs.filter (shouldMerge S p)).map (cliqueOf S) := by
  rw [mergeDecisions_map, mergedChildren_map_map]

theorem keptChildren_map (S : Symbolic F) (p : Nat) (cs : List (ETreeNode F)) :
    keptChildren (cs.map (cliqueOf S)) (mergeDecisions p (cs.map (conditionalOf S))) =
      (cs.filter (fun c => !shouldMerge S p c)).map (cliqueOf S) := by
  rw [mergeDecisions_map, keptChildren_map_map]

theorem cliqueOf_keys (S : Symbolic F) (k : Key) (fs : List F) (cs : List (ETreeNode F)) :
    (cliqueOf S (.mk k fs cs)).keys =
      ((cs.filter (shouldMerge S (nrParentsOf S (.mk k fs cs)))).reverse.flatMap
        (fun c => (cliqueOf S c).keys)) ++ [k] := by
  simp [cliqueOf, rebuildOnce, cliquesOf_eq_map, mergedChildren_map, List.flatMap_map,
    ← List.map_reverse, Function.comp_def]

theorem cliqueOf_factors (S : Symbolic F) (k : Key) (fs : List F) (cs : List (ETreeNode F)) :
    (cliqueOf S (.mk k fs cs)).factors =
      fs ++ (cs.filter (shouldMerge S (nrParentsOf S (.mk k fs cs)))).flatMap
        (fun c => (cliqueOf S c).factors) := by
  simp [cliqueOf, rebuildOnce, cliquesOf_eq_map, mergedChildren_map, List.flatMap_map,
    Function.comp_def]

theorem cliqueOf_children (S : Symbolic F) (k : Key) (fs : List F) (cs : List (ETreeNode F)) :
    (cliqueOf S (.mk k fs cs)).children =
      (cs.filter (fun c => !shouldMerge S (nrParentsOf S (.mk k fs cs)) c)).map (cliqueOf S) ++
      (cs.filter (shouldMerge S (nrParentsOf S (.mk k fs cs)))).flatMap
        (fun c => (cliqueOf S c).children) := by
  simp [cliqueOf, rebuildOnce, cliquesOf_eq_map, mergedChildren_map, keptChildren_map,
    List.flatMap_map, Function.comp_def]

theorem cliqueOf_problemSize (S : Symbolic F) (k : Key) (fs : List F)
    (cs : List (ETreeNode F)) :
    (cliqueOf S (.mk k fs cs)).problemSize_ =
      (cs.filter (shouldMerge S (nrParentsOf S (.mk k fs cs)))).foldl
        (fun a c => max a (S.erasedProblemSize (cliqueOf S c)))
        ((conditionalOf S (.mk k fs cs)).size : Int) := by
  simp [cliqueOf, rebuildOnce, cliquesOf_eq_map, mergedChildren_map, List.foldl_map]

theorem membersOfMerged_eq (S : Symbolic F) (p : Nat) (cs : List (ETreeNode F)) :
    membersOfMerged S p cs = (cs.filter (shouldMerge S p)).reverse.flatMap (membersOf S) := by
  induction cs with
  | nil => simp [membersOfMerged]
  | cons c cs ih =>
    by_cases h : p + 1 = nrParentsOf S c
    · simp [membersOfMerged, ih, shouldMerge, h, List.flatMap_append]
    · simp [membersOfMerged, ih, shouldMerge, h]

theorem membersOf_eq (S : Symbolic F) (k : Key) (fs : List F) (cs : List (ETreeNode F)) :
    membersOf S (.mk k fs cs) =
      (cs.filter (shouldMerge S (nrParentsOf S (.mk k fs cs)))).reverse.flatMap (membersOf S)
        ++ [.mk k fs cs] := by
  simp [membersOf, membersOfMerged_eq]

/-- What a field of the cliques adds up to over a whole subtree: if the field
`φ` of the clique of a node is, up to order, the node's own part `ψ` together
with the fields of the merged children's cliques, then over all cliques of the
subtree `φ` collects exactly the parts `ψ` of all nodes. -/
theorem collect_perm {α : Type} (S : Symbolic F) (φ : Node F → List α)
    (ψ : ETreeNode F → List α)
    (h : ∀ k fs cs, List.Perm (φ (cliqueOf S (.mk k fs cs)))
      (ψ (.mk k fs cs) ++
        (cs.filter (shouldMerge S (nrParentsOf S (.mk k fs cs)))).flatMap
          (fun c => φ (cliqueOf S c))))
    (n : ETreeNode F) :
    List.Perm ((cliqueOf S n).cliques.flatMap φ) (n.nodes.flatMap ψ) := by
  induction n using etreeNode_induct with
  | h k fs cs ih =>
    have hA : ∀ c : ETreeNode F, (cliqueOf S c).cliques.flatMap φ =
        φ (cliqueOf S c) ++
          (cliqueOf S c).children.flatMap (fun C => C.cliques.flatMap φ) := by
      intro c
      rw [node_cliques_eq, List.flatMap_cons, List.flatMap_assoc]
    rw [hA, etreeNode_nodes_eq, List.flatMap_cons, List.flatMap_assoc, cliqueOf_children,
      List.flatMap_append, List.flatMap_map, List.flatMap_assoc, etreeNode_children_mk]
    refine ((h k fs cs).append_right _).trans ?_
    rw [List.append_assoc]
    refine List.Perm.append_left _ ?_
    have h1 := List.flatMap_append_perm
      (cs.filter (shouldMerge S (nrParentsOf S (.mk k fs cs))))
      (fun c => φ (cliqueOf S c))
      (fun c => (cliqueOf S c).children.flatMap (fun C => C.cliques.flatMap φ))
    have h2 : (fun c => φ (cliqueOf S c) ++
          (cliqueOf S c).children.flatMap (fun C => C.cliques.flatMap φ)) =
        (fun c => (cliqueOf S c).cliques.flatMap φ) := by
      funext c; rw [hA]
    rw [h2] at h1
    have h3 := (List.filter_append_perm (shouldMerge S (nrParentsOf S (.mk k fs cs))) cs).flatMap_right
      (fun c => (cliqueOf S c).cliques.flatMap φ)
    rw [List.flatMap_append] at h3
    have h4 : List.Perm (cs.flatMap (fun c => (cliqueOf S c).cliques.flatMap φ))
        (cs.flatMap (fun c => c.nodes.flatMap ψ)) :=
      List.Perm.flatMap_left cs (fun c hc => ih c hc)
    refine List.Perm.trans ?_ (h3.trans h4)
    refine List.Perm.trans ?_ (h1.append_right _)
    rw [List.append_assoc]
    exact List.Perm.append_left _ List.perm_append_comm

theorem collect_perm_forest {α : Type} (S : Symbolic F) (φ : Node F → List α)
    (ψ : ETreeNode F → List α)
    (h : ∀ k fs cs, List.Perm (φ (cliqueOf S (.mk k fs cs)))
      (ψ (.mk k fs cs) ++
        (cs.filter (shouldMerge S (nrParentsOf S (.mk k fs cs)))).flatMap
          (fun c => φ (cliqueOf S c))))
    (ns : List (ETreeNode F)) :
    List.Perm ((Node.cliquesList (cliquesOf S ns)).flatMap φ)
      ((ETreeNode.nodesList ns).flatMap ψ) := by
  rw [cliquesList_eq_flatMap, nodesList_eq_flatMap, cliquesOf_eq_map, List.flatMap_map,
    List.flatMap_assoc, List.flatMap_assoc]
  exact List.Perm.flatMap_left ns (fun n _ => collect_perm S φ ψ h n)

theorem cliqueOf_keys_perm (S : Symbolic F) (k : Key) (fs : List F)
    (cs : List (ETreeNode F)) :
    List.Perm ((cliqueOf S (.mk k fs cs)).keys)
      ([k] ++ (cs.filter (shouldMerge S (nrParentsOf S (.mk k fs cs)))).flatMap
        (fun c => (cliqueOf S c).keys)) := by
  rw [cliqueOf_keys]
  exact List.perm_append_comm.trans
    (List.Perm.append_left _ ((List.reverse_perm _).flatMap_right _))

/-- The frontal keys of all cliques of the built forest are, up to order, the
variables of the elimination tree. -/
theorem forest_keys_perm (S : Symbolic F) (et : EliminationTree F) :
    List.Perm ((Node.cliquesList (cliquesOf S et.roots)).flatMap Node.keys) et.variables := by
  have h := collect_perm_forest S Node.keys (fun n => [n.key])
    (fun k fs cs => cliqueOf_keys_perm S k fs cs) et.roots
  have e : (ETreeNode.nodesList et.roots).flatMap (fun n => [n.key]) = et.variables := by
    simp [EliminationTree.variables, EliminationTree.nodes, List.map_eq_flatMap]
  rwa [e] at h

/-- C1 (partition invariant). For every elimination tree whose nodes own
pairwise distinct variables and every symbolic side, `FromEliminationTree`
returns a forest; the frontal keys of all its cliques, concatenated, are a
permutation of the variables of the elimination tree, and every variable
occurs in that concatenation exactly once. -/
theorem partition_invariant (S : Symbolic F) (et : EliminationTree F)
    (hnd : et.variables.Nodup) :
    ∃ jt, JunctionTree.FromEliminationTree S et = some jt ∧
      List.Perm (jt.cliques.flatMap Node.keys) et.variables ∧
      ∀ v ∈ et.variables, (jt.cliques.flatMap Node.keys).count v = 1 := by
  refine ⟨_, FromEliminationTree_eq S et, forest_keys_perm S et, ?_⟩
  intro v hv
  have hp := forest_keys_perm S et
  have hnd1 : ((Node.cliquesList (cliquesOf S et.roots)).flatMap Node.keys).Nodup :=
    hp.nodup_iff.2 hnd
  exact List.count_eq_one_of_mem hnd1 (hp.mem_iff.2 hv)

/-- The theorem `partition_invariant` applied to the star tree. -/
theorem partition_invariant_witness :
    starTree.variables.Nodup ∧
    ∃ jt, JunctionTree.FromEliminationTree sampleSymbolic starTree = some jt ∧
      List.Perm (jt.cliques.flatMap Node.keys) starTree.variables ∧
      ∀ v ∈ starTree.variables, (jt.cliques.flatMap Node.keys).count v = 1 :=
  ⟨by decide, partition_invariant sampleSymbolic starTree (by decide)⟩

/-- C3 (merge effect). The post-order visitor, run on a node `N` whose clique
is as the pre-order visitor left it (`[N.key]`, `N.factors`) with child cliques
`Ks`, one per collected child conditional, leaves as `N`'s clique (the last
child of the parent's clique) exactly the clique rebuilt once from the merge
decisions: keys of the merged children, last merged first, then `N.key`; own
factors, then the merged children's factors in order; kept children in their
original order, then the merged children's children in order. -/
theorem merge_effect_refines_rebuild (S : Symbolic F) (N : ETreeNode F)
    (myData parentData : ConstructorTraversalData F) (Ks : List (Node F)) (ps0 : Int)
    (hnode : myData.myJTNode = Node.mk [N.key] N.factors Ks ps0)
    (hlen : Ks.length = myData.childSymbolicConditionals.length) :
    ∃ parentData1, ConstructorTraversalVisitorPost S N myData parentData = some parentData1 ∧
      parentData1.myJTNode.children.getLast? = some
        (rebuildOnce S.erasedProblemSize N.key N.factors Ks
          (mergeDecisions
            (S.EliminateSymbolic (N.factors.map S.FromKeys ++ myData.childSymbolicFactors)
              [N.key]).1.nrParents
            myData.childSymbolicConditionals)
          ((S.EliminateSymbolic (N.factors.map S.FromKeys ++ myData.childSymbolicFactors)
              [N.key]).1.size : Int)) := by
  refine ⟨_, post_visitor_spec S N myData parentData [N.key] N.factors Ks ps0 hnode hlen, ?_⟩
  simp [rebuildOnce]

/-- The theorem `merge_effect_refines_rebuild` applied to the hub of the star
tree after its three leaves have been visited. -/
theorem merge_effect_refines_rebuild_witness :
    ∃ parentData1,
      ConstructorTraversalVisitorPost sampleSymbolic starHub starHubData starRootData =
        some parentData1 ∧
      parentData1.myJTNode.children.getLast? = some
        (rebuildOnce sampleSymbolic.erasedProblemSize starHub.key starHub.factors
          starLeafCliques
          (mergeDecisions
            (sampleSymbolic.EliminateSymbolic
              (starHub.factors.map sampleSymbolic.FromKeys ++ starHubData.childSymbolicFactors)
              [starHub.key]).1.nrParents
            starHubData.childSymbolicConditionals)
          ((sampleSymbolic.EliminateSymbolic
              (starHub.factors.map sampleSymbolic.FromKeys ++ starHubData.childSymbolicFactors)
              [starHub.key]).1.size : Int)) :=
  merge_effect_refines_rebuild sampleSymbolic starHub starHubData starRootData
    starLeafCliques 0 rfl rfl

theorem mergedChildren_subset (Ks : List (Node F)) (ds : List Bool) :
    ∀ K ∈ mergedChildren Ks ds, K ∈ Ks := by
  intro K hK
  simp only [mergedChildren, List.mem_map, List.mem_filter] at hK
  obtain ⟨⟨K1, d⟩, ⟨hz, _⟩, rfl⟩ := hK
  exact (List.of_mem_zip hz).1

theorem keptChildren_subset (Ks : List (Node F)) (ds : List Bool) :
    ∀ K ∈ keptChildren Ks ds, K ∈ Ks := by
  intro K hK
  simp only [keptChildren, List.mem_map, List.mem_filter] at hK
  obtain ⟨⟨K1, d⟩, ⟨hz, _⟩, rfl⟩ := hK
  exact (List.of_mem_zip hz).1

/-- Among pairwise distinct child cliques, the one at position `i` is among
the merged ones exactly when decision `i` says so, and among the kept ones
exactly when it does not. -/
theorem mem_merged_kept_iff :
    ∀ (Ks : List (Node F)) (ds : List Bool), Ks.Nodup →
      ∀ (i : Nat) (h1 : i < Ks.length) (h2 : i < ds.length),
        (Ks[i] ∈ mergedChildren Ks ds ↔ ds[i] = true) ∧
        (Ks[i] ∈ keptChildren Ks ds ↔ ds[i] = false) := by
  intro Ks
  induction Ks with
  | nil => intro ds _ i h1; simp at h1
  | cons K Ks ih =>
    intro ds hnd i h1 h2
    cases ds with
    | nil => simp at h2
    | cons d ds =>
      have hK : K ∉ Ks := (List.nodup_cons.1 hnd).1
      have hnd1 : Ks.Nodup := (List.nodup_cons.1 hnd).2
      cases i with
      | zero =>
        have hm : K ∉ mergedChildren Ks ds := fun h => hK (mergedChildren_subset Ks ds K h)
        have hk : K ∉ keptChildren Ks ds := fun h => hK (keptChildren_subset Ks ds K h)
        cases d <;> simp [mergedChildren_cons, keptChildren_cons, hm, hk]
      | succ i =>
        have h1a : i < Ks.length := by simpa using h1
        have h2a : i < ds.length := by simpa using h2
        have hne : Ks[i] ≠ K := fun e => hK (e ▸ List.getElem_mem h1a)
        have := ih ds hnd1 i h1a h2a
        cases d <;> simp [mergedChildren_cons, keptChildren_cons, hne, this]

theorem eq_of_mem_flatMap_nodup {α β : Type} (f : α → List β) (l : List α)
    (hnd : (l.flatMap f).Nodup) (a b : α) (ha : a ∈ l) (hb : b ∈ l) (x : β)
    (hxa : x ∈ f a) (hxb : x ∈ f b) : a = b := by
  by_contra hne
  have hp := (List.nodup_flatMap.1 hnd).2
  have hsym : Symmetric (Function.onFun List.Disjoint f) := fun _ _ h => h.symm
  exact (hp.forall hsym ha hb hne) hxa hxb

theorem nodup_of_nodup_flatMap {α β : Type} (f : α → List β) :
    ∀ (l : List α), (l.flatMap f).Nodup → (∀ a ∈ l, f a ≠ []) → l.Nodup := by
  intro l
  induction l with
  | nil => intro _ _; exact List.nodup_nil
  | cons a l ih =>
    intro hnd hne
    have hnd0 := hnd
    rw [List.flatMap_cons, List.nodup_append] at hnd
    refine List.nodup_cons.2 ⟨?_, ih hnd.2.1 (fun b hb => hne b (List.mem_cons_of_mem _ hb))⟩
    intro ha
    obtain ⟨x, hx⟩ := List.exists_mem_of_ne_nil _ (hne a (List.mem_cons_self _ _))
    exact hnd.2.2 hx (List.mem_flatMap.2 ⟨a, ha, hx⟩)

/-- C2 (merge rule). In the post-order visitor for a node `N` whose symbolic
conditional has `p` parents, with child cliques `Ks` (non-empty, pairwise
disjoint key lists that do not hold `N.key`) and one collected conditional per
child: the clique of child `i` is merged into `N`'s clique (its keys become
frontal keys of `N`'s clique) if and only if `p + 1` equals the parent count
of child `i`'s conditional; a child that does not satisfy this stays a child
clique and none of its keys enters `N`'s clique; in particular a child with
parent count 0 is never merged. -/
theorem merge_rule (S : Symbolic F) (N : ETreeNode F)
    (myData parentData : ConstructorTraversalData F) (Ks : List (Node F)) (ps0 : Int)
    (hnode : myData.myJTNode = Node.mk [N.key] N.factors Ks ps0)
    (hlen : Ks.length = myData.childSymbolicConditionals.length)
    (hne : ∀ K ∈ Ks, K.keys ≠ [])
    (hnd : (N.key :: Ks.flatMap Node.keys).Nodup) :
    ∃ parentData1 node1,
      ConstructorTraversalVisitorPost S N myData parentData = some parentData1 ∧
      parentData1.myJTNode.children.getLast? = some node1 ∧
      ∀ (i : Nat) (h1 : i < Ks.length) (h2 : i < myData.childSymbolicConditionals.length),
        ((∀ k ∈ Ks[i].keys, k ∈ node1.keys) ↔
          (S.EliminateSymbolic (N.factors.map S.FromKeys ++ myData.childSymbolicFactors)
            [N.key]).1.nrParents + 1 = myData.childSymbolicConditionals[i].nrParents) ∧
        ((S.EliminateSymbolic (N.factors.map S.FromKeys ++ myData.childSymbolicFactors)
            [N.key]).1.nrParents + 1 ≠ myData.childSymbolicConditionals[i].nrParents →
          Ks[i] ∈ node1.children ∧ ∀ k ∈ Ks[i].keys, k ∉ node1.keys) ∧
        (myData.childSymbolicConditionals[i].nrParents = 0 → Ks[i] ∈ node1.children) := by
  refine ⟨_, _, post_visitor_spec S N myData parentData [N.key] N.factors Ks ps0 hnode hlen,
    List.getLast?_concat _, ?_⟩
  intro i h1 h2
  generalize hp : (S.EliminateSymbolic (N.factors.map S.FromKeys ++
    myData.childSymbolicFactors) [N.key]).1.nrParents = p
  generalize hsz : ((S.EliminateSymbolic (N.factors.map S.FromKeys ++
    myData.childSymbolicFactors) [N.key]).1.size : Int) = sz
  have hndK : (Ks.flatMap Node.keys).Nodup := (List.nodup_cons.1 hnd).2
  have hkey : N.key ∉ Ks.flatMap Node.keys := (List.nodup_cons.1 hnd).1
  have hKs : Ks.Nodup := nodup_of_nodup_flatMap Node.keys Ks hndK hne
  have hdl : i < (mergeDecisions p myData.childSymbolicConditionals).length := by
    simpa [mergeDecisions] using h2
  have hd : (mergeDecisions p myData.childSymbolicConditionals)[i] =
      decide (p + 1 = myData.childSymbolicConditionals[i].nrParents) := by
    simp [mergeDecisions]
  obtain ⟨hm, hk⟩ := mem_merged_kept_iff Ks (mergeDecisions p myData.childSymbolicConditionals)
    hKs i h1 hdl
  rw [hd] at hm hk
  simp only [decide_eq_true_eq, decide_eq_false_iff_not] at hm hk
  have hKi : Ks[i] ∈ Ks := List.getElem_mem h1
  have key_in : ∀ k ∈ Ks[i].keys,
      k ∈ (mergedChildren Ks (mergeDecisions p myData.childSymbolicConditionals)).reverse.flatMap
        Node.keys ++ [N.key] →
      p + 1 = myData.childSymbolicConditionals[i].nrParents := by
    intro k hk1 hk2
    rcases List.mem_append.1 hk2 with h | h
    · obtain ⟨K1, hK1, hkK1⟩ := List.mem_flatMap.1 h
      have hK1m : K1 ∈ mergedChildren Ks (mergeDecisions p myData.childSymbolicConditionals) :=
        List.mem_reverse.1 hK1
      have hK1s : K1 ∈ Ks := mergedChildren_subset _ _ K1 hK1m
      have e : K1 = Ks[i] := eq_of_mem_flatMap_nodup Node.keys Ks hndK K1 Ks[i] hK1s hKi k hkK1 hk1
      exact hm.1 (e ▸ hK1m)
    · have e : k = N.key := by simpa using h
      exact absurd (List.mem_flatMap.2 ⟨Ks[i], hKi, e ▸ hk1⟩) hkey
  have hkeep : p + 1 ≠ myData.childSymbolicConditionals[i].nrParents →
      Ks[i] ∈ (Node.mk
        ((mergedChildren Ks (mergeDecisions p myData.childSymbolicConditionals)).reverse.flatMap
          Node.keys ++ [N.key])
        (N.factors ++ (mergedChildren Ks
          (mergeDecisions p myData.childSymbolicConditionals)).flatMap Node.factors)
        (keptChildren Ks (mergeDecisions p myData.childSymbolicConditionals) ++
          (mergedChildren Ks (mergeDecisions p myData.childSymbolicConditionals)).flatMap
            Node.children)
        ((mergedChildren Ks (mergeDecisions p myData.childSymbolicConditionals)).foldl
          (fun a k => max a k.problemSize_) sz)).children := by
    intro hneq
    rw [node_children_mk]
    exact List.mem_append_left _ (hk.2 hneq)
  refine ⟨⟨?_, ?_⟩, ?_, ?_⟩
  · intro hall
    obtain ⟨k, hk1⟩ := List.exists_mem_of_ne_nil _ (hne _ hKi)
    exact key_in k hk1 (by simpa using hall k hk1)
  · intro hmerge k hk1
    rw [node_keys_mk]
    refine List.mem_append_left _ (List.mem_flatMap.2 ⟨Ks[i], ?_, hk1⟩)
    exact List.mem_reverse.2 (hm.2 hmerge)
  · intro hneq
    refine ⟨hkeep hneq, ?_⟩
    intro k hk1 hk2
    exact hneq (key_in k hk1 (by simpa using hk2))
  · intro h0
    exact hkeep (by omega)

/-- The theorem `merge_rule` applied to the hub of the star tree after its
three leaves have been visited. -/
theorem merge_rule_witness :
    ∃ parentData1 node1,
      ConstructorTraversalVisitorPost sampleSymbolic starHub starHubData starRootData =
        some parentData1 ∧
      parentData1.myJTNode.children.getLast? = some node1 ∧
      ∀ (i : Nat) (h1 : i < starLeafCliques.length)
        (h2 : i < starHubData.childSymbolicConditionals.length),
        ((∀ k ∈ starLeafCliques[i].keys, k ∈ node1.keys) ↔
          (sampleSymbolic.EliminateSymbolic
            (starHub.factors.map sampleSymbolic.FromKeys ++ starHubData.childSymbolicFactors)
            [starHub.key]).1.nrParents + 1 =
              starHubData.childSymbolicConditionals[i].nrParents) ∧
        ((sampleSymbolic.EliminateSymbolic
            (starHub.factors.map sampleSymbolic.FromKeys ++ starHubData.childSymbolicFactors)
            [starHub.key]).1.nrParents + 1 ≠
              starHubData.childSymbolicConditionals[i].nrParents →
          starLeafCliques[i] ∈ node1.children ∧
            ∀ k ∈ starLeafCliques[i].keys, k ∉ node1.keys) ∧
        (starHubData.childSymbolicConditionals[i].nrParents = 0 →
          starLeafCliques[i] ∈ node1.children) :=
  merge_rule sampleSymbolic starHub starHubData starRootData starLeafCliques 0 rfl rfl
    (by decide) (by decide)

theorem mem_nodes_self (n : ETreeNode F) : n ∈ n.nodes := by
  rw [etreeNode_nodes_eq]; exact List.mem_cons_self _ _

theorem mem_nodes_of_child (n c x : ETreeNode F) (hc : c ∈ n.children) (hx : x ∈ c.nodes) :
    x ∈ n.nodes := by
  rw [etreeNode_nodes_eq]
  exact List.mem_cons_of_mem _ (List.mem_flatMap.2 ⟨c, hc, hx⟩)

theorem nodes_trans (n : ETreeNode F) :
    ∀ m ∈ n.nodes, ∀ x ∈ m.nodes, x ∈ n.nodes := by
  induction n using etreeNode_induct with
  | h k fs cs ih =>
    intro m hm x hx
    rw [etreeNode_nodes_eq] at hm
    rcases List.mem_cons.1 hm with rfl | hm
    · exact hx
    · obtain ⟨c, hc, hmc⟩ := List.mem_flatMap.1 hm
      exact mem_nodes_of_child _ c x hc (ih c hc m hmc x hx)

theorem mem_cliques_self (Q : Node F) : Q ∈ Q.cliques := by
  rw [node_cliques_eq]; exact List.mem_cons_self _ _

theorem mem_cliques_of_child (Q C X : Node F) (hC : C ∈ Q.children) (hX : X ∈ C.cliques) :
    X ∈ Q.cliques := by
  rw [node_cliques_eq]
  exact List.mem_cons_of_mem _ (List.mem_flatMap.2 ⟨C, hC, hX⟩)

/-- The members of the clique built for a node are nodes of its subtree. -/
theorem members_subset_nodes (S : Symbolic F) (n : ETreeNode F) :
    ∀ x ∈ membersOf S n, x ∈ n.nodes := by
  induction n using etreeNode_induct with
  | h k fs cs ih =>
    intro x hx
    rw [membersOf_eq] at hx
    rcases List.mem_append.1 hx with h | h
    · obtain ⟨c, hc, hxc⟩ := List.mem_flatMap.1 h
      have hc1 : c ∈ cs := (List.mem_filter.1 (List.mem_reverse.1 hc)).1
      exact mem_nodes_of_child _ c x hc1 (ih c hc1 x hxc)
    · have e : x = .mk k fs cs := by simpa using h
      exact e ▸ mem_nodes_self _

theorem mem_members_self (S : Symbolic F) (n : ETreeNode F) : n ∈ membersOf S n := by
  cases n with
  | mk k fs cs => rw [membersOf_eq]; simp

/-- The frontal keys of the clique built for a node are the variables of its
members, in order. -/
theorem cliqueOf_keys_eq_members (S : Symbolic F) (n : ETreeNode F) :
    (cliqueOf S n).keys = (membersOf S n).map ETreeNode.key := by
  induction n using etreeNode_induct with
  | h k fs cs ih =>
    rw [cliqueOf_keys, membersOf_eq, List.map_append, List.map_flatMap]
    congr 1
    apply List.flatMap_congr
    intro c hc
    exact ih c (List.mem_filter.1 (List.mem_reverse.1 hc)).1

/-- The factors of the clique built for a node are, up to order, the factors of
its members. -/
theorem cliqueOf_factors_perm_members (S : Symbolic F) (n : ETreeNode F) :
    List.Perm (cliqueOf S n).factors ((membersOf S n).flatMap ETreeNode.factors) := by
  induction n using etreeNode_induct with
  | h k fs cs ih =>
    rw [cliqueOf_factors, membersOf_eq, List.flatMap_append, List.flatMap_assoc]
    simp only [List.flatMap_cons, List.flatMap_nil, List.append_nil, etreeNode_factors_mk]
    refine List.perm_append_comm.trans (List.Perm.append_right _ ?_)
    refine List.Perm.trans ?_ ((List.reverse_perm _).symm.flatMap_right _)
    exact List.Perm.flatMap_left _ (fun c hc => ih c (List.mem_filter.1 hc).1)

/-- Every clique in the subtree of the clique built for a node is the clique
built for some node of that node's subtree. -/
theorem cliques_of_cliqueOf (S : Symbolic F) (n : ETreeNode F) :
    ∀ Q ∈ (cliqueOf S n).cliques, ∃ m ∈ n.nodes, Q = cliqueOf S m := by
  induction n using etreeNode_induct with
  | h k fs cs ih =>
    intro Q hQ
    rw [node_cliques_eq] at hQ
    rcases List.mem_cons.1 hQ with rfl | hQ
    · exact ⟨_, mem_nodes_self _, rfl⟩
    · obtain ⟨C, hC, hQC⟩ := List.mem_flatMap.1 hQ
      rw [cliqueOf_children] at hC
      rcases List.mem_append.1 hC with h | h
      · obtain ⟨c, hc, rfl⟩ := List.mem_map.1 h
        have hc1 : c ∈ cs := (List.mem_filter.1 hc).1
        obtain ⟨m, hm, e⟩ := ih c hc1 Q hQC
        exact ⟨m, mem_nodes_of_child _ c m hc1 hm, e⟩
      · obtain ⟨c, hc, hCc⟩ := List.mem_flatMap.1 h
        have hc1 : c ∈ cs := (List.mem_filter.1 hc).1
        obtain ⟨m, hm, e⟩ := ih c hc1 Q (mem_cliques_of_child _ C Q hCc hQC)
        exact ⟨m, mem_nodes_of_child _ c m hc1 hm, e⟩

/-- Every clique of the built forest is the clique built for some node of the
elimination tree. -/
theorem forest_cliques_of_cliqueOf (S : Symbolic F) (ns : List (ETreeNode F)) :
    ∀ Q ∈ Node.cliquesList (cliquesOf S ns),
      ∃ m ∈ ETreeNode.nodesList ns, Q = cliqueOf S m := by
  intro Q hQ
  rw [cliquesList_eq_flatMap, cliquesOf_eq_map, List.flatMap_map] at hQ
  obtain ⟨n, hn, hQn⟩ := List.mem_flatMap.1 hQ
  obtain ⟨m, hm, e⟩ := cliques_of_cliqueOf S n Q hQn
  exact ⟨m, by rw [nodesList_eq_flatMap]; exact List.mem_flatMap.2 ⟨n, hn, hm⟩, e⟩

theorem forest_nodes_trans (ns : List (ETreeNode F)) :
    ∀ m ∈ ETreeNode.nodesList ns, ∀ x ∈ m.nodes, x ∈ ETreeNode.nodesList ns := by
  intro m hm x hx
  rw [nodesList_eq_flatMap] at hm ⊢
  obtain ⟨n, hn, hmn⟩ := List.mem_flatMap.1 hm
  exact List.mem_flatMap.2 ⟨n, hn, nodes_trans n m hmn x hx⟩

/-- With distinct variables, filtering the nodes of the tree by membership of
their variable in the key list of some of the nodes gives back those nodes. -/
theorem filter_key_mem_perm (L M : List (ETreeNode F))
    (hnd : (L.map ETreeNode.key).Nodup) (hsub : ∀ x ∈ M, x ∈ L)
    (hM : (M.map ETreeNode.key).Nodup) :
    List.Perm (L.filter (fun n => decide (n.key ∈ M.map ETreeNode.key))) M := by
  have hL : L.Nodup := List.Nodup.of_map _ hnd
  refine (List.perm_ext_iff_of_nodup (hL.filter _) (List.Nodup.of_map _ hM)).2 ?_
  intro a
  constructor
  · intro ha
    obtain ⟨haL, hak⟩ := List.mem_filter.1 ha
    obtain ⟨y, hy, hyk⟩ := List.mem_map.1 (of_decide_eq_true hak)
    have e : y = a := List.inj_on_of_nodup_map hnd (hsub y hy) haL hyk
    exact e ▸ hy
  · intro ha
    exact List.mem_filter.2 ⟨hsub a ha, decide_eq_true (List.mem_map_of_mem _ ha)⟩

/-- With distinct variables, the key list of every clique of the forest has no
repetition. -/
theorem forest_clique_keys_nodup (S : Symbolic F) (et : EliminationTree F)
    (hnd : et.variables.Nodup) :
    ∀ Q ∈ Node.cliquesList (cliquesOf S et.roots), Q.keys.Nodup := by
  have h : ((Node.cliquesList (cliquesOf S et.roots)).flatMap Node.keys).Nodup :=
    (forest_keys_perm S et).nodup_iff.2 hnd
  exact (List.nodup_flatMap.1 h).1

/-- With distinct variables, the nodes whose variable is a frontal key of the
clique built for a node `m` of the tree are exactly the members of `m`. -/
theorem filter_nodes_perm_members (S : Symbolic F) (et : EliminationTree F)
    (hnd : et.variables.Nodup) (m : ETreeNode F) (hm : m ∈ et.nodes)
    (hQ : cliqueOf S m ∈ Node.cliquesList (cliquesOf S et.roots)) :
    List.Perm (et.nodes.filter (fun n => decide (n.key ∈ (cliqueOf S m).keys)))
      (membersOf S m) := by
  have hk := forest_clique_keys_nodup S et hnd _ hQ
  rw [cliqueOf_keys_eq_members] at hk ⊢
  exact filter_key_mem_perm et.nodes (membersOf S m) hnd
    (fun x hx => forest_nodes_trans et.roots m hm x (members_subset_nodes S m x hx)) hk

theorem cliqueOf_factors_perm (S : Symbolic F) (k : Key) (fs : List F)
    (cs : List (ETreeNode F)) :
    List.Perm ((cliqueOf S (.mk k fs cs)).factors)
      ((ETreeNode.mk k fs cs).factors ++
        (cs.filter (shouldMerge S (nrParentsOf S (.mk k fs cs)))).flatMap
          (fun c => (cliqueOf S c).factors)) := by
  rw [cliqueOf_factors, etreeNode_factors_mk]

/-- C4 (factor conservation). For every elimination tree the builder returns a
forest whose cliques hold, all together, exactly the factors of all
elimination tree nodes (as multisets); and when the variables are pairwise
distinct, the factors of each clique are exactly the factors attached to the
nodes whose variable is a frontal key of that clique, so a factor attached to
the node of `v` sits in the clique that holds `v` and in no other. -/
theorem factor_conservation (S : Symbolic F) (et : EliminationTree F) :
    ∃ jt, JunctionTree.FromEliminationTree S et = some jt ∧
      List.Perm (jt.cliques.flatMap Node.factors) (et.nodes.flatMap ETreeNode.factors) ∧
      (et.variables.Nodup → ∀ Q ∈ jt.cliques,
        List.Perm Q.factors
          ((et.nodes.filter (fun n => decide (n.key ∈ Q.keys))).flatMap ETreeNode.factors)) := by
  refine ⟨_, FromEliminationTree_eq S et,
    collect_perm_forest S Node.factors ETreeNode.factors
      (fun k fs cs => cliqueOf_factors_perm S k fs cs) et.roots, ?_⟩
  intro hnd Q hQ
  obtain ⟨m, hm, rfl⟩ := forest_cliques_of_cliqueOf S et.roots Q hQ
  exact (cliqueOf_factors_perm_members S m).trans
    ((filter_nodes_perm_members S et hnd m hm hQ).symm.flatMap_right _)

/-- The theorem `factor_conservation` applied to the star tree. -/
theorem factor_conservation_witness :
    starTree.variables.Nodup ∧
    ∃ jt, JunctionTree.FromEliminationTree sampleSymbolic starTree = some jt ∧
      List.Perm (jt.cliques.flatMap Node.factors)
        (starTree.nodes.flatMap ETreeNode.factors) ∧
      (starTree.variables.Nodup → ∀ Q ∈ jt.cliques,
        List.Perm Q.factors
          ((starTree.nodes.filter (fun n => decide (n.key ∈ Q.keys))).flatMap
            ETreeNode.factors)) :=
  ⟨by decide, factor_conservation sampleSymbolic starTree⟩

theorem foldl_max_ge_init {α : Type} (g : α → Int) :
    ∀ (l : List α) (a : Int), a ≤ l.foldl (fun a c => max a (g c)) a := by
  intro l
  induction l with
  | nil => intro a; simp
  | cons c l ih =>
    intro a
    exact le_trans (le_max_left a (g c)) (ih (max a (g c)))

theorem foldl_max_ge_mem {α : Type} (g : α → Int) :
    ∀ (l : List α) (a : Int), ∀ c ∈ l, g c ≤ l.foldl (fun a c => max a (g c)) a := by
  intro l
  induction l with
  | nil => intro a c hc; simp at hc
  | cons c0 l ih =>
    intro a c hc
    rcases List.mem_cons.1 hc with rfl | hc
    · exact le_trans (le_max_right a (g c)) (foldl_max_ge_init g l (max a (g c)))
    · exact ih (max a (g c0)) c hc

theorem foldl_max_eq {α : Type} (g : α → Int) :
    ∀ (l : List α) (a : Int),
      l.foldl (fun a c => max a (g c)) a = a ∨
        ∃ c ∈ l, l.foldl (fun a c => max a (g c)) a = g c := by
  intro l
  induction l with
  | nil => intro a; simp
  | cons c0 l ih =>
    intro a
    rcases ih (max a (g c0)) with h | ⟨c, hc, h⟩
    · rcases max_choice a (g c0) with h1 | h1
      · left; simp only [List.foldl_cons]; rw [h, h1]
      · right; exact ⟨c0, List.mem_cons_self _ _, by simp only [List.foldl_cons]; rw [h, h1]⟩
    · right; exact ⟨c, List.mem_cons_of_mem _ hc, by simpa using h⟩

/-- If every read of `problemSize_` after the erase gives what the released
node held, the problem size of the clique built for a node is the largest
conditional size among its members. -/
theorem cliqueOf_problemSize_members (S : Symbolic F)
    (hread : ∀ K, S.erasedProblemSize K = K.problemSize_) (n : ETreeNode F) :
    (∀ x ∈ membersOf S n, ((conditionalOf S x).size : Int) ≤ (cliqueOf S n).problemSize_) ∧
    (∃ x ∈ membersOf S n, (cliqueOf S n).problemSize_ = ((conditionalOf S x).size : Int)) := by
  induction n using etreeNode_induct with
  | h k fs cs ih =>
    rw [cliqueOf_problemSize, membersOf_eq]
    simp only [hread]
    constructor
    · intro x hx
      rcases List.mem_append.1 hx with h | h
      · obtain ⟨c, hc, hxc⟩ := List.mem_flatMap.1 h
        have hc0 := List.mem_reverse.1 hc
        have hc1 : c ∈ cs := (List.mem_filter.1 hc0).1
        exact le_trans ((ih c hc1).1 x hxc)
          (foldl_max_ge_mem (fun c => (cliqueOf S c).problemSize_) _ _ c hc0)
      · have e : x = .mk k fs cs := by simpa using h
        rw [e]
        exact foldl_max_ge_init (fun c => (cliqueOf S c).problemSize_) _ _
    · rcases foldl_max_eq (fun c => (cliqueOf S c).problemSize_)
          (cs.filter (shouldMerge S (nrParentsOf S (.mk k fs cs))))
          ((conditionalOf S (.mk k fs cs)).size : Int) with h | ⟨c, hc, h⟩
      · exact ⟨.mk k fs cs, by simp, h⟩
      · have hc1 : c ∈ cs := (List.mem_filter.1 hc).1
        obtain ⟨x, hx, hxe⟩ := (ih c hc1).2
        refine ⟨x, ?_, h.trans hxe⟩
        exact List.mem_append_left _ (List.mem_flatMap.2 ⟨c, List.mem_reverse.2 hc, hx⟩)

/-- With distinct variables, a node of the tree whose variable is a frontal key
of the clique built for `m` is a member of `m`. -/
theorem mem_members_of_key_mem (S : Symbolic F) (et : EliminationTree F)
    (hnd : et.variables.Nodup) (m : ETreeNode F) (hm : m ∈ et.nodes)
    (hQ : cliqueOf S m ∈ Node.cliquesList (cliquesOf S et.roots))
    (n : ETreeNode F) (hn : n ∈ et.nodes) (hk : n.key ∈ (cliqueOf S m).keys) :
    n ∈ membersOf S m :=
  (filter_nodes_perm_members S et hnd m hm hQ).mem_iff.1
    (List.mem_filter.2 ⟨hn, decide_eq_true hk⟩)

/-- What the problem size would be if every read of `problemSize_` after the
erase gave what the released node held: with pairwise distinct variables,
for every clique of the forest, the maximum of the conditional sizes of the
elimination tree nodes whose variable is a frontal key of the clique. -/
theorem problemSize_max_if_read_intact (S : Symbolic F) (et : EliminationTree F)
    (hread : ∀ K, S.erasedProblemSize K = K.problemSize_)
    (hnd : et.variables.Nodup) :
    ∃ jt, JunctionTree.FromEliminationTree S et = some jt ∧ ∀ Q ∈ jt.cliques,
      (∀ n ∈ et.nodes, n.key ∈ Q.keys →
        ((conditionalOf S n).size : Int) ≤ Q.problemSize_) ∧
      (∃ n ∈ et.nodes, n.key ∈ Q.keys ∧
        Q.problemSize_ = ((conditionalOf S n).size : Int)) := by
  refine ⟨_, FromEliminationTree_eq S et, ?_⟩
  intro Q hQ
  obtain ⟨m, hm, rfl⟩ := forest_cliques_of_cliqueOf S et.roots Q hQ
  obtain ⟨hle, x, hx, hxe⟩ := cliqueOf_problemSize_members S hread m
  have hxn : x ∈ et.nodes :=
    forest_nodes_trans et.roots m hm x (members_subset_nodes S m x hx)
  have hxk : x.key ∈ (cliqueOf S m).keys := by
    rw [cliqueOf_keys_eq_members]; exact List.mem_map_of_mem _ hx
  refine ⟨?_, ⟨x, hxn, hxk, hxe⟩⟩
  intro n hn hk
  exact hle n (mem_members_of_key_mem S et hnd m hm hQ n hn hk)

/-- The problem size of a clique into which no child is merged is the size of
its own symbolic conditional, whatever the reads after an erase give. -/
theorem cliqueOf_problemSize_unmerged (S : Symbolic F) (k : Key) (fs : List F)
    (cs : List (ETreeNode F))
    (hnone : ∀ c ∈ cs, shouldMerge S (nrParentsOf S (.mk k fs cs)) c = false) :
    (cliqueOf S (.mk k fs cs)).problemSize_ = ((conditionalOf S (.mk k fs cs)).size : Int) := by
  rw [cliqueOf_problemSize]
  have : cs.filter (shouldMerge S (nrParentsOf S (.mk k fs cs))) = [] := by
    rw [List.filter_eq_nil_iff]
    intro c hc
    rw [hnone c hc]
    exact Bool.false_ne_true
  rw [this]
  rfl

/-- C9, evaluated at a failing input. On the star tree the three leaf cliques
are merged into the hub's clique `[3, 2, 1, 0]`, and the conditional sizes of
the hub and of the leaves are 1 and 2.  The `problemSize_` of the clique is
the maximum of 1 and of what the three reads of `problemSize_` give, each made
after the leaf node has been erased: it is 2 when the reads give what the
leaves held, 99 when they give 99 and 1 when they give 0. -/
theorem problemSize_read_after_erase :
    starTree.nodes.map (fun n => ((conditionalOf sampleSymbolic n).size : Int)) =
      [1, 2, 2, 2] ∧
    (∃ jt, JunctionTree.FromEliminationTree sampleSymbolic starTree = some jt ∧
      jt.roots_.map Node.keys = [[3, 2, 1, 0]] ∧ jt.roots_.map Node.problemSize_ = [2]) ∧
    (∃ jt, JunctionTree.FromEliminationTree (sampleSymbolicReading 99) starTree = some jt ∧
      jt.roots_.map Node.keys = [[3, 2, 1, 0]] ∧ jt.roots_.map Node.problemSize_ = [99]) ∧
    (∃ jt, JunctionTree.FromEliminationTree (sampleSymbolicReading 0) starTree = some jt ∧
      jt.roots_.map Node.keys = [[3, 2, 1, 0]] ∧ jt.roots_.map Node.problemSize_ = [1]) :=
  ⟨by decide, ⟨_, rfl, by decide, by decide⟩, ⟨_, rfl, by decide, by decide⟩,
    ⟨_, rfl, by decide, by decide⟩⟩

theorem length_le_flatMap_of_mem {α β : Type} (f : α → List β) :
    ∀ (l : List α), ∀ a ∈ l, (f a).length ≤ (l.flatMap f).length := by
  intro l
  induction l with
  | nil => intro a ha; simp at ha
  | cons b l ih =>
    intro a ha
    rw [List.flatMap_cons, List.length_append]
    rcases List.mem_cons.1 ha with rfl | ha
    · omega
    · have := ih a ha; omega

theorem nodes_length_le (n : ETreeNode F) :
    ∀ y ∈ n.nodes, y.nodes.length ≤ n.nodes.length := by
  induction n using etreeNode_induct with
  | h k fs cs ih =>
    intro y hy
    rw [etreeNode_nodes_eq] at hy
    rcases List.mem_cons.1 hy with rfl | hy
    · exact Nat.le_refl _
    · obtain ⟨c, hc, hyc⟩ := List.mem_flatMap.1 hy
      have h1 := ih c hc y hyc
      have h2 := length_le_flatMap_of_mem ETreeNode.nodes cs c hc
      rw [etreeNode_nodes_eq (.mk k fs cs), etreeNode_children_mk, List.length_cons]
      omega

theorem properDescendants_eq (a : ETreeNode F) :
    a.properDescendants = a.children.flatMap ETreeNode.nodes := by
  simp [ETreeNode.properDescendants, nodesList_eq_flatMap]

theorem nodes_length_lt_of_properDescendant (a : ETreeNode F) :
    ∀ y ∈ a.properDescendants, y.nodes.length < a.nodes.length := by
  intro y hy
  rw [properDescendants_eq] at hy
  obtain ⟨c, hc, hyc⟩ := List.mem_flatMap.1 hy
  have h1 := nodes_length_le c y hyc
  have h2 := length_le_flatMap_of_mem ETreeNode.nodes a.children c hc
  rw [etreeNode_nodes_eq a, List.length_cons]
  omega

theorem not_mem_properDescendants_self (a : ETreeNode F) : a ∉ a.properDescendants :=
  fun h => Nat.lt_irrefl _ (nodes_length_lt_of_properDescendant a a h)

theorem properDescendants_subset_nodes (a : ETreeNode F) :
    ∀ y ∈ a.properDescendants, y ∈ a.nodes := by
  intro y hy
  rw [properDescendants_eq] at hy
  rw [etreeNode_nodes_eq]
  exact List.mem_cons_of_mem _ hy

theorem properDescendants_of_mem_nodes (c : ETreeNode F) :
    ∀ x ∈ c.nodes, ∀ y ∈ x.properDescendants, y ∈ c.nodes :=
  fun x hx y hy => nodes_trans c x hx y (properDescendants_subset_nodes x y hy)

theorem nodup_map_of_mem_flatMap {α β γ : Type} (f : α → List β) (g : β → γ) :
    ∀ (l : List α), ((l.flatMap f).map g).Nodup → ∀ a ∈ l, ((f a).map g).Nodup := by
  intro l
  induction l with
  | nil => intro _ a ha; simp at ha
  | cons b l ih =>
    intro hnd a ha
    rw [List.flatMap_cons, List.map_append, List.nodup_append] at hnd
    rcases List.mem_cons.1 ha with rfl | ha
    · exact hnd.1
    · exact ih hnd.2.1 a ha

theorem child_keys_nodup (k : Key) (fs : List F) (cs : List (ETreeNode F))
    (hnd : ((ETreeNode.mk k fs cs).nodes.map ETreeNode.key).Nodup) :
    ∀ c ∈ cs, (c.nodes.map ETreeNode.key).Nodup := by
  rw [etreeNode_nodes_eq, List.map_cons, List.nodup_cons] at hnd
  exact nodup_map_of_mem_flatMap ETreeNode.nodes ETreeNode.key cs hnd.2

theorem children_nodes_pairwise_disjoint (k : Key) (fs : List F) (cs : List (ETreeNode F))
    (hnd : ((ETreeNode.mk k fs cs).nodes.map ETreeNode.key).Nodup) :
    cs.Pairwise (fun c1 c2 => List.Disjoint c1.nodes c2.nodes) := by
  rw [etreeNode_nodes_eq, List.map_cons, List.nodup_cons] at hnd
  exact (List.nodup_flatMap.1 (List.Nodup.of_map _ hnd.2)).2

/-- With distinct variables, in the member list of the clique built for a
node no member is a proper descendant of an earlier one. -/
theorem members_pairwise (S : Symbolic F) (n : ETreeNode F) :
    (n.nodes.map ETreeNode.key).Nodup →
    (membersOf S n).Pairwise (fun x y => y ∉ x.properDescendants) := by
  induction n using etreeNode_induct with
  | h k fs cs ih =>
    intro hnd
    rw [membersOf_eq, List.pairwise_append]
    refine ⟨?_, List.pairwise_singleton _ _, ?_⟩
    · rw [List.pairwise_flatMap]
      constructor
      · intro c hc
        have hc1 : c ∈ cs := (List.mem_filter.1 (List.mem_reverse.1 hc)).1
        exact ih c hc1 (child_keys_nodup k fs cs hnd c hc1)
      · rw [List.pairwise_reverse]
        have hd := (children_nodes_pairwise_disjoint k fs cs hnd).filter
          (shouldMerge S (nrParentsOf S (.mk k fs cs)))
        refine hd.imp ?_
        intro c1 c2 hdisj x hx y hy hdesc
        have hx2 : x ∈ c2.nodes := members_subset_nodes S c2 x hx
        have hy1 : y ∈ c1.nodes := members_subset_nodes S c1 y hy
        have hy2 : y ∈ c2.nodes := properDescendants_of_mem_nodes c2 x hx2 y hdesc
        exact hdisj hy1 hy2
    · intro x hx y hy hdesc
      have e : y = .mk k fs cs := by simpa using hy
      subst e
      obtain ⟨c, hc, hxc⟩ := List.mem_flatMap.1 hx
      have hc1 : c ∈ cs := (List.mem_filter.1 (List.mem_reverse.1 hc)).1
      have hxn : x ∈ c.nodes := members_subset_nodes S c x hxc
      have hn : ETreeNode.mk k fs cs ∈ c.nodes :=
        properDescendants_of_mem_nodes c x hxn _ hdesc
      have h1 := nodes_length_le c _ hn
      have h2 := nodes_length_lt_of_properDescendant (.mk k fs cs) c
        (by rw [properDescendants_eq]
            exact List.mem_flatMap.2 ⟨c, hc1, mem_nodes_self c⟩)
      omega

theorem nodes_keys_nodup_of_mem (n : ETreeNode F) :
    (n.nodes.map ETreeNode.key).Nodup →
    ∀ m ∈ n.nodes, (m.nodes.map ETreeNode.key).Nodup := by
  induction n using etreeNode_induct with
  | h k fs cs ih =>
    intro hnd m hm
    rw [etreeNode_nodes_eq] at hm
    rcases List.mem_cons.1 hm with rfl | hm
    · exact hnd
    · obtain ⟨c, hc, hmc⟩ := List.mem_flatMap.1 hm
      exact ih c hc (child_keys_nodup k fs cs hnd c hc) m hmc

theorem forest_nodes_keys_nodup_of_mem (et : EliminationTree F) (hnd : et.variables.Nodup) :
    ∀ m ∈ et.nodes, (m.nodes.map ETreeNode.key).Nodup := by
  intro m hm
  have hnd1 : ((et.roots.flatMap ETreeNode.nodes).map ETreeNode.key).Nodup := by
    simpa [EliminationTree.variables, EliminationTree.nodes, nodesList_eq_flatMap] using hnd
  have hm1 : m ∈ et.roots.flatMap ETreeNode.nodes := by
    simpa [EliminationTree.nodes, nodesList_eq_flatMap] using hm
  obtain ⟨r, hr, hmr⟩ := List.mem_flatMap.1 hm1
  exact nodes_keys_nodup_of_mem r
    (nodup_map_of_mem_flatMap ETreeNode.nodes ETreeNode.key et.roots hnd1 r hr) m hmr

theorem membersOf_getLast (S : Symbolic F) (n : ETreeNode F) :
    (membersOf S n).getLast? = some n := by
  cases n with
  | mk k fs cs => rw [membersOf_eq, List.getLast?_concat]

/-- C5 (frontal keys are in elimination order). With pairwise distinct
variables, in every clique of the forest returned by `FromEliminationTree`: if
the key at position `j` is the variable of a proper ancestor of the node whose
variable is the key at position `i`, then `i < j` (a variable comes before its
ancestors in the clique); and the clique has a topmost node `m` of the
elimination tree, all of whose keys are variables of `m`'s subtree and whose
last key is `m`'s variable. -/
theorem frontalKeys_elimination_order (S : Symbolic F) (et : EliminationTree F)
    (hnd : et.variables.Nodup) :
    ∃ jt, JunctionTree.FromEliminationTree S et = some jt ∧ ∀ Q ∈ jt.cliques,
      (∀ (i j : Nat) (hi : i < Q.keys.length) (hj : j < Q.keys.length),
        (∃ a ∈ et.nodes, ∃ x ∈ a.properDescendants,
          a.key = Q.keys[j] ∧ x.key = Q.keys[i]) → i < j) ∧
      (∃ m ∈ et.nodes, Q.keys.getLast? = some m.key ∧
        ∀ k ∈ Q.keys, k ∈ m.nodes.map ETreeNode.key) := by
  refine ⟨_, FromEliminationTree_eq S et, ?_⟩
  intro Q hQ
  obtain ⟨m, hm, rfl⟩ := forest_cliques_of_cliqueOf S et.roots Q hQ
  have hsub : ∀ x ∈ membersOf S m, x ∈ et.nodes := fun x hx =>
    forest_nodes_trans et.roots m hm x (members_subset_nodes S m x hx)
  constructor
  · intro i j hi hj ⟨a, ha, x, hx, hak, hxk⟩
    have hpw := List.pairwise_iff_getElem.1
      (members_pairwise S m (forest_nodes_keys_nodup_of_mem et hnd m hm))
    have hlen : (cliqueOf S m).keys.length = (membersOf S m).length := by
      rw [cliqueOf_keys_eq_members, List.length_map]
    have hi1 : i < (membersOf S m).length := hlen ▸ hi
    have hj1 : j < (membersOf S m).length := hlen ▸ hj
    have hki : (cliqueOf S m).keys[i] = ((membersOf S m)[i]).key := by
      simp [cliqueOf_keys_eq_members]
    have hkj : (cliqueOf S m).keys[j] = ((membersOf S m)[j]).key := by
      simp [cliqueOf_keys_eq_members]
    have hxn : x ∈ et.nodes :=
      forest_nodes_trans et.roots a ha x (properDescendants_subset_nodes a x hx)
    have ea : (membersOf S m)[j] = a :=
      List.inj_on_of_nodup_map hnd (hsub _ (List.getElem_mem hj1)) ha (by rw [← hkj, hak])
    have ex : (membersOf S m)[i] = x :=
      List.inj_on_of_nodup_map hnd (hsub _ (List.getElem_mem hi1)) hxn (by rw [← hki, hxk])
    by_contra hij
    rcases Nat.lt_or_eq_of_le (Nat.le_of_not_lt hij) with hlt | heq
    · have := hpw j i hj1 hi1 hlt
      rw [ea, ex] at this
      exact this hx
    · subst heq
      rw [ea] at ex
      subst ex
      exact not_mem_properDescendants_self _ hx
  · refine ⟨m, hm, ?_, ?_⟩
    · rw [cliqueOf_keys_eq_members, List.getLast?_map, membersOf_getLast]; rfl
    · intro k hk
      rw [cliqueOf_keys_eq_members] at hk
      obtain ⟨x, hx, rfl⟩ := List.mem_map.1 hk
      exact List.mem_map_of_mem _ (members_subset_nodes S m x hx)

/-- The theorem `frontalKeys_elimination_order` applied to the star tree. -/
theorem frontalKeys_elimination_order_witness :
    starTree.variables.Nodup ∧
    ∃ jt, JunctionTree.FromEliminationTree sampleSymbolic starTree = some jt ∧ ∀ Q ∈ jt.cliques,
      (∀ (i j : Nat) (hi : i < Q.keys.length) (hj : j < Q.keys.length),
        (∃ a ∈ starTree.nodes, ∃ x ∈ a.properDescendants,
          a.key = Q.keys[j] ∧ x.key = Q.keys[i]) → i < j) ∧
      (∃ m ∈ starTree.nodes, Q.keys.getLast? = some m.key ∧
        ∀ k ∈ Q.keys, k ∈ m.nodes.map ETreeNode.key) :=
  ⟨by decide, frontalKeys_elimination_order sampleSymbolic starTree (by decide)⟩

/-- Every child of the clique built for a node is the clique built for an
elimination tree child `c` of one of the clique's members `u`, and `u` and `c`
fail the merge test. -/
theorem children_of_cliqueOf (S : Symbolic F) (n : ETreeNode F) :
    ∀ C ∈ (cliqueOf S n).children, ∃ u ∈ membersOf S n, ∃ c ∈ u.children,
      C = cliqueOf S c ∧ nrParentsOf S u + 1 ≠ nrParentsOf S c := by
  induction n using etreeNode_induct with
  | h k fs cs ih =>
    intro C hC
    rw [cliqueOf_children] at hC
    rcases List.mem_append.1 hC with h | h
    · obtain ⟨c, hc, rfl⟩ := List.mem_map.1 h
      obtain ⟨hc1, hc2⟩ := List.mem_filter.1 hc
      refine ⟨.mk k fs cs, mem_members_self S _, c, hc1, rfl, ?_⟩
      simpa [shouldMerge] using hc2
    · obtain ⟨c1, hc1, hCc⟩ := List.mem_flatMap.1 h
      have hc1s : c1 ∈ cs := (List.mem_filter.1 hc1).1
      obtain ⟨u, hu, c, hc, e, hne⟩ := ih c1 hc1s C hCc
      refine ⟨u, ?_, c, hc, e, hne⟩
      rw [membersOf_eq]
      exact List.mem_append_left _ (List.mem_flatMap.2 ⟨c1, List.mem_reverse.2 hc1, hu⟩)

/-- C6, as the code has it (unmerged edges fail the merge test). In the forest
returned by `FromEliminationTree`, every direct child clique `C` of a clique
`P` was created at an elimination tree child `c` of a node `u` whose variable
is a frontal key of `P`, and `u` and `c` do not satisfy the merge condition:
the parent count of `u` plus one differs from the parent count of `c`. -/
theorem unmerged_edge_fails_merge_test (S : Symbolic F) (et : EliminationTree F) :
    ∃ jt, JunctionTree.FromEliminationTree S et = some jt ∧
      ∀ P ∈ jt.cliques, ∀ C ∈ P.children,
        ∃ u ∈ et.nodes, ∃ c ∈ u.children,
          u.key ∈ P.keys ∧ C.keys.getLast? = some c.key ∧
          nrParentsOf S u + 1 ≠ nrParentsOf S c := by
  refine ⟨_, FromEliminationTree_eq S et, ?_⟩
  intro P hP C hC
  obtain ⟨m, hm, rfl⟩ := forest_cliques_of_cliqueOf S et.roots P hP
  obtain ⟨u, hu, c, hc, e, hne⟩ := children_of_cliqueOf S m C hC
  refine ⟨u, forest_nodes_trans et.roots m hm u (members_subset_nodes S m u hu), c, hc,
    ?_, ?_, hne⟩
  · rw [cliqueOf_keys_eq_members]; exact List.mem_map_of_mem _ hu
  · rw [e, cliqueOf_keys_eq_members, List.getLast?_map, membersOf_getLast]; rfl

/-- C6 fails as stated. On the chain A - B - C (A = 1, B = 2, C = 3) the
builder returns the root clique `[2, 1]` with the child clique `[3]`: the
parent counts of their topmost variables A (0) and C (1) differ by exactly
one, they satisfy the merge condition, and yet they are separate cliques. -/
theorem merge_exhaustive_counterexample :
    ∃ jt P C u c,
      JunctionTree.FromEliminationTree sampleSymbolic chainTree = some jt ∧
      P ∈ jt.cliques ∧ C ∈ P.children ∧ u ∈ chainTree.nodes ∧ c ∈ chainTree.nodes ∧
      P.keys = [2, 1] ∧ P.keys.getLast? = some u.key ∧
      C.keys = [3] ∧ C.keys.getLast? = some c.key ∧
      nrParentsOf sampleSymbolic u = 0 ∧ nrParentsOf sampleSymbolic c = 1 ∧
      nrParentsOf sampleSymbolic u + 1 = nrParentsOf sampleSymbolic c ∧
      ¬ (nrParentsOf sampleSymbolic u + 1 < nrParentsOf sampleSymbolic c ∨
          nrParentsOf sampleSymbolic c + 1 < nrParentsOf sampleSymbolic u) :=
  ⟨{ roots_ := [Node.mk [2, 1] [[2, 1]] [Node.mk [3] [[3, 2]] [] 2] 2],
     remainingFactors_ := [] },
   Node.mk [2, 1] [[2, 1]] [Node.mk [3] [[3, 2]] [] 2] 2,
   Node.mk [3] [[3, 2]] [] 2,
   .mk 1 [] [.mk 2 [[2, 1]] [.mk 3 [[3, 2]] []]],
   .mk 3 [[3, 2]] [],
   rfl, List.mem_cons_self _ _, List.mem_cons_self _ _, List.mem_cons_self _ _,
   List.mem_cons_of_mem _ (List.mem_cons_of_mem _ (List.mem_cons_self _ _)),
   rfl, rfl, rfl, rfl, rfl, rfl, rfl, by decide⟩

/-- C7 fails as stated. On the star tree (hub 0 with no parents, leaves 1, 2,
3 with one parent each) the builder does not return a hub-only root clique
with three leaf cliques below it: it returns one clique holding all four
variables, without children. -/
theorem star_no_merge_counterexample :
    nrParentsOf sampleSymbolic starHub = 0 ∧
    (∀ leaf ∈ starHub.children,
      nrParentsOf sampleSymbolic leaf = 1 ∧ leaf.children = []) ∧
    starTree.roots = [starHub] ∧
    JunctionTree.FromEliminationTree sampleSymbolic starTree =
      some { roots_ := [Node.mk [3, 2, 1, 0] [[1, 0], [2, 0], [3, 0]] [] 2],
             remainingFactors_ := [] } ∧
    ¬ (∃ jt Q, JunctionTree.FromEliminationTree sampleSymbolic starTree = some jt ∧
        jt.roots_ = [Q] ∧ Q.keys = [0] ∧ Q.children.length = 3) := by
  refine ⟨rfl, ?_, rfl, rfl, ?_⟩
  · intro leaf hleaf
    have h : leaf = .mk 1 [[1, 0]] [] ∨ leaf = .mk 2 [[2, 0]] [] ∨ leaf = .mk 3 [[3, 0]] [] := by
      simpa [starHub] using hleaf
    rcases h with rfl | rfl | rfl <;> exact ⟨rfl, rfl⟩
  · rintro ⟨jt, Q, hjt, hroots, hkeys, _⟩
    have e : JunctionTree.FromEliminationTree sampleSymbolic starTree =
        some { roots_ := [Node.mk [3, 2, 1, 0] [[1, 0], [2, 0], [3, 0]] [] 2],
               remainingFactors_ := [] } := rfl
    rw [e] at hjt
    have hj := Option.some.inj hjt
    subst hj
    have hQ : Node.mk [3, 2, 1, 0] [[1, 0], [2, 0], [3, 0]] [] 2 = Q := by
      simpa using hroots
    subst hQ
    simp at hkeys

/-- C7, as the code has it (the star merges into one clique). For every star
elimination tree - a root hub with three leaf children - in which each leaf's
symbolic conditional has one parent and the hub's has none, the builder
returns a forest with a single root clique that has no children, whose
frontal keys are the three leaves, last leaf first, followed by the hub, and
whose factors are the hub's followed by those of the leaves in order. -/
theorem star_merges_into_one_clique (S : Symbolic F) (hub l1 l2 l3 : Key)
    (fh f1 f2 f3 rem : List F)
    (h1 : nrParentsOf S (.mk l1 f1 []) = 1)
    (h2 : nrParentsOf S (.mk l2 f2 []) = 1)
    (h3 : nrParentsOf S (.mk l3 f3 []) = 1)
    (hh : nrParentsOf S (.mk hub fh [.mk l1 f1 [], .mk l2 f2 [], .mk l3 f3 []]) = 0) :
    ∃ jt Q,
      JunctionTree.FromEliminationTree S
        { roots := [.mk hub fh [.mk l1 f1 [], .mk l2 f2 [], .mk l3 f3 []]]
          remainingFactors := rem } = some jt ∧
      jt.roots_ = [Q] ∧ Q.keys = [l3, l2, l1, hub] ∧ Q.children = [] ∧
      Q.factors = fh ++ f1 ++ f2 ++ f3 := by
  refine ⟨_, cliqueOf S (.mk hub fh [.mk l1 f1 [], .mk l2 f2 [], .mk l3 f3 []]),
    FromEliminationTree_eq S _, ?_, ?_, ?_, ?_⟩
  · simp only [cliquesOf]
  · rw [cliqueOf_keys, hh]
    simp [shouldMerge, h1, h2, h3, cliqueOf_keys]
  · rw [cliqueOf_children, hh]
    simp [shouldMerge, h1, h2, h3, cliqueOf_children]
  · rw [cliqueOf_factors, hh]
    simp [shouldMerge, h1, h2, h3, cliqueOf_factors]

/-- The theorem `star_merges_into_one_clique` applied to the star tree. -/
theorem star_merges_into_one_clique_witness :
    ∃ jt Q,
      JunctionTree.FromEliminationTree sampleSymbolic
        { roots := [.mk 0 [] [.mk 1 [[1, 0]] [], .mk 2 [[2, 0]] [], .mk 3 [[3, 0]] []]]
          remainingFactors := [] } = some jt ∧
      jt.roots_ = [Q] ∧ Q.keys = [3, 2, 1, 0] ∧ Q.children = [] ∧
      Q.factors = [] ++ [[1, 0]] ++ [[2, 0]] ++ [[3, 0]] :=
  star_merges_into_one_clique sampleSymbolic 0 1 2 3 [] [[1, 0]] [[2, 0]] [[3, 0]] []
    rfl rfl rfl rfl

/-- Along a chain whose parent counts grow by one towards the leaf, the clique
built for the root holds all variables, leaf first, and has no children. -/
theorem cliqueOf_chain (S : Symbolic F) :
    ∀ (rest : List (Key × List F)) (key : Key) (fs : List F),
      chainParentCounts S key fs rest →
      (cliqueOf S (chain key fs rest)).keys = (key :: rest.map Prod.fst).reverse ∧
      (cliqueOf S (chain key fs rest)).children = [] := by
  intro rest
  induction rest with
  | nil =>
    intro key fs _
    simp [chain, cliqueOf_keys, cliqueOf_children]
  | cons kf rest ih =>
    intro key fs h
    obtain ⟨k, f⟩ := kf
    obtain ⟨hc, hrest⟩ := h
    obtain ⟨ihk, ihc⟩ := ih k f hrest
    have hm : shouldMerge S (nrParentsOf S (chain key fs ((k, f) :: rest)))
        (chain k f rest) = true := by
      simp [shouldMerge, hc]
    have hm1 : shouldMerge S (nrParentsOf S (.mk key fs [chain k f rest]))
        (chain k f rest) = true := hm
    constructor
    · show (cliqueOf S (.mk key fs [chain k f rest])).keys = _
      rw [cliqueOf_keys]
      simp [hm1, ihk]
    · show (cliqueOf S (.mk key fs [chain k f rest])).children = _
      rw [cliqueOf_children]
      simp [hm1, ihc]

/-- C8 (chain scenario). For every chain-shaped elimination tree, given root
first, in which each node's symbolic conditional has exactly one parent less
than its child's, the builder returns a forest with exactly one clique; it
has no children and its frontal keys are the chain's variables from the leaf
to the root. -/
theorem chain_scenario (S : Symbolic F) (key : Key) (fs : List F)
    (rest : List (Key × List F)) (rem : List F)
    (h : chainParentCounts S key fs rest) :
    ∃ jt Q,
      JunctionTree.FromEliminationTree S { roots := [chain key fs rest], remainingFactors := rem } =
        some jt ∧
      jt.roots_ = [Q] ∧ jt.cliques = [Q] ∧ Q.children = [] ∧
      Q.keys = (key :: rest.map Prod.fst).reverse := by
  obtain ⟨hk, hc⟩ := cliqueOf_chain S rest key fs h
  refine ⟨_, cliqueOf S (chain key fs rest), FromEliminationTree_eq S _, ?_, ?_, hc, hk⟩
  · simp only [cliquesOf]
  · simp only [JunctionTree.cliques, cliquesOf, Node.cliquesList, List.append_nil]
    rw [node_cliques_eq, hc]
    simp

/-- The theorem `chain_scenario` applied to the three-variable chain with
A = 1, B = 2, C = 3: the single clique is `[C, B, A]`. -/
theorem chain_scenario_witness :
    chainParentCounts prescribedSymbolic 1 [0] [(2, [1]), (3, [2])] ∧
    ∃ jt Q,
      JunctionTree.FromEliminationTree prescribedSymbolic
        { roots := [chain 1 [0] [(2, [1]), (3, [2])]], remainingFactors := [] } = some jt ∧
      jt.roots_ = [Q] ∧ jt.cliques = [Q] ∧ Q.children = [] ∧
      Q.keys = (1 :: [((2 : Key), [1]), (3, [2])].map Prod.fst).reverse :=
  ⟨⟨rfl, rfl, trivial⟩,
   chain_scenario prescribedSymbolic 1 [0] [(2, [1]), (3, [2])] [] ⟨rfl, rfl, trivial⟩⟩

theorem cliqueOf_keys_getLast (S : Symbolic F) (n : ETreeNode F) :
    (cliqueOf S n).keys.getLast? = some n.key := by
  rw [cliqueOf_keys_eq_members, List.getLast?_map, membersOf_getLast]; rfl

/-- C19 (roots are never merged). For every elimination tree, whatever the
symbolic parent counts, the forest returned by `FromEliminationTree` has as
many root cliques as the tree has roots, in the same order, and the last
frontal key of the `i`-th root clique is the variable of the `i`-th root. -/
theorem roots_never_merged (S : Symbolic F) (et : EliminationTree F) :
    ∃ jt, JunctionTree.FromEliminationTree S et = some jt ∧
      jt.roots_.length = et.roots.length ∧
      jt.roots_.map (fun Q => Q.keys.getLast?) = et.roots.map (fun r => some r.key) ∧
      ∀ (i : Nat) (h1 : i < jt.roots_.length) (h2 : i < et.roots.length),
        (jt.roots_[i]).keys.getLast? = some (et.roots[i]).key := by
  refine ⟨_, FromEliminationTree_eq S et, ?_, ?_, ?_⟩
  · simp [cliquesOf_eq_map]
  · simp [cliquesOf_eq_map, cliqueOf_keys_getLast]
  · intro i h1 h2
    simp [cliquesOf_eq_map, cliqueOf_keys_getLast]

/-- The merge loop over a list of conditionals in two parts: the second part
starts from the state and the child index the first part ends with. -/
theorem mergeLoop_append (rd : Node F → Int) (p : Nat) :
    ∀ (l1 l2 : List SymbolicConditional) (child : Nat) (s : MergeState F),
      mergeLoop rd p (l1 ++ l2) child s =
        (mergeLoop rd p l1 child s).bind
          (fun s1 => mergeLoop rd p l2 (child + l1.length) s1) := by
  intro l1
  induction l1 with
  | nil => intro l2 child s; simp [mergeLoop]
  | cons c l1 ih =>
    intro l2 child s
    simp only [List.cons_append, mergeLoop, List.length_cons]
    by_cases hm : p + 1 = c.nrParents
    · simp only [if_pos hm]
      cases hget : s.children[child - s.nrMergedChildren]? with
      | none => simp
      | some K =>
        simp only []
        rw [show child + (l1.length + 1) = child + 1 + l1.length by omega, ← ih]
        rfl
    · simp only [if_neg hm]
      rw [show child + (l1.length + 1) = child + 1 + l1.length by omega, ← ih]
      rfl

theorem kept_merged_length :
    ∀ (Ks : List (Node F)) (ds : List Bool), Ks.length = ds.length →
      (keptChildren Ks ds).length + (mergedChildren Ks ds).length = Ks.length := by
  intro Ks
  induction Ks with
  | nil => intro ds _; simp [keptChildren_nil, mergedChildren_nil]
  | cons K Ks ih =>
    intro ds h
    cases ds with
    | nil => simp at h
    | cons d ds =>
      have := ih ds (by simpa using h)
      cases d <;> simp [keptChildren_cons, mergedChildren_cons] <;> omega

/-- C20 (index adjustment). In the merge loop started on a clique whose
children list `Ks` has as many entries as there are collected child
conditionals: for every iteration `child`, the loop reaches it (the first
`child` iterations end in a state `s`, from which the loop goes on), the index
`child - nrMergedChildren` is within the bounds of the children list of `s`,
and the entry it addresses is `Ks[child]`, the clique of original child number
`child`, never a spliced-in grandchild. -/
theorem index_adjustment_safe (rd : Node F → Int) (p : Nat)
    (conds : List SymbolicConditional)
    (Ks : List (Node F)) (ks : List Key) (fs : List F) (ps : Int)
    (hlen : Ks.length = conds.length) :
    ∀ (child : Nat) (_h1 : child < conds.length) (h2 : child < Ks.length),
      ∃ s, mergeLoop rd p (conds.take child) 0
              { keys := ks, factors := fs, children := Ks, nrMergedChildren := 0,
                combinedProblemSize := ps } = some s ∧
        mergeLoop rd p conds 0
              { keys := ks, factors := fs, children := Ks, nrMergedChildren := 0,
                combinedProblemSize := ps } = mergeLoop rd p (conds.drop child) child s ∧
        child - s.nrMergedChildren < s.children.length ∧
        s.children[child - s.nrMergedChildren]? = some Ks[child] := by
  intro child h1 h2
  have hl : (Ks.take child).length = (conds.take child).length := by
    simp [List.length_take, hlen]
  have hspec := mergeLoop_spec (F := F) rd p (conds.take child) (Ks.take child) hl 0 []
    (Ks.drop child) ks fs 0 ps (by simp)
  simp only [List.nil_append, List.take_append_drop] at hspec
  refine ⟨_, hspec, ?_, ?_, ?_⟩
  · have := mergeLoop_append (F := F) rd p (conds.take child) (conds.drop child) 0
      { keys := ks, factors := fs, children := Ks, nrMergedChildren := 0,
        combinedProblemSize := ps }
    rw [List.take_append_drop, hspec] at this
    simpa [List.length_take, Nat.min_eq_left (Nat.le_of_lt h1)] using this
  all_goals
    have hdl : (Ks.take child).length = (mergeDecisions p (conds.take child)).length := by
      simp [mergeDecisions, List.length_take, hlen]
    have hkm := kept_merged_length (Ks.take child) (mergeDecisions p (conds.take child)) hdl
    have htl : (Ks.take child).length = child := by
      simp [List.length_take, Nat.min_eq_left (Nat.le_of_lt h2)]
    have hidx : child - (0 + (mergedChildren (Ks.take child)
        (mergeDecisions p (conds.take child))).length) =
        (keptChildren (Ks.take child) (mergeDecisions p (conds.take child))).length := by
      omega
  · simp only [hidx, List.length_append, List.length_drop]
    omega
  · simp only [hidx]
    rw [List.append_assoc, List.getElem?_append_right (Nat.le_refl _), Nat.sub_self,
      List.getElem?_append_left (by simp only [List.length_drop]; omega), List.getElem?_drop]
    simp [List.getElem?_eq_getElem h2]

/-- The theorem `index_adjustment_safe` applied to the hub of the star tree:
iteration 2 addresses index 0, the clique of the third leaf. -/
theorem index_adjustment_safe_witness :
    ∃ s, mergeLoop sampleSymbolic.erasedProblemSize 0
            ((starHubData.childSymbolicConditionals).take 2) 0
            { keys := [0], factors := ([] : List (List Key)), children := starLeafCliques,
              nrMergedChildren := 0, combinedProblemSize := 1 } = some s ∧
      mergeLoop sampleSymbolic.erasedProblemSize 0 starHubData.childSymbolicConditionals 0
            { keys := [0], factors := ([] : List (List Key)), children := starLeafCliques,
              nrMergedChildren := 0, combinedProblemSize := 1 } =
        mergeLoop sampleSymbolic.erasedProblemSize 0
          ((starHubData.childSymbolicConditionals).drop 2) 2 s ∧
      2 - s.nrMergedChildren < s.children.length ∧
      s.children[2 - s.nrMergedChildren]? = some (Node.mk [3] [[3, 0]] [] 2) :=
  index_adjustment_safe sampleSymbolic.erasedProblemSize 0
    starHubData.childSymbolicConditionals starLeafCliques [0] [] 1
    rfl 2 (by decide) (by decide)

end BuilderTheorems

section EliminationTheorems

variable {F C E : Type}

theorem residualSlots_eq_map (T : FactorTraits F C)
    (function : List (Option F) → List Key → Except E (C × F)) (cs : List (Node F)) :
    residualSlots T function cs = cs.map (residualSlot T function) := by
  induction cs with
  | nil => simp [residualSlots]
  | cons c cs ih => simp [residualSlots, ih]

theorem invocationsList_eq_flatMap (T : FactorTraits F C)
    (function : List (Option F) → List Key → Except E (C × F)) (cs : List (Node F)) :
    invocationsList T function cs = cs.flatMap (invocations T function) := by
  induction cs with
  | nil => simp [invocationsList]
  | cons c cs ih => simp [invocationsList, ih]

theorem preOrderVisitor_fst (node : Node F) (d : EliminationData F)
    (st : EliminationState F C) :
    (eliminationPreOrderVisitor node d st).1 =
      { parentData := true, myIndexInParent := d.childFactors.length, childFactors := [],
        bayesTreeNode := st.cliques.length } := rfl

theorem preOrderVisitor_snd (node : Node F) (d : EliminationData F)
    (st : EliminationState F C) :
    (eliminationPreOrderVisitor node d st).2.1 =
      { d with childFactors := d.childFactors ++ [none] } := rfl

theorem preOrderVisitor_calls (node : Node F) (d : EliminationData F)
    (st : EliminationState F C) :
    (eliminationPreOrderVisitor node d st).2.2.calls = st.calls := rfl

/-- The post-order visitor logs one call, with the node's own factors followed
by the collected child slots and with the node's keys; when it succeeds, the
parent's data differs only in the node's slot. -/
theorem postOrderVisitor_spec (T : FactorTraits F C)
    (function : List (Option F) → List Key → Except E (C × F))
    (node : Node F) (myData d : EliminationData F) (st : EliminationState F C)
    (hidx : myData.myIndexInParent = d.childFactors.length) :
    (EliminationPostOrderVisitor T function node myData
        { d with childFactors := d.childFactors ++ [none] } st).2.calls =
      st.calls ++ [(node.factors.map some ++ myData.childFactors, node.keys)] ∧
    ∀ d1, (EliminationPostOrderVisitor T function node myData
        { d with childFactors := d.childFactors ++ [none] } st).1 = .ok d1 →
      d1 = { d with childFactors := d.childFactors ++
        [match function (node.factors.map some ++ myData.childFactors) node.keys with
          | .ok r => if T.empty r.2 then none else some r.2
          | .error _ => none] } := by
  unfold EliminationPostOrderVisitor
  simp only [List.nil_append]
  cases hf : function (node.factors.map some ++ myData.childFactors) node.keys with
  | error e => simp
  | ok r =>
    refine ⟨by simp, ?_⟩
    intro d1 h
    simp only [Prod.mk.injEq, Except.ok.injEq] at h
    rw [← h]
    cases hE : T.empty r.2 <;> simp [hidx, hE]

/-- The elimination traversal of a list of siblings, given what it does on
each: the calls logged are an initial part of the siblings' invocations, all
of them when the traversal succeeds, and then the parent's data has gained
one slot per sibling. -/
theorem eliminateForest_spec_of (T : FactorTraits F C)
    (function : List (Option F) → List Key → Except E (C × F)) :
    ∀ (ns : List (Node F)),
      (∀ n ∈ ns, ∀ (d : EliminationData F) (st : EliminationState F C),
        (∃ L R, invocations T function n = L ++ R ∧
          (eliminateNode T function n d st).2.calls = st.calls ++ L) ∧
        (∀ d1, (eliminateNode T function n d st).1 = .ok d1 →
          (eliminateNode T function n d st).2.calls = st.calls ++ invocations T function n ∧
          d1 = { d with childFactors := d.childFactors ++ [residualSlot T function n] })) →
      ∀ (d : EliminationData F) (st : EliminationState F C),
        (∃ L R, invocationsList T function ns = L ++ R ∧
          (eliminateForest T function ns d st).2.calls = st.calls ++ L) ∧
        (∀ d1, (eliminateForest T function ns d st).1 = .ok d1 →
          (eliminateForest T function ns d st).2.calls =
            st.calls ++ invocationsList T function ns ∧
          d1 = { d with childFactors := d.childFactors ++ residualSlots T function ns }) := by
  intro ns
  induction ns with
  | nil =>
    intro _ d st
    refine ⟨⟨[], [], by simp [invocationsList], by simp [eliminateForest]⟩, ?_⟩
    intro d1 h
    simp only [eliminateForest, Except.ok.injEq] at h
    simp [eliminateForest, invocationsList, residualSlots, ← h]
  | cons n ns ih =>
    intro h d st
    obtain ⟨⟨L, R, hLR, hL⟩, hok⟩ := h n (List.mem_cons_self _ _) d st
    have ihns := ih (fun m hm => h m (List.mem_cons_of_mem _ hm))
    rcases hn : eliminateNode T function n d st with ⟨r, st1⟩
    rw [hn] at hL hok
    cases r with
    | error e =>
      refine ⟨⟨L, R ++ invocationsList T function ns, ?_, ?_⟩, ?_⟩
      · simp [invocationsList, hLR]
      · simpa [eliminateForest, hn] using hL
      · intro d1 h1
        simp [eliminateForest, hn] at h1
    | ok d0 =>
      obtain ⟨hcalls, hd0⟩ := hok d0 rfl
      obtain ⟨⟨L1, R1, hLR1, hL1⟩, hok1⟩ := ihns d0 st1
      simp only at hcalls hL
      refine ⟨⟨invocations T function n ++ L1, R1, ?_, ?_⟩, ?_⟩
      · simp [invocationsList, hLR1]
      · simp only [eliminateForest, hn]
        rw [hL1, hcalls, List.append_assoc]
      · intro d1 h1
        simp only [eliminateForest, hn] at h1 ⊢
        obtain ⟨hc1, hd1⟩ := hok1 d1 h1
        refine ⟨?_, ?_⟩
        · rw [hc1, hcalls]; simp [invocationsList]
        · rw [hd1, hd0]; simp [residualSlots]

/-- The elimination traversal of one subtree: the calls logged are an initial
part of the subtree's invocations; when it succeeds they are all of them, and
the parent's data has gained the slot of the subtree's root. -/
theorem eliminateNode_spec (T : FactorTraits F C)
    (function : List (Option F) → List Key → Except E (C × F)) (n : Node F) :
    ∀ (d : EliminationData F) (st : EliminationState F C),
      (∃ L R, invocations T function n = L ++ R ∧
        (eliminateNode T function n d st).2.calls = st.calls ++ L) ∧
      (∀ d1, (eliminateNode T function n d st).1 = .ok d1 →
        (eliminateNode T function n d st).2.calls = st.calls ++ invocations T function n ∧
        d1 = { d with childFactors := d.childFactors ++ [residualSlot T function n] }) := by
  induction n using node_induct with
  | h ks fs cs p ih =>
    intro d st
    obtain ⟨⟨L, R, hLR, hL⟩, hok⟩ := eliminateForest_spec_of T function cs ih
      (eliminationPreOrderVisitor (.mk ks fs cs p) d st).1
      (eliminationPreOrderVisitor (.mk ks fs cs p) d st).2.2
    rw [preOrderVisitor_calls] at hL hok
    rcases hf : eliminateForest T function cs
        (eliminationPreOrderVisitor (.mk ks fs cs p) d st).1
        (eliminationPreOrderVisitor (.mk ks fs cs p) d st).2.2 with ⟨r, st2⟩
    rw [hf] at hL hok
    cases r with
    | error e =>
      refine ⟨⟨L, R ++ [(fs.map some ++ residualSlots T function cs, ks)], ?_, ?_⟩, ?_⟩
      · simp [invocations, hLR]
      · simpa [eliminateNode, hf] using hL
      · intro d1 h1
        simp [eliminateNode, hf] at h1
    | ok myData =>
      obtain ⟨hcalls, hmy⟩ := hok myData rfl
      simp only at hcalls
      rw [preOrderVisitor_fst] at hmy
      simp only [List.nil_append] at hmy
      have hidx : myData.myIndexInParent = d.childFactors.length := by rw [hmy]
      obtain ⟨hpc, hpd⟩ := postOrderVisitor_spec T function (.mk ks fs cs p) myData d st2 hidx
      have hcf : myData.childFactors = residualSlots T function cs := by rw [hmy]
      simp only [node_factors_mk, node_keys_mk, hcf] at hpc hpd
      have hnode : eliminateNode T function (.mk ks fs cs p) d st =
          EliminationPostOrderVisitor T function (.mk ks fs cs p) myData
            { d with childFactors := d.childFactors ++ [none] } st2 := by
        simp only [eliminateNode, hf, preOrderVisitor_snd]
      rw [hnode]
      refine ⟨⟨invocations T function (.mk ks fs cs p), [], by simp, ?_⟩, ?_⟩
      · rw [hpc, hcalls]; simp [invocations]
      · intro d1 h1
        refine ⟨?_, ?_⟩
        · rw [hpc, hcalls]; simp [invocations]
        · rw [hpd d1 h1]; simp only [residualSlot]

/-- C10, as the code has it (gathered factors). In `eliminate`, the calls of
the elimination function are, in order, an initial part of the post-order
list of invocations of the forest, and all of it when `eliminate` succeeds;
in that list the factor collection of a clique is the clique's own factors
followed by one entry per child clique, in child order - the child's
remaining factor when it is not empty and a null entry otherwise - and the
ordering is the clique's frontal keys in order. -/
theorem gathered_factors (T : FactorTraits F C) (this : JunctionTree F)
    (function : List (Option F) → List Key → Except E (C × F))
    (cliques : List (BayesTreeNode C)) :
    (∃ rest, (JunctionTree.eliminate T this function cliques).2.calls ++ rest =
      this.roots_.flatMap (invocations T function)) ∧
    (∀ out, (JunctionTree.eliminate T this function cliques).1 = .ok out →
      (JunctionTree.eliminate T this function cliques).2.calls =
        this.roots_.flatMap (invocations T function)) ∧
    (∀ Q : Node F, invocations T function Q =
      Q.children.flatMap (invocations T function) ++
        [(Q.factors.map some ++ Q.children.map (residualSlot T function), Q.keys)]) ∧
    (∀ (Q : Node F) (r : C × F),
      function (Q.factors.map some ++ Q.children.map (residualSlot T function)) Q.keys =
        .ok r →
      residualSlot T function Q = if T.empty r.2 then none else some r.2) := by
  obtain ⟨⟨L, R, hLR, hL⟩, hok⟩ := eliminateForest_spec_of T function this.roots_
    (fun n _ => eliminateNode_spec T function n)
    (EliminationData.construct (none : Option (EliminationData F)) this.roots_.length
      ({ cliques := cliques, nodesIndex := [], calls := [] } : EliminationState F C)).1
    (EliminationData.construct (none : Option (EliminationData F)) this.roots_.length
      ({ cliques := cliques, nodesIndex := [], calls := [] } : EliminationState F C)).2.2
  rw [invocationsList_eq_flatMap] at hLR hok
  have hc0 : (EliminationData.construct (none : Option (EliminationData F))
      this.roots_.length
      ({ cliques := cliques, nodesIndex := [], calls := [] } : EliminationState F C)).2.2.calls
      = [] := rfl
  rw [hc0] at hL hok
  simp only [List.nil_append] at hL hok
  rcases hf : eliminateForest T function this.roots_
      (EliminationData.construct (none : Option (EliminationData F)) this.roots_.length
        ({ cliques := cliques, nodesIndex := [], calls := [] } : EliminationState F C)).1
      (EliminationData.construct (none : Option (EliminationData F)) this.roots_.length
        ({ cliques := cliques, nodesIndex := [], calls := [] } : EliminationState F C)).2.2
    with ⟨r, st⟩
  rw [hf] at hL hok
  refine ⟨?_, ?_, ?_, ?_⟩
  · cases r with
    | error e => exact ⟨R, by simp only [JunctionTree.eliminate, hf]; rw [hL, hLR]⟩
    | ok d1 => exact ⟨R, by simp only [JunctionTree.eliminate, hf]; rw [hL, hLR]⟩
  · intro out hout
    cases r with
    | error e => simp [JunctionTree.eliminate, hf] at hout
    | ok d1 =>
      simp only [JunctionTree.eliminate, hf]
      exact (hok d1 rfl).1
  · intro Q
    cases Q with
    | mk ks fs cs p =>
      simp only [invocations, invocationsList_eq_flatMap, residualSlots_eq_map,
        node_children_mk, node_factors_mk, node_keys_mk]
  · intro Q r hr
    cases Q with
    | mk ks fs cs p =>
      simp only [node_children_mk, node_factors_mk, node_keys_mk] at hr
      simp only [residualSlot, residualSlots_eq_map, hr]

/-- The theorem `gathered_factors` applied to the forest of the chain
A - B - C and the identity elimination function. -/
theorem gathered_factors_witness :
    (∃ rest, (JunctionTree.eliminate sampleTraits chainForest identityEliminate []).2.calls ++ rest =
      chainForest.roots_.flatMap (invocations sampleTraits identityEliminate)) ∧
    (∀ out, (JunctionTree.eliminate sampleTraits chainForest identityEliminate []).1 = .ok out →
      (JunctionTree.eliminate sampleTraits chainForest identityEliminate []).2.calls =
        chainForest.roots_.flatMap (invocations sampleTraits identityEliminate)) ∧
    (∀ Q : Node (List Key), invocations sampleTraits identityEliminate Q =
      Q.children.flatMap (invocations sampleTraits identityEliminate) ++
        [(Q.factors.map some ++ Q.children.map (residualSlot sampleTraits identityEliminate),
          Q.keys)]) ∧
    (∀ (Q : Node (List Key)) (r : List Key × List Key),
      identityEliminate
          (Q.factors.map some ++ Q.children.map (residualSlot sampleTraits identityEliminate))
          Q.keys = .ok r →
      residualSlot sampleTraits identityEliminate Q =
        if sampleTraits.empty r.2 then none else some r.2) :=
  gathered_factors sampleTraits chainForest identityEliminate []

/-- C10 fails as stated. With the identity elimination function, whose
remaining factor is always empty, on the forest of the chain A - B - C (root
clique `[2, 1]` with child clique `[3]`), the factor collection handed to the
elimination function for the root clique is its own factor followed by a
null entry for the child; it is not the list of its own factors alone. -/
theorem gathered_factors_counterexample :
    (JunctionTree.eliminate sampleTraits chainForest identityEliminate []).2.calls =
      [([some [3, 2]], [3]), ([some [2, 1], none], [2, 1])] ∧
    ¬ ((JunctionTree.eliminate sampleTraits chainForest identityEliminate []).2.calls =
      [([some [3, 2]], [3]), ([some [2, 1]], [2, 1])]) := by
  refine ⟨rfl, ?_⟩
  intro h
  have e : (JunctionTree.eliminate sampleTraits chainForest identityEliminate []).2.calls =
      [([some [3, 2]], [3]), ([some [2, 1], none], [2, 1])] := rfl
  rw [e] at h
  exact absurd h (by decide)

theorem construct_none_fst (n : Nat) (st : EliminationState F C) :
    (EliminationData.construct (none : Option (EliminationData F)) n st).1 =
      { parentData := false, myIndexInParent := 0, childFactors := [],
        bayesTreeNode := st.cliques.length } := rfl

theorem construct_none_state (n : Nat) (st : EliminationState F C) :
    (EliminationData.construct (none : Option (EliminationData F)) n st).2.2 =
      { st with cliques := st.cliques ++
          [{ conditional_ := none, parent_ := none, children := [] }] } := rfl

/-- The traversal of a whole forest, unconditionally. -/
theorem eliminateForest_spec (T : FactorTraits F C)
    (function : List (Option F) → List Key → Except E (C × F)) (ns : List (Node F))
    (d : EliminationData F) (st : EliminationState F C) :
    (∃ L R, invocationsList T function ns = L ++ R ∧
      (eliminateForest T function ns d st).2.calls = st.calls ++ L) ∧
    (∀ d1, (eliminateForest T function ns d st).1 = .ok d1 →
      (eliminateForest T function ns d st).2.calls =
        st.calls ++ invocationsList T function ns ∧
      d1 = { d with childFactors := d.childFactors ++ residualSlots T function ns }) :=
  eliminateForest_spec_of T function ns (fun n _ => eliminateNode_spec T function n) d st

theorem eliminate_unfold (T : FactorTraits F C) (this : JunctionTree F)
    (function : List (Option F) → List Key → Except E (C × F))
    (cliques : List (BayesTreeNode C)) :
    JunctionTree.eliminate T this function cliques =
      match eliminateForest T function this.roots_
          { parentData := false, myIndexInParent := 0, childFactors := [],
            bayesTreeNode := cliques.length }
          { cliques := cliques ++ [{ conditional_ := none, parent_ := none, children := [] }],
            nodesIndex := [], calls := [] } with
      | (.error e, st) =>
        (.error e, { cliques := unwind cliques.length st.cliques, nodesIndex := [],
                     calls := st.calls })
      | (.ok rootsContainer, st) =>
        (.ok ({ roots_ :=
                  ((st.cliques[rootsContainer.bayesTreeNode]?).map
                    (fun n => n.children)).getD [],
                nodes_ := st.nodesIndex },
              this.remainingFactors_ ++
                rootsContainer.childFactors.filterMap (fun factor => factor)), st) := rfl

/-- When `eliminate` returns, the remaining factors are those of the junction
tree followed by the non-null slots of the roots. -/
theorem eliminate_ok_remaining (T : FactorTraits F C) (this : JunctionTree F)
    (function : List (Option F) → List Key → Except E (C × F))
    (cliques : List (BayesTreeNode C)) :
    ∀ out, (JunctionTree.eliminate T this function cliques).1 = .ok out →
      out.2 = this.remainingFactors_ ++
        (this.roots_.map (residualSlot T function)).filterMap (fun x => x) := by
  intro out hout
  rw [eliminate_unfold] at hout
  have hspec := (eliminateForest_spec T function this.roots_
      { parentData := false, myIndexInParent := 0, childFactors := [],
        bayesTreeNode := cliques.length }
      { cliques := cliques ++ [{ conditional_ := none, parent_ := none, children := [] }],
        nodesIndex := [], calls := [] }).2
  rcases hf : eliminateForest T function this.roots_
      { parentData := false, myIndexInParent := 0, childFactors := [],
        bayesTreeNode := cliques.length }
      { cliques := cliques ++ [{ conditional_ := none, parent_ := none, children := [] }],
        nodesIndex := [], calls := [] }
    with ⟨r, st⟩
  rw [hf] at hspec hout
  cases r with
  | error e => simp at hout
  | ok d1 =>
    obtain ⟨_, hd1⟩ := hspec d1 rfl
    simp only [Except.ok.injEq] at hout
    rw [← hout, hd1]
    simp [residualSlots_eq_map]

theorem residualSlot_of_ok (T : FactorTraits F C)
    (function : List (Option F) → List Key → Except E (C × F)) (Q : Node F) (r : C × F)
    (hr : function (Q.factors.map some ++ Q.children.map (residualSlot T function)) Q.keys =
      .ok r) :
    residualSlot T function Q = if T.empty r.2 then none else some r.2 := by
  cases Q with
  | mk ks fs cs p =>
    simp only [node_children_mk, node_factors_mk, node_keys_mk] at hr
    simp only [residualSlot, residualSlots_eq_map, hr]

theorem residualSlot_none_of_empty (T : FactorTraits F C)
    (function : List (Option F) → List Key → Except E (C × F))
    (hempty : ∀ g k r, function g k = .ok r → T.empty r.2 = true) (Q : Node F) :
    residualSlot T function Q = none := by
  cases Q with
  | mk ks fs cs p =>
    simp only [residualSlot]
    cases hf : function (fs.map some ++ residualSlots T function cs) ks with
    | error e => rfl
    | ok r => simp [hempty _ _ r hf]

/-- C15 (remaining factors). For every elimination tree `et` and elimination
function, when `eliminate` on the forest built from `et` returns, its
remaining-factors list is `et`'s remaining factors, in order, followed by the
remaining factors of the forest roots whose remaining factor is not empty, in
root order; a root whose remaining factor is empty contributes nothing, so
with a function whose remaining factor is always empty and an `et` without
remaining factors the list is empty. -/
theorem remaining_factors (S : Symbolic F) (T : FactorTraits F C) (et : EliminationTree F)
    (function : List (Option F) → List Key → Except E (C × F))
    (cliques : List (BayesTreeNode C)) :
    ∃ jt, JunctionTree.FromEliminationTree S et = some jt ∧
      (∀ out, (JunctionTree.eliminate T jt function cliques).1 = .ok out →
        out.2 = et.remainingFactors ++
          (jt.roots_.map (residualSlot T function)).filterMap (fun x => x)) ∧
      (∀ (Q : Node F) (r : C × F),
        function (Q.factors.map some ++ Q.children.map (residualSlot T function)) Q.keys =
          .ok r →
        residualSlot T function Q = if T.empty r.2 then none else some r.2) ∧
      (∀ out, (JunctionTree.eliminate T jt function cliques).1 = .ok out →
        et.remainingFactors = [] →
        (∀ g k r, function g k = .ok r → T.empty r.2 = true) → out.2 = []) := by
  refine ⟨_, FromEliminationTree_eq S et, ?_, ?_, ?_⟩
  · intro out hout
    exact eliminate_ok_remaining T _ function cliques out hout
  · intro Q r hr
    exact residualSlot_of_ok T function Q r hr
  · intro out hout hrem hempty
    rw [eliminate_ok_remaining T _ function cliques out hout]
    simp [hrem, residualSlot_none_of_empty T function hempty]

/-- The theorem `remaining_factors` applied to the star tree and the identity
elimination function. -/
theorem remaining_factors_witness :
    ∃ jt, JunctionTree.FromEliminationTree sampleSymbolic starTree = some jt ∧
      (∀ out, (JunctionTree.eliminate sampleTraits jt identityEliminate []).1 = .ok out →
        out.2 = starTree.remainingFactors ++
          (jt.roots_.map (residualSlot sampleTraits identityEliminate)).filterMap
            (fun x => x)) ∧
      (∀ (Q : Node (List Key)) (r : List Key × List Key),
        identityEliminate
            (Q.factors.map some ++ Q.children.map (residualSlot sampleTraits identityEliminate))
            Q.keys = .ok r →
        residualSlot sampleTraits identityEliminate Q =
          if sampleTraits.empty r.2 then none else some r.2) ∧
      (∀ out, (JunctionTree.eliminate sampleTraits jt identityEliminate []).1 = .ok out →
        starTree.remainingFactors = [] →
        (∀ g k r, identityEliminate g k = .ok r → sampleTraits.empty r.2 = true) →
        out.2 = []) :=
  remaining_factors sampleSymbolic sampleTraits starTree identityEliminate []

theorem cloneForest_eq_map (cs : List (Node F)) : CloneForest cs = cs.map CloneNode := by
  induction cs with
  | nil => simp [CloneForest]
  | cons c cs ih => simp [CloneForest, ih]

/-- A clone of a subtree is equal, as a value, to the subtree. -/
theorem cloneNode_eq (Q : Node F) : CloneNode Q = Q := by
  induction Q using node_induct with
  | h ks fs cs p ih =>
    have hcs : CloneForest cs = cs := by
      rw [cloneForest_eq_map]
      exact (List.map_congr_left ih).trans (List.map_id _)
    simp [CloneNode, hcs]

theorem cloneForest_eq (cs : List (Node F)) : CloneForest cs = cs := by
  rw [cloneForest_eq_map]
  exact (List.map_congr_left (fun Q _ => cloneNode_eq Q)).trans (List.map_id _)

/-- C18 (clone/assign). After assigning the clique forest `other` to a
junction tree, the tree's roots are equal to `other`'s at every node (keys in
the same order, the same factors, problem size and child lists), its
remaining factors are `other`'s, nothing of what it held before is left (the
result does not depend on it), and `eliminate` on the copy gives the same
result and the same final state as on `other`, for every elimination
function. -/
theorem assign_clones (T : FactorTraits F C) (this other : JunctionTree F) :
    (this.assign other).roots_ = other.roots_ ∧
    (this.assign other).remainingFactors_ = other.remainingFactors_ ∧
    (∀ this1 : JunctionTree F, this1.assign other = this.assign other) ∧
    (∀ (function : List (Option F) → List Key → Except E (C × F))
        (cliques : List (BayesTreeNode C)),
      JunctionTree.eliminate T (this.assign other) function cliques =
        JunctionTree.eliminate T other function cliques) := by
  have h : this.assign other = other := by
    cases other with
    | mk roots rem => simp [JunctionTree.assign, cloneForest_eq]
  refine ⟨by rw [h], by rw [h], fun this1 => rfl, ?_⟩
  intro function cliques
  rw [h]

theorem postOrderVisitor_outcome (T : FactorTraits F C)
    (function : List (Option F) → List Key → Except E (C × F))
    (node : Node F) (myData pd : EliminationData F) (st : EliminationState F C) :
    (EliminationPostOrderVisitor T function node myData pd st).2.calls =
      st.calls ++ [(node.factors.map some ++ myData.childFactors, node.keys)] ∧
    (∀ d1, (EliminationPostOrderVisitor T function node myData pd st).1 = .ok d1 →
      ∃ x, function (node.factors.map some ++ myData.childFactors) node.keys = .ok x) ∧
    (∀ e, (EliminationPostOrderVisitor T function node myData pd st).1 = .error e →
      function (node.factors.map some ++ myData.childFactors) node.keys = .error e) := by
  unfold EliminationPostOrderVisitor
  simp only [List.nil_append]
  cases hf : function (node.factors.map some ++ myData.childFactors) node.keys with
  | error e => simp
  | ok r => simp

/-- The outcome of the traversal of a list of siblings, given the outcome on
each: the calls logged all succeed when the traversal succeeds, and when it
fails the last call logged is the one that failed, with the traversal's
error, and all calls before it succeeded. -/
theorem eliminateForest_outcome_of (T : FactorTraits F C)
    (function : List (Option F) → List Key → Except E (C × F)) :
    ∀ (ns : List (Node F)),
      (∀ n ∈ ns, ∀ (d : EliminationData F) (st : EliminationState F C),
        ∃ L, (eliminateNode T function n d st).2.calls = st.calls ++ L ∧
          (∀ d1, (eliminateNode T function n d st).1 = .ok d1 →
            ∀ c ∈ L, ∃ x, function c.1 c.2 = .ok x) ∧
          (∀ e, (eliminateNode T function n d st).1 = .error e →
            ∃ L0 c, L = L0 ++ [c] ∧ function c.1 c.2 = .error e ∧
              ∀ c0 ∈ L0, ∃ x, function c0.1 c0.2 = .ok x)) →
      ∀ (d : EliminationData F) (st : EliminationState F C),
        ∃ L, (eliminateForest T function ns d st).2.calls = st.calls ++ L ∧
          (∀ d1, (eliminateForest T function ns d st).1 = .ok d1 →
            ∀ c ∈ L, ∃ x, function c.1 c.2 = .ok x) ∧
          (∀ e, (eliminateForest T function ns d st).1 = .error e →
            ∃ L0 c, L = L0 ++ [c] ∧ function c.1 c.2 = .error e ∧
              ∀ c0 ∈ L0, ∃ x, function c0.1 c0.2 = .ok x) := by
  intro ns
  induction ns with
  | nil =>
    intro _ d st
    exact ⟨[], by simp [eliminateForest], by simp, by simp [eliminateForest]⟩
  | cons n ns ih =>
    intro h d st
    obtain ⟨L, hL, hok, herr⟩ := h n (List.mem_cons_self _ _) d st
    have ihns := ih (fun m hm => h m (List.mem_cons_of_mem _ hm))
    rcases hn : eliminateNode T function n d st with ⟨r, st1⟩
    rw [hn] at hL hok herr
    cases r with
    | error e =>
      refine ⟨L, by simpa [eliminateForest, hn] using hL, ?_, ?_⟩
      · intro d1 h1
        simp [eliminateForest, hn] at h1
      · intro e1 h1
        simp only [eliminateForest, hn, Except.error.injEq] at h1
        exact herr e1 (by simp [h1])
    | ok d0 =>
      obtain ⟨L1, hL1, hok1, herr1⟩ := ihns d0 st1
      have hLok := hok d0 rfl
      simp only at hL
      refine ⟨L ++ L1, ?_, ?_, ?_⟩
      · simp only [eliminateForest, hn]
        rw [hL1, hL, List.append_assoc]
      · intro d1 h1 c hc
        simp only [eliminateForest, hn] at h1
        rcases List.mem_append.1 hc with hc | hc
        · exact hLok c hc
        · exact hok1 d1 h1 c hc
      · intro e h1
        simp only [eliminateForest, hn] at h1
        obtain ⟨L0, c, hL0, hc, hall⟩ := herr1 e h1
        refine ⟨L ++ L0, c, by rw [hL0, List.append_assoc], hc, ?_⟩
        intro c0 hc0
        rcases List.mem_append.1 hc0 with hc0 | hc0
        · exact hLok c0 hc0
        · exact hall c0 hc0

/-- The outcome of the traversal of one subtree. -/
theorem eliminateNode_outcome (T : FactorTraits F C)
    (function : List (Option F) → List Key → Except E (C × F)) (n : Node F) :
    ∀ (d : EliminationData F) (st : EliminationState F C),
      ∃ L, (eliminateNode T function n d st).2.calls = st.calls ++ L ∧
        (∀ d1, (eliminateNode T function n d st).1 = .ok d1 →
          ∀ c ∈ L, ∃ x, function c.1 c.2 = .ok x) ∧
        (∀ e, (eliminateNode T function n d st).1 = .error e →
          ∃ L0 c, L = L0 ++ [c] ∧ function c.1 c.2 = .error e ∧
            ∀ c0 ∈ L0, ∃ x, function c0.1 c0.2 = .ok x) := by
  induction n using node_induct with
  | h ks fs cs p ih =>
    intro d st
    obtain ⟨L, hL, hok, herr⟩ := eliminateForest_outcome_of T function cs ih
      (eliminationPreOrderVisitor (.mk ks fs cs p) d st).1
      (eliminationPreOrderVisitor (.mk ks fs cs p) d st).2.2
    rw [preOrderVisitor_calls] at hL
    rcases hf : eliminateForest T function cs
        (eliminationPreOrderVisitor (.mk ks fs cs p) d st).1
        (eliminationPreOrderVisitor (.mk ks fs cs p) d st).2.2 with ⟨r, st2⟩
    rw [hf] at hL hok herr
    cases r with
    | error e =>
      refine ⟨L, by simpa [eliminateNode, hf] using hL, ?_, ?_⟩
      · intro d1 h1
        simp [eliminateNode, hf] at h1
      · intro e1 h1
        simp only [eliminateNode, hf, Except.error.injEq] at h1
        exact herr e1 (by simp [h1])
    | ok myData =>
      have hLok := hok myData rfl
      simp only at hL
      obtain ⟨hpc, hpok, hperr⟩ := postOrderVisitor_outcome T function (.mk ks fs cs p) myData
        (eliminationPreOrderVisitor (.mk ks fs cs p) d st).2.1 st2
      have hnode : eliminateNode T function (.mk ks fs cs p) d st =
          EliminationPostOrderVisitor T function (.mk ks fs cs p) myData
            (eliminationPreOrderVisitor (.mk ks fs cs p) d st).2.1 st2 := by
        simp only [eliminateNode, hf]
      rw [hnode]
      refine ⟨L ++ [((Node.mk ks fs cs p).factors.map some ++ myData.childFactors,
        (Node.mk ks fs cs p).keys)], ?_, ?_, ?_⟩
      · rw [hpc, hL, List.append_assoc]
      · intro d1 h1 c hc
        rcases List.mem_append.1 hc with hc | hc
        · exact hLok c hc
        · have e : c = ((Node.mk ks fs cs p).factors.map some ++ myData.childFactors,
              (Node.mk ks fs cs p).keys) := by simpa using hc
          rw [e]; exact hpok d1 h1
      · intro e h1
        exact ⟨L, _, rfl, hperr e h1, hLok⟩

/-- The outcome of `eliminate` in terms of its log of calls. -/
theorem eliminate_outcome (T : FactorTraits F C) (this : JunctionTree F)
    (function : List (Option F) → List Key → Except E (C × F))
    (cliques : List (BayesTreeNode C)) :
    (∀ out, (JunctionTree.eliminate T this function cliques).1 = .ok out →
      ∀ c ∈ (JunctionTree.eliminate T this function cliques).2.calls,
        ∃ x, function c.1 c.2 = .ok x) ∧
    (∀ e, (JunctionTree.eliminate T this function cliques).1 = .error e →
      ∃ L0 c, (JunctionTree.eliminate T this function cliques).2.calls = L0 ++ [c] ∧
        function c.1 c.2 = .error e ∧ ∀ c0 ∈ L0, ∃ x, function c0.1 c0.2 = .ok x) := by
  rw [eliminate_unfold]
  obtain ⟨L, hL, hok, herr⟩ := eliminateForest_outcome_of T function this.roots_
    (fun n _ => eliminateNode_outcome T function n)
    { parentData := false, myIndexInParent := 0, childFactors := [],
      bayesTreeNode := cliques.length }
    { cliques := cliques ++ [{ conditional_ := none, parent_ := none, children := [] }],
      nodesIndex := [], calls := [] }
  rcases hf : eliminateForest T function this.roots_
      { parentData := false, myIndexInParent := 0, childFactors := [],
        bayesTreeNode := cliques.length }
      { cliques := cliques ++ [{ conditional_ := none, parent_ := none, children := [] }],
        nodesIndex := [], calls := [] }
    with ⟨r, st⟩
  rw [hf] at hL hok herr
  simp only [List.nil_append] at hL
  cases r with
  | error e =>
    refine ⟨by intro out h; simp at h, ?_⟩
    intro e1 h1
    simp only [Except.error.injEq] at h1
    obtain ⟨L0, c, hL0, hc, hall⟩ := herr e1 (by simp [h1])
    exact ⟨L0, c, by simp only []; rw [hL, hL0], hc, hall⟩
  | ok d1 =>
    refine ⟨?_, by intro e h; simp at h⟩
    intro out _ c hc
    simp only [] at hc
    rw [hL] at hc
    exact hok d1 rfl c hc

/-- C16 (failure propagation). `eliminate` fails if and only if some logged
invocation of the elimination function fails; it fails with error `e` exactly
when the last logged invocation fails with `e` and all invocations before it
succeeded, so the error is that of the first failing invocation and nothing
is eliminated after it; a failed `eliminate` returns no clique tree and no
remaining factors. -/
theorem failure_propagation (T : FactorTraits F C) (this : JunctionTree F)
    (function : List (Option F) → List Key → Except E (C × F))
    (cliques : List (BayesTreeNode C)) :
    ((∃ e, (JunctionTree.eliminate T this function cliques).1 = .error e) ↔
      ∃ c ∈ (JunctionTree.eliminate T this function cliques).2.calls,
        ∃ e, function c.1 c.2 = .error e) ∧
    (∀ e, (JunctionTree.eliminate T this function cliques).1 = .error e ↔
      ∃ L0 c, (JunctionTree.eliminate T this function cliques).2.calls = L0 ++ [c] ∧
        function c.1 c.2 = .error e ∧ ∀ c0 ∈ L0, ∃ x, function c0.1 c0.2 = .ok x) ∧
    (∀ e, (JunctionTree.eliminate T this function cliques).1 = .error e →
      ∀ out, (JunctionTree.eliminate T this function cliques).1 ≠ .ok out) := by
  obtain ⟨hok, herr⟩ := eliminate_outcome T this function cliques
  refine ⟨⟨?_, ?_⟩, ?_, ?_⟩
  · rintro ⟨e, he⟩
    obtain ⟨L0, c, hL, hc, _⟩ := herr e he
    exact ⟨c, by rw [hL]; simp, e, hc⟩
  · rintro ⟨c, hc, e, hce⟩
    cases hres : (JunctionTree.eliminate T this function cliques).1 with
    | error e1 => exact ⟨e1, rfl⟩
    | ok out =>
      obtain ⟨x, hx⟩ := hok out hres c hc
      rw [hx] at hce
      cases hce
  · intro e
    constructor
    · intro he
      exact herr e he
    · rintro ⟨L0, c, hL, hc, _⟩
      cases hres : (JunctionTree.eliminate T this function cliques).1 with
      | error e1 =>
        obtain ⟨L1, c1, hL1, hc1, _⟩ := herr e1 hres
        rw [hL] at hL1
        have hcc : c = c1 := by
          have := congrArg List.getLast? hL1
          simpa using this
        rw [← hcc, hc] at hc1
        cases hc1
        rfl
      | ok out =>
        obtain ⟨x, hx⟩ := hok out hres c (by rw [hL]; simp)
        rw [hx] at hc
        cases hc
  · intro e he out hout
    rw [he] at hout
    cases hout

theorem invocations_eq_postOrder (T : FactorTraits F C)
    (function : List (Option F) → List Key → Except E (C × F)) (Q : Node F) :
    invocations T function Q =
      Q.postOrder.map (fun X =>
        (X.factors.map some ++ X.children.map (residualSlot T function), X.keys)) := by
  induction Q using node_induct with
  | h ks fs cs p ih =>
    have hcs : invocationsList T function cs =
        (Node.postOrderList cs).map (fun X =>
          (X.factors.map some ++ X.children.map (residualSlot T function), X.keys)) := by
      clear p
      induction cs with
      | nil => simp [invocationsList, Node.postOrderList]
      | cons c cs ihc =>
        simp only [invocationsList, Node.postOrderList, List.map_append]
        rw [ih c (List.mem_cons_self _ _),
          ihc (fun x hx => ih x (List.mem_cons_of_mem _ hx))]
    simp [invocations, Node.postOrder, hcs, residualSlots_eq_map]

theorem postOrderList_eq_flatMap (cs : List (Node F)) :
    Node.postOrderList cs = cs.flatMap Node.postOrder := by
  induction cs with
  | nil => simp [Node.postOrderList]
  | cons c cs ih => simp [Node.postOrderList, ih]

theorem postOrder_eq (Q : Node F) :
    Q.postOrder = Node.postOrderList Q.children ++ [Q] := by
  cases Q with
  | mk ks fs cs p => simp [Node.postOrder]

/-- The post-order list of a subtree holds the same cliques as the subtree. -/
theorem postOrder_perm_cliques (Q : Node F) : List.Perm Q.postOrder Q.cliques := by
  induction Q using node_induct with
  | h ks fs cs p ih =>
    rw [postOrder_eq, node_cliques_eq, node_children_mk, postOrderList_eq_flatMap]
    refine List.perm_append_comm.trans ?_
    exact List.Perm.cons _ (List.Perm.flatMap_left cs ih)

theorem postOrderList_perm_cliques (cs : List (Node F)) :
    List.Perm (Node.postOrderList cs) (Node.cliquesList cs) := by
  rw [postOrderList_eq_flatMap, cliquesList_eq_flatMap]
  exact List.Perm.flatMap_left cs (fun Q _ => postOrder_perm_cliques Q)

/-- The post-order list of a subtree holds, for each clique of the subtree,
the post-order list of that clique's subtree as a contiguous part. -/
theorem postOrder_infix (Q : Node F) :
    ∀ X ∈ Q.cliques, ∃ before after, Q.postOrder = before ++ X.postOrder ++ after := by
  induction Q using node_induct with
  | h ks fs cs p ih =>
    intro X hX
    rw [node_cliques_eq] at hX
    rcases List.mem_cons.1 hX with rfl | hX
    · exact ⟨[], [], by simp⟩
    · obtain ⟨c, hc, hXc⟩ := List.mem_flatMap.1 hX
      rw [node_children_mk] at hc
      obtain ⟨b, a, hba⟩ := ih c hc X hXc
      obtain ⟨l1, l2, hl⟩ := List.append_of_mem hc
      refine ⟨l1.flatMap Node.postOrder ++ b,
        a ++ l2.flatMap Node.postOrder ++ [.mk ks fs cs p], ?_⟩
      rw [postOrder_eq, node_children_mk, postOrderList_eq_flatMap, hl]
      simp [hba, List.append_assoc]

theorem postOrderList_infix (cs : List (Node F)) :
    ∀ X ∈ Node.cliquesList cs,
      ∃ before after, Node.postOrderList cs = before ++ X.postOrder ++ after := by
  intro X hX
  rw [cliquesList_eq_flatMap] at hX
  obtain ⟨c, hc, hXc⟩ := List.mem_flatMap.1 hX
  obtain ⟨b, a, hba⟩ := postOrder_infix c X hXc
  obtain ⟨l1, l2, hl⟩ := List.append_of_mem hc
  refine ⟨l1.flatMap Node.postOrder ++ b, a ++ l2.flatMap Node.postOrder, ?_⟩
  rw [postOrderList_eq_flatMap, hl]
  simp [hba, List.append_assoc]

/-- The calls of `eliminate` are an initial part of the forest's invocations,
and all of them when it returns. -/
theorem eliminate_calls (T : FactorTraits F C) (this : JunctionTree F)
    (function : List (Option F) → List Key → Except E (C × F))
    (cliques : List (BayesTreeNode C)) :
    (∃ rest, (JunctionTree.eliminate T this function cliques).2.calls ++ rest =
      invocationsList T function this.roots_) ∧
    (∀ out, (JunctionTree.eliminate T this function cliques).1 = .ok out →
      (JunctionTree.eliminate T this function cliques).2.calls =
        invocationsList T function this.roots_) := by
  rw [eliminate_unfold]
  obtain ⟨⟨L, R, hLR, hL⟩, hok⟩ := eliminateForest_spec T function this.roots_
    { parentData := false, myIndexInParent := 0, childFactors := [],
      bayesTreeNode := cliques.length }
    { cliques := cliques ++ [{ conditional_ := none, parent_ := none, children := [] }],
      nodesIndex := [], calls := [] }
  rcases hf : eliminateForest T function this.roots_
      { parentData := false, myIndexInParent := 0, childFactors := [],
        bayesTreeNode := cliques.length }
      { cliques := cliques ++ [{ conditional_ := none, parent_ := none, children := [] }],
        nodesIndex := [], calls := [] }
    with ⟨r, st⟩
  rw [hf] at hL hok
  simp only [List.nil_append] at hL hok
  cases r with
  | error e =>
    exact ⟨⟨R, by simp only []; rw [hL, hLR]⟩, by intro out h; simp at h⟩
  | ok d1 =>
    refine ⟨⟨R, by simp only []; rw [hL, hLR]⟩, ?_⟩
    intro out _
    exact (hok d1 rfl).1

theorem invocationsList_eq_postOrderList (T : FactorTraits F C)
    (function : List (Option F) → List Key → Except E (C × F)) (cs : List (Node F)) :
    invocationsList T function cs =
      (Node.postOrderList cs).map (fun X =>
        (X.factors.map some ++ X.children.map (residualSlot T function), X.keys)) := by
  rw [invocationsList_eq_flatMap, postOrderList_eq_flatMap, List.map_flatMap]
  exact List.flatMap_congr (fun Q _ => invocations_eq_postOrder T function Q)

/-- C11 (dependency order). The calls of the elimination function made by
`eliminate` are, in order, an initial part of the calls for the cliques of
the forest in post-order, and all of them when `eliminate` returns: then
there is exactly one call per clique of the forest.  In the post-order list
every clique comes right after the whole post-order list of the cliques below
it, so the call for a clique comes after the calls for every clique in its
subtree. -/
theorem dependency_order (T : FactorTraits F C) (this : JunctionTree F)
    (function : List (Option F) → List Key → Except E (C × F))
    (cliques : List (BayesTreeNode C)) :
    (∃ rest, (JunctionTree.eliminate T this function cliques).2.calls ++ rest =
      (Node.postOrderList this.roots_).map (fun X =>
        (X.factors.map some ++ X.children.map (residualSlot T function), X.keys))) ∧
    (∀ out, (JunctionTree.eliminate T this function cliques).1 = .ok out →
      (JunctionTree.eliminate T this function cliques).2.calls =
        (Node.postOrderList this.roots_).map (fun X =>
          (X.factors.map some ++ X.children.map (residualSlot T function), X.keys))) ∧
    List.Perm (Node.postOrderList this.roots_) this.cliques ∧
    (∀ Q ∈ this.cliques, ∃ before after,
      Node.postOrderList this.roots_ =
        before ++ (Node.postOrderList Q.children ++ [Q]) ++ after) ∧
    (∀ Q : Node F, List.Perm (Node.postOrderList Q.children ++ [Q]) Q.cliques) := by
  obtain ⟨h1, h2⟩ := eliminate_calls T this function cliques
  rw [invocationsList_eq_postOrderList] at h1 h2
  refine ⟨h1, h2, postOrderList_perm_cliques _, ?_, ?_⟩
  · intro Q hQ
    obtain ⟨b, a, hba⟩ := postOrderList_infix this.roots_ Q hQ
    exact ⟨b, a, by rw [hba, postOrder_eq]⟩
  · intro Q
    rw [← postOrder_eq]
    exact postOrder_perm_cliques Q

theorem preservedBelow_refl (h0 : Nat) (A : List Nat) (heap : List (BayesTreeNode C)) :
    preservedBelow h0 A heap heap :=
  fun _ _ cell h => ⟨cell, h, rfl, rfl, Or.inl rfl⟩

theorem preservedBelow_trans (h0 : Nat) (A B : List Nat)
    (h1 h2 h3 : List (BayesTreeNode C))
    (h12 : preservedBelow h0 A h1 h2) (h23 : preservedBelow h0 B h2 h3) :
    preservedBelow h0 (A ++ B) h1 h3 := by
  intro i hi cell hc
  obtain ⟨c2, hc2, e1, e2, e3⟩ := h12 i hi cell hc
  obtain ⟨c3, hc3, f1, f2, f3⟩ := h23 i hi c2 hc2
  refine ⟨c3, hc3, f1.trans e1, f2.trans e2, ?_⟩
  rcases f3 with f3 | ⟨f3, p, hp, f4⟩
  · rcases e3 with e3 | ⟨e3, p, hp, e4⟩
    · exact Or.inl (f3.trans e3)
    · exact Or.inr ⟨List.mem_append_left _ e3, p, hp, f3.trans e4⟩
  · exact Or.inr ⟨List.mem_append_right _ f3, p, hp, f4⟩

theorem preservedBelow_mono (h0 : Nat) (A B : List Nat) (hAB : ∀ i ∈ A, i ∈ B)
    (h1 h2 : List (BayesTreeNode C)) (h12 : preservedBelow h0 A h1 h2) :
    preservedBelow h0 B h1 h2 := by
  intro i hi cell hc
  obtain ⟨c2, hc2, e1, e2, e3⟩ := h12 i hi cell hc
  exact ⟨c2, hc2, e1, e2, e3.imp id (fun h => ⟨hAB i h.1, h.2⟩)⟩

theorem preservedBelow_append (h0 : Nat) (heap l : List (BayesTreeNode C)) :
    preservedBelow h0 [] heap (heap ++ l) := by
  intro i _ cell hc
  have hlt : i < heap.length := by
    rcases Nat.lt_or_ge i heap.length with h | h
    · exact h
    · rw [List.getElem?_eq_none h] at hc; cases hc
  exact ⟨cell, by rw [List.getElem?_append_left hlt]; exact hc, rfl, rfl, Or.inl rfl⟩

theorem preservedBelow_modify_ge (h0 n : Nat) (hn : h0 ≤ n) (f : BayesTreeNode C → BayesTreeNode C)
    (heap : List (BayesTreeNode C)) :
    preservedBelow h0 [] heap (heap.modify f n) := by
  intro i hi cell hc
  have hne : n ≠ i := by omega
  exact ⟨cell, by rw [List.getElem?_modify_ne _ _ hne]; exact hc, rfl, rfl, Or.inl rfl⟩

theorem preservedBelow_modify_parent (h0 q b : Nat) (hb : h0 ≤ b)
    (heap : List (BayesTreeNode C)) :
    preservedBelow h0 [q] heap (heap.modify (fun n => { n with parent_ := some b }) q) := by
  intro i _ cell hc
  by_cases hq : q = i
  · subst hq
    refine ⟨({ cell with parent_ := some b } : BayesTreeNode C), ?_, rfl, rfl,
      Or.inr ⟨List.mem_singleton.2 rfl, b, hb, rfl⟩⟩
    rw [List.getElem?_modify_eq, hc]; rfl
  · exact ⟨cell, by rw [List.getElem?_modify_ne _ _ hq]; exact hc, rfl, rfl, Or.inl rfl⟩

/-- The adoption loop of the post-order visitor keeps the cliques below `h0`
up to the parent pointers of the adopted ones, and keeps the size of the
store. -/
theorem adoption_loop_preserved (T : FactorTraits F C) (h0 b : Nat) (hb : h0 ≤ b) :
    ∀ (fs : List F) (heap : List (BayesTreeNode C)),
      preservedBelow h0 (fs.filterMap T.asSubtree) heap
        (fs.foldl
          (fun cliques f =>
            match T.asSubtree f with
            | some clique =>
              (cliques.modify (fun n => { n with children := n.children ++ [clique] })
                b).modify (fun n => { n with parent_ := some b }) clique
            | none => cliques)
          heap) ∧
      (fs.foldl
          (fun cliques f =>
            match T.asSubtree f with
            | some clique =>
              (cliques.modify (fun n => { n with children := n.children ++ [clique] })
                b).modify (fun n => { n with parent_ := some b }) clique
            | none => cliques)
          heap).length = heap.length := by
  intro fs
  induction fs with
  | nil => intro heap; exact ⟨preservedBelow_refl _ _ _, rfl⟩
  | cons f fs ih =>
    intro heap
    simp only [List.foldl_cons]
    cases hf : T.asSubtree f with
    | none =>
      simp only [List.filterMap_cons, hf]
      exact ih heap
    | some q =>
      simp only [List.filterMap_cons, hf]
      obtain ⟨h1, h2⟩ := ih ((heap.modify (fun n => { n with children := n.children ++ [q] })
        b).modify (fun n => { n with parent_ := some b }) q)
      refine ⟨?_, by rw [h2]; simp⟩
      have hstep := preservedBelow_trans h0 [] [q] _ _ _
        (preservedBelow_modify_ge h0 b hb
          (fun n => { n with children := n.children ++ [q] }) heap)
        (preservedBelow_modify_parent h0 q b hb _)
      have := preservedBelow_trans h0 _ _ _ _ _ hstep h1
      simpa using this

/-- The post-order visitor keeps the cliques below `h0`, up to the parent
pointers of the orphans of the node, whether the elimination function
succeeds or fails. -/
theorem postOrderVisitor_preserved (T : FactorTraits F C)
    (function : List (Option F) → List Key → Except E (C × F))
    (node : Node F) (myData pd : EliminationData F) (st : EliminationState F C)
    (h0 : Nat) (hb : h0 ≤ myData.bayesTreeNode) :
    preservedBelow h0 (node.orphans T) st.cliques
      (EliminationPostOrderVisitor T function node myData pd st).2.cliques ∧
    (EliminationPostOrderVisitor T function node myData pd st).2.cliques.length =
      st.cliques.length := by
  obtain ⟨h1, h2⟩ := adoption_loop_preserved T h0 myData.bayesTreeNode hb node.factors st.cliques
  unfold EliminationPostOrderVisitor
  simp only [List.nil_append]
  cases hf : function (node.factors.map some ++ myData.childFactors) node.keys with
  | error e => exact ⟨h1, h2⟩
  | ok r =>
    simp only []
    refine ⟨?_, by rw [List.length_modify, h2]⟩
    have := preservedBelow_trans h0 _ [] _ _ _ h1
      (preservedBelow_modify_ge h0 myData.bayesTreeNode hb
        (fun n => { n with conditional_ := some r.1 }) _)
    simpa [Node.orphans] using this

theorem preOrderVisitor_preserved (node : Node F) (d : EliminationData F)
    (st : EliminationState F C) (h0 : Nat) (hd : h0 ≤ d.bayesTreeNode)
    (hst : h0 ≤ st.cliques.length) :
    preservedBelow h0 [] st.cliques (eliminationPreOrderVisitor node d st).2.2.cliques ∧
    (eliminationPreOrderVisitor node d st).2.2.cliques.length = st.cliques.length + 1 := by
  have e : (eliminationPreOrderVisitor node d st).2.2.cliques =
      (if d.parentData = true then
          (st.cliques ++
            [({ conditional_ := none, parent_ := none, children := [] } :
              BayesTreeNode C)]).modify
            (fun n => { n with parent_ := some d.bayesTreeNode }) st.cliques.length
        else st.cliques ++
          [({ conditional_ := none, parent_ := none, children := [] } :
            BayesTreeNode C)]).modify
        (fun n => { n with children := n.children ++ [st.cliques.length] })
        d.bayesTreeNode := rfl
  rw [e]
  constructor
  · have h1 := preservedBelow_append h0 st.cliques
      [({ conditional_ := none, parent_ := none, children := [] } : BayesTreeNode C)]
    by_cases hp : d.parentData = true
    · simp only [if_pos hp]
      have h2 := preservedBelow_trans h0 [] [] _ _ _ h1
        (preservedBelow_modify_ge h0 st.cliques.length hst
          (fun n => { n with parent_ := some d.bayesTreeNode }) _)
      have h3 := preservedBelow_trans h0 _ [] _ _ _ h2
        (preservedBelow_modify_ge h0 d.bayesTreeNode hd
          (fun n => { n with children := n.children ++ [st.cliques.length] }) _)
      simpa using h3
    · simp only [if_neg hp]
      have h3 := preservedBelow_trans h0 [] [] _ _ _ h1
        (preservedBelow_modify_ge h0 d.bayesTreeNode hd
          (fun n => { n with children := n.children ++ [st.cliques.length] }) _)
      simpa using h3
  · by_cases hp : d.parentData = true <;> simp [hp]

/-- The traversal of a list of siblings keeps the cliques of the store below
`h0`, given that the traversal of each sibling does. -/
theorem eliminateForest_preserved_of (T : FactorTraits F C)
    (function : List (Option F) → List Key → Except E (C × F)) (h0 : Nat) :
    ∀ (ns : List (Node F)),
      (∀ n ∈ ns, ∀ (d : EliminationData F) (st : EliminationState F C),
        h0 ≤ d.bayesTreeNode → h0 ≤ st.cliques.length →
        preservedBelow h0 (n.cliques.flatMap (Node.orphans T)) st.cliques
          (eliminateNode T function n d st).2.cliques ∧
        st.cliques.length ≤ (eliminateNode T function n d st).2.cliques.length) →
      ∀ (d : EliminationData F) (st : EliminationState F C),
        h0 ≤ d.bayesTreeNode → h0 ≤ st.cliques.length →
        preservedBelow h0 ((Node.cliquesList ns).flatMap (Node.orphans T)) st.cliques
          (eliminateForest T function ns d st).2.cliques ∧
        st.cliques.length ≤ (eliminateForest T function ns d st).2.cliques.length := by
  intro ns
  induction ns with
  | nil =>
    intro _ d st _ _
    exact ⟨preservedBelow_refl _ _ _, Nat.le_refl _⟩
  | cons n ns ih =>
    intro h d st hd hst
    obtain ⟨hp, hlen⟩ := h n (List.mem_cons_self _ _) d st hd hst
    have hspec := (eliminateNode_spec T function n d st).2
    have ihns := ih (fun m hm => h m (List.mem_cons_of_mem _ hm))
    rcases hn : eliminateNode T function n d st with ⟨r, st1⟩
    rw [hn] at hp hlen hspec
    cases r with
    | error e =>
      simp only [eliminateForest, hn]
      refine ⟨preservedBelow_mono h0 _ _ ?_ _ _ hp, hlen⟩
      intro i hi
      simp only [Node.cliquesList, List.flatMap_append]
      exact List.mem_append_left _ hi
    | ok d0 =>
      have hd0 : d0.bayesTreeNode = d.bayesTreeNode := by rw [(hspec d0 rfl).2]
      obtain ⟨hp1, hlen1⟩ := ihns d0 st1 (by rw [hd0]; exact hd) (Nat.le_trans hst hlen)
      simp only [eliminateForest, hn]
      refine ⟨?_, Nat.le_trans hlen hlen1⟩
      have := preservedBelow_trans h0 _ _ _ _ _ hp hp1
      simpa [Node.cliquesList, List.flatMap_append] using this

/-- The traversal of one subtree keeps the cliques of the store below `h0`,
up to the parent pointers of the orphans its cliques refer to, whether it
succeeds or fails. -/
theorem eliminateNode_preserved (T : FactorTraits F C)
    (function : List (Option F) → List Key → Except E (C × F)) (h0 : Nat) (n : Node F) :
    ∀ (d : EliminationData F) (st : EliminationState F C),
      h0 ≤ d.bayesTreeNode → h0 ≤ st.cliques.length →
      preservedBelow h0 (n.cliques.flatMap (Node.orphans T)) st.cliques
        (eliminateNode T function n d st).2.cliques ∧
      st.cliques.length ≤ (eliminateNode T function n d st).2.cliques.length := by
  induction n using node_induct with
  | h ks fs cs p ih =>
    intro d st hd hst
    obtain ⟨hpre, hprelen⟩ := preOrderVisitor_preserved (.mk ks fs cs p) d st h0 hd hst
    have hb : h0 ≤ (eliminationPreOrderVisitor (C := C) (.mk ks fs cs p) d st).1.bayesTreeNode := by
      rw [preOrderVisitor_fst]; exact hst
    obtain ⟨hf1, hflen⟩ := eliminateForest_preserved_of T function h0 cs ih
      (eliminationPreOrderVisitor (.mk ks fs cs p) d st).1
      (eliminationPreOrderVisitor (.mk ks fs cs p) d st).2.2 hb (by rw [hprelen]; omega)
    have hspec := (eliminateForest_spec T function cs
      (eliminationPreOrderVisitor (.mk ks fs cs p) d st).1
      (eliminationPreOrderVisitor (.mk ks fs cs p) d st).2.2).2
    rcases hf : eliminateForest T function cs
        (eliminationPreOrderVisitor (.mk ks fs cs p) d st).1
        (eliminationPreOrderVisitor (.mk ks fs cs p) d st).2.2 with ⟨r, st2⟩
    rw [hf] at hf1 hflen hspec
    have hsub : ∀ i ∈ (Node.cliquesList cs).flatMap (Node.orphans T),
        i ∈ (Node.mk ks fs cs p).cliques.flatMap (Node.orphans T) := by
      intro i hi
      simp only [Node.cliques, List.flatMap_cons]
      exact List.mem_append_right _ hi
    cases r with
    | error e =>
      simp only [eliminateNode, hf]
      refine ⟨?_, by simp only [] at hflen; omega⟩
      have := preservedBelow_trans h0 _ _ _ _ _ hpre hf1
      exact preservedBelow_mono h0 _ _ (by simpa using hsub) _ _ this
    | ok myData =>
      have hmy : myData.bayesTreeNode = st.cliques.length := by
        rw [(hspec myData rfl).2, preOrderVisitor_fst]
      obtain ⟨hpost, hpostlen⟩ := postOrderVisitor_preserved T function (.mk ks fs cs p)
        myData (eliminationPreOrderVisitor (.mk ks fs cs p) d st).2.1 st2 h0
        (by rw [hmy]; exact hst)
      simp only [eliminateNode, hf]
      refine ⟨?_, by rw [hpostlen]; simp only [] at hflen; omega⟩
      have h1 := preservedBelow_trans h0 _ _ _ _ _ hpre hf1
      have h2 := preservedBelow_trans h0 _ _ _ _ _ h1 hpost
      refine preservedBelow_mono h0 _ _ ?_ _ _ h2
      intro i hi
      simp only [List.nil_append, List.mem_append] at hi
      rcases hi with hi | hi
      · exact hsub i hi
      · simp only [Node.cliques, List.flatMap_cons]
        exact List.mem_append_left _ hi

/-- The traversal that `eliminate` starts, successful or not, keeps the
cliques that were in the store before it, up to the parent pointers of the
orphans that the factors of the forest refer to, and only adds cliques. -/
theorem eliminate_traversal_preserved (T : FactorTraits F C) (this : JunctionTree F)
    (function : List (Option F) → List Key → Except E (C × F))
    (cliques : List (BayesTreeNode C)) :
    preservedBelow cliques.length (this.cliques.flatMap (Node.orphans T)) cliques
      (eliminateForest T function this.roots_
        { parentData := false, myIndexInParent := 0, childFactors := [],
          bayesTreeNode := cliques.length }
        { cliques := cliques ++ [{ conditional_ := none, parent_ := none, children := [] }],
          nodesIndex := [], calls := [] }).2.cliques ∧
    cliques.length ≤
      (eliminateForest T function this.roots_
        { parentData := false, myIndexInParent := 0, childFactors := [],
          bayesTreeNode := cliques.length }
        { cliques := cliques ++ [{ conditional_ := none, parent_ := none, children := [] }],
          nodesIndex := [], calls := [] }).2.cliques.length := by
  obtain ⟨hp, hlen⟩ := eliminateForest_preserved_of T function cliques.length this.roots_
    (fun n _ => eliminateNode_preserved T function cliques.length n)
    { parentData := false, myIndexInParent := 0, childFactors := [],
      bayesTreeNode := cliques.length }
    { cliques := cliques ++ [{ conditional_ := none, parent_ := none, children := [] }],
      nodesIndex := [], calls := [] } (Nat.le_refl _) (by simp)
  have h0 := preservedBelow_append cliques.length cliques
    [({ conditional_ := none, parent_ := none, children := [] } : BayesTreeNode C)]
  have h := preservedBelow_trans _ _ _ _ _ _ h0 hp
  refine ⟨by simpa [JunctionTree.cliques] using h, ?_⟩
  simp only [List.length_append, List.length_singleton] at hlen
  omega

/-- A pass of `eliminate` that returns keeps the cliques that were in the store
before it, up to the parent pointers of the orphans that the factors of the
forest refer to. -/
theorem eliminate_preserved (T : FactorTraits F C) (this : JunctionTree F)
    (function : List (Option F) → List Key → Except E (C × F))
    (cliques : List (BayesTreeNode C)) (out : BayesTree × List F)
    (hok : (JunctionTree.eliminate T this function cliques).1 = .ok out) :
    preservedBelow cliques.length (this.cliques.flatMap (Node.orphans T)) cliques
      (JunctionTree.eliminate T this function cliques).2.cliques := by
  have h := (eliminate_traversal_preserved T this function cliques).1
  rw [eliminate_unfold] at hok ⊢
  rcases hf : eliminateForest T function this.roots_
      { parentData := false, myIndexInParent := 0, childFactors := [],
        bayesTreeNode := cliques.length }
      { cliques := cliques ++ [{ conditional_ := none, parent_ := none, children := [] }],
        nodesIndex := [], calls := [] }
    with ⟨r, st⟩
  rw [hf] at h hok
  cases r with
  | error e => simp at hok
  | ok d1 => exact h

theorem modify_append_lt {α : Type} (f : α → α) :
    ∀ (l1 l2 : List α) (i : Nat), i < l1.length →
      (l1 ++ l2).modify f i = l1.modify f i ++ l2 := by
  intro l1
  induction l1 with
  | nil => intro l2 i h; simp at h
  | cons a l1 ih =>
    intro l2 i h
    cases i with
    | zero => simp
    | succ i => simp [ih l2 i (by simpa using h)]

theorem modify_append_ge {α : Type} (f : α → α) :
    ∀ (l1 l2 : List α) (i : Nat), l1.length ≤ i →
      (l1 ++ l2).modify f i = l1 ++ l2.modify f (i - l1.length) := by
  intro l1
  induction l1 with
  | nil => intro l2 i _; simp
  | cons a l1 ih =>
    intro l2 i h
    cases i with
    | zero => simp at h
    | succ i => simp [ih l2 i (by simpa using h)]

theorem modify_append_cons_length {α : Type} (f : α → α) (X : List α) (c : α) (Y : List α) :
    (X ++ c :: Y).modify f X.length = X ++ f c :: Y := by
  rw [modify_append_ge f X (c :: Y) X.length (Nat.le_refl _), Nat.sub_self,
    List.modify_zero_cons]

theorem modify_append_cons_length_of {α : Type} (f : α → α) (X : List α) (c : α)
    (Y : List α) (k : Nat) (hk : k = X.length) :
    (X ++ [c]).modify f k ++ Y = X ++ f c :: Y := by
  subst hk
  have := modify_append_cons_length f X c []
  rw [this]; simp

theorem modify_at_length {α : Type} (f : α → α) (X : List α) (c : α) (Y : List α)
    (k : Nat) (hk : k = X.length) :
    (X ++ c :: Y).modify f k = X ++ f c :: Y := by
  subst hk
  exact modify_append_cons_length f X c Y

theorem modify_children_append_nil (l : List (BayesTreeNode C)) (k : Nat) :
    l.modify (fun n => { n with children := n.children ++ [] }) k = l := by
  apply List.ext_getElem?
  intro m
  rw [List.getElem?_modify]
  cases l[m]? with
  | none => rfl
  | some c => by_cases h : k = m <;> simp [h]

theorem modify_eta (l : List (BayesTreeNode C)) (k : Nat) :
    l.modify
      (fun n =>
        { conditional_ := n.conditional_
          parent_ := n.parent_
          children := n.children }) k = l := by
  apply List.ext_getElem?
  intro m
  rw [List.getElem?_modify]
  cases l[m]? with
  | none => rfl
  | some c => by_cases h : k = m <;> simp [h]

theorem adopt_length (store : List (BayesTreeNode C)) (as : List (Nat × Nat)) :
    (adopt store as).length = store.length := by
  induction as generalizing store with
  | nil => rfl
  | cons a as ih =>
    simp only [adopt, List.foldl_cons] at ih ⊢
    rw [ih]; simp

theorem adopt_append (store : List (BayesTreeNode C)) (as bs : List (Nat × Nat)) :
    adopt store (as ++ bs) = adopt (adopt store as) bs := by
  simp [adopt, List.foldl_append]

theorem placement_eq (Q : Node F) (b : Nat) (pp : Option Nat) :
    placement Q b pp = (b, pp, Q) :: placementList Q.children (b + 1) (some b) := by
  cases Q with
  | mk ks fs cs p => simp [placement]

theorem placementList_length :
    ∀ (cs : List (Node F)),
      (∀ c ∈ cs, ∀ b pp, (placement c b pp).length = c.cliques.length) →
      ∀ b pp, (placementList cs b pp).length = (Node.cliquesList cs).length := by
  intro cs
  induction cs with
  | nil => intro _ b pp; simp [placementList, Node.cliquesList]
  | cons c cs ih =>
    intro h b pp
    simp only [placementList, Node.cliquesList, List.length_append]
    rw [h c (List.mem_cons_self _ _), ih (fun x hx => h x (List.mem_cons_of_mem _ hx))]

theorem placement_length (Q : Node F) :
    ∀ b pp, (placement Q b pp).length = Q.cliques.length := by
  induction Q using node_induct with
  | h ks fs cs p ih =>
    intro b pp
    simp only [placement, Node.cliques, List.length_cons]
    rw [placementList_length cs ih]

/-- The adoption loop of the post-order visitor on a store made of the
pre-built cliques `A` and the cliques `B` of this pass: the orphans, all in
`A`, get their parent pointer, and the visited clique, at position `k` of `B`,
gets them as further children. -/
theorem adoption_loop_layout (T : FactorTraits F C) :
    ∀ (fs : List F) (A B : List (BayesTreeNode C)) (k : Nat),
      (∀ q ∈ fs.filterMap T.asSubtree, q < A.length) →
      fs.foldl
          (fun cliques f =>
            match T.asSubtree f with
            | some clique =>
              (cliques.modify (fun n => { n with children := n.children ++ [clique] })
                (A.length + k)).modify (fun n => { n with parent_ := some (A.length + k) })
                  clique
            | none => cliques)
          (A ++ B) =
        adopt A ((fs.filterMap T.asSubtree).map (fun q => (q, A.length + k))) ++
          B.modify (fun n => { n with children := n.children ++ fs.filterMap T.asSubtree }) k := by
  intro fs
  induction fs with
  | nil =>
    intro A B k _
    simp only [List.foldl_nil, List.filterMap_nil, List.map_nil, adopt]
    rw [modify_children_append_nil]
  | cons f fs ih =>
    intro A B k hq
    simp only [List.foldl_cons]
    cases hf : T.asSubtree f with
    | none =>
      simp only [List.filterMap_cons, hf] at hq ⊢
      exact ih A B k hq
    | some q =>
      simp only [List.filterMap_cons, hf] at hq ⊢
      have hqA : q < A.length := hq q (List.mem_cons_self _ _)
      rw [modify_append_ge _ A B (A.length + k) (Nat.le_add_right _ _),
        Nat.add_sub_cancel_left, modify_append_lt _ A _ q hqA]
      have hlen : (A.modify (fun n => { n with parent_ := some (A.length + k) }) q).length =
          A.length := by simp
      have := ih (A.modify (fun n => { n with parent_ := some (A.length + k) }) q)
        (B.modify (fun n => { n with children := n.children ++ [q] }) k) k
        (by intro q1 hq1; rw [hlen]; exact hq q1 (List.mem_cons_of_mem _ hq1))
      rw [hlen] at this
      rw [this, List.modify_modify_eq]
      simp [adopt, Function.comp_def, List.append_assoc]

/-- The store after the pre-order visitor: the parent's clique has gained the
new clique as a child, and the new clique is appended with its parent
pointer. -/
theorem preOrderVisitor_layout (node : Node F) (d : EliminationData F)
    (st : EliminationState F C) (init new : List (BayesTreeNode C)) (pi : Nat)
    (hst : st.cliques = init ++ new) (hd : d.bayesTreeNode = init.length + pi)
    (hpi : pi < new.length) :
    (eliminationPreOrderVisitor node d st).2.2.cliques =
      init ++ (new.modify
          (fun n => { n with children := n.children ++ [init.length + new.length] }) pi ++
        [{ conditional_ := none,
           parent_ := if d.parentData = true then some d.bayesTreeNode else none,
           children := [] }]) := by
  have e : (eliminationPreOrderVisitor node d st).2.2.cliques =
      (if d.parentData = true then
          (st.cliques ++
            [({ conditional_ := none, parent_ := none, children := [] } :
              BayesTreeNode C)]).modify
            (fun n => { n with parent_ := some d.bayesTreeNode }) st.cliques.length
        else st.cliques ++
          [({ conditional_ := none, parent_ := none, children := [] } :
            BayesTreeNode C)]).modify
        (fun n => { n with children := n.children ++ [st.cliques.length] })
        d.bayesTreeNode := rfl
  have hlen : st.cliques.length = init.length + new.length := by rw [hst]; simp
  rw [e, hlen, hd]
  have hstep : ∀ cell : BayesTreeNode C,
      (st.cliques ++ [cell]).modify
        (fun n => { n with children := n.children ++ [init.length + new.length] })
        (init.length + pi) =
      init ++ (new.modify
        (fun n => { n with children := n.children ++ [init.length + new.length] }) pi ++
        [cell]) := by
    intro cell
    rw [hst, List.append_assoc, modify_append_ge _ init _ _ (Nat.le_add_right _ _),
      Nat.add_sub_cancel_left, modify_append_lt _ new _ pi hpi]
  by_cases hp : d.parentData = true
  · simp only [if_pos hp]
    have h1 : (st.cliques ++
        [({ conditional_ := none, parent_ := none, children := [] } : BayesTreeNode C)]).modify
        (fun n => { n with parent_ := some (init.length + pi) }) (init.length + new.length) =
        st.cliques ++
          [({ conditional_ := none, parent_ := some (init.length + pi), children := [] } :
            BayesTreeNode C)] := by
      rw [← hlen, modify_append_cons_length]
    rw [h1, hstep]
  · simp only [if_neg hp]
    rw [hstep]

theorem adoptionsList_eq_nil_or (T : FactorTraits F C) (c : Node F) (cs : List (Node F))
    (b : Nat) :
    adoptionsList T (c :: cs) b =
      adoptions T c b ++ adoptionsList T cs (b + c.cliques.length) := by
  simp [adoptionsList]

/-- The store after the successful traversal of a list of siblings, given the
store after the successful traversal of each: the pre-built cliques with the
adoptions made, then the cliques of this pass, where the parent's clique has
gained the siblings' output cliques as children, then the output cliques of
the siblings' subtrees in the order of their placement. -/
theorem eliminateForest_layout_of (T : FactorTraits F C)
    (function : List (Option F) → List Key → Except E (C × F)) :
    ∀ (ns : List (Node F)),
      (∀ n ∈ ns, ∀ (d : EliminationData F) (st : EliminationState F C)
          (init new : List (BayesTreeNode C)) (pi : Nat),
        st.cliques = init ++ new → d.bayesTreeNode = init.length + pi → pi < new.length →
        (∀ a ∈ adoptions T n (init.length + new.length), a.1 < init.length) →
        ∀ d1, (eliminateNode T function n d st).1 = .ok d1 →
          (eliminateNode T function n d st).2.cliques =
            adopt init (adoptions T n (init.length + new.length)) ++
              (new.modify
                  (fun c => { c with children := c.children ++ [init.length + new.length] })
                  pi ++
                (placement n (init.length + new.length)
                  (if d.parentData = true then some d.bayesTreeNode else none)).map
                    (outputClique T function))) →
      ∀ (d : EliminationData F) (st : EliminationState F C)
          (init new : List (BayesTreeNode C)) (pi : Nat),
        st.cliques = init ++ new → d.bayesTreeNode = init.length + pi → pi < new.length →
        (∀ a ∈ adoptionsList T ns (init.length + new.length), a.1 < init.length) →
        ∀ d1, (eliminateForest T function ns d st).1 = .ok d1 →
          (eliminateForest T function ns d st).2.cliques =
            adopt init (adoptionsList T ns (init.length + new.length)) ++
              (new.modify
                  (fun c => { c with children :=
                    c.children ++ childIds ns (init.length + new.length) })
                  pi ++
                (placementList ns (init.length + new.length)
                  (if d.parentData = true then some d.bayesTreeNode else none)).map
                    (outputClique T function)) := by
  intro ns
  induction ns with
  | nil =>
    intro _ d st init new pi hst _ _ _ d1 _
    simp only [eliminateForest, adoptionsList, childIds, placementList, List.map_nil,
      List.append_nil, adopt, List.foldl_nil]
    rw [modify_eta, hst]
  | cons n ns ih =>
    intro h d st init new pi hst hd hpi hrange d1 hok
    have hn1 := h n (List.mem_cons_self _ _) d st init new pi hst hd hpi
      (fun a ha => hrange a (by
        rw [adoptionsList_eq_nil_or]; exact List.mem_append_left _ ha))
    have hspec := (eliminateNode_spec T function n d st).2
    have ihns := ih (fun m hm => h m (List.mem_cons_of_mem _ hm))
    rcases hn : eliminateNode T function n d st with ⟨r, st1⟩
    rw [hn] at hn1 hspec
    cases r with
    | error e => simp [eliminateForest, hn] at hok
    | ok d0 =>
      have hst1 := hn1 d0 rfl
      simp only at hst1
      have hd0 : d0 = { d with childFactors :=
          d.childFactors ++ [residualSlot T function n] } := (hspec d0 rfl).2
      have hd0b : d0.bayesTreeNode = init.length + pi := by rw [hd0]; exact hd
      have hd0p : d0.parentData = d.parentData := by rw [hd0]
      simp only [eliminateForest, hn] at hok ⊢
      have hlenA : (adopt init (adoptions T n (init.length + new.length))).length =
          init.length := adopt_length _ _
      have hlenB : (new.modify
          (fun c => { c with children := c.children ++ [init.length + new.length] }) pi ++
          (placement n (init.length + new.length)
            (if d.parentData = true then some d.bayesTreeNode else none)).map
              (outputClique T function)).length = new.length + n.cliques.length := by
        simp [placement_length]
      have hrec := ihns d0 st1
        (adopt init (adoptions T n (init.length + new.length)))
        (new.modify
          (fun c => { c with children := c.children ++ [init.length + new.length] }) pi ++
          (placement n (init.length + new.length)
            (if d.parentData = true then some d.bayesTreeNode else none)).map
              (outputClique T function))
        pi hst1 (by rw [hlenA]; exact hd0b) (by rw [hlenB]; omega)
        (by
          intro a ha
          rw [hlenA]
          rw [hlenA, hlenB, ← Nat.add_assoc] at ha
          exact hrange a (by
            rw [adoptionsList_eq_nil_or]; exact List.mem_append_right _ ha))
        d1 hok
      rw [hrec, hlenA, hlenB, ← Nat.add_assoc, hd0p, hd0b, ← hd, ← adopt_append]
      simp only [adoptionsList, childIds, placementList, List.map_append]
      rw [modify_append_lt _ _ _ pi (by simp; exact hpi), List.modify_modify_eq]
      simp [Function.comp_def, List.append_assoc]

theorem conditionalOfClique_of_ok (T : FactorTraits F C)
    (function : List (Option F) → List Key → Except E (C × F))
    (ks : List Key) (fs : List F) (cs : List (Node F)) (p : Int) (r : C × F)
    (hr : function (fs.map some ++ residualSlots T function cs) ks = .ok r) :
    conditionalOfClique T function (.mk ks fs cs p) = some r.1 := by
  simp only [conditionalOfClique, node_factors_mk, node_children_mk, node_keys_mk,
    ← residualSlots_eq_map, hr]

/-- The store after the successful traversal of one subtree: the pre-built
cliques with the adoptions made in the subtree, then the cliques of this
pass, where the parent's clique has gained the subtree's root as a child,
then the output cliques of the subtree in the order of their placement. -/
theorem eliminateNode_layout (T : FactorTraits F C)
    (function : List (Option F) → List Key → Except E (C × F)) (n : Node F) :
    ∀ (d : EliminationData F) (st : EliminationState F C)
        (init new : List (BayesTreeNode C)) (pi : Nat),
      st.cliques = init ++ new → d.bayesTreeNode = init.length + pi → pi < new.length →
      (∀ a ∈ adoptions T n (init.length + new.length), a.1 < init.length) →
      ∀ d1, (eliminateNode T function n d st).1 = .ok d1 →
        (eliminateNode T function n d st).2.cliques =
          adopt init (adoptions T n (init.length + new.length)) ++
            (new.modify
                (fun c => { c with children := c.children ++ [init.length + new.length] })
                pi ++
              (placement n (init.length + new.length)
                (if d.parentData = true then some d.bayesTreeNode else none)).map
                  (outputClique T function)) := by
  induction n using node_induct with
  | h ks fs cs p ih =>
    intro d st init new pi hst hd hpi hrange d1 hok
    have hpre := preOrderVisitor_layout (.mk ks fs cs p) d st init new pi hst hd hpi
    have hlen : st.cliques.length = init.length + new.length := by rw [hst]; simp
    have hnew1 : (new.modify
        (fun n => { n with children := n.children ++ [init.length + new.length] }) pi ++
        [({ conditional_ := none,
            parent_ := if d.parentData = true then some d.bayesTreeNode else none,
            children := [] } : BayesTreeNode C)]).length = new.length + 1 := by simp
    have hforest := eliminateForest_layout_of T function cs ih
      (eliminationPreOrderVisitor (.mk ks fs cs p) d st).1
      (eliminationPreOrderVisitor (.mk ks fs cs p) d st).2.2 init _ new.length hpre
      (by rw [preOrderVisitor_fst]; exact hlen) (by rw [hnew1]; omega)
      (by
        intro a ha
        rw [hnew1, ← Nat.add_assoc] at ha
        exact hrange a (by simp only [adoptions]; exact List.mem_append_left _ ha))
    have hspec := (eliminateForest_spec T function cs
      (eliminationPreOrderVisitor (.mk ks fs cs p) d st).1
      (eliminationPreOrderVisitor (.mk ks fs cs p) d st).2.2).2
    rcases hf : eliminateForest T function cs
        (eliminationPreOrderVisitor (.mk ks fs cs p) d st).1
        (eliminationPreOrderVisitor (.mk ks fs cs p) d st).2.2 with ⟨r, st2⟩
    rw [hf] at hforest hspec
    cases r with
    | error e => simp [eliminateNode, hf] at hok
    | ok myData =>
      have hst2 := hforest myData rfl
      have hmy : myData = { (eliminationPreOrderVisitor (C := C) (.mk ks fs cs p) d st).1 with
          childFactors := residualSlots T function cs } := by
        rw [(hspec myData rfl).2]; simp [preOrderVisitor_fst]
      have hmyb : myData.bayesTreeNode = init.length + new.length := by
        rw [hmy, preOrderVisitor_fst]; exact hlen
      have hmyc : myData.childFactors = residualSlots T function cs := by rw [hmy]
      simp only [hnew1, ← Nat.add_assoc, preOrderVisitor_fst, if_true] at hst2
      rw [modify_append_cons_length_of] at hst2
      · simp only [eliminateNode, hf] at hok ⊢
        unfold EliminationPostOrderVisitor at hok ⊢
        simp only [List.nil_append, node_factors_mk, node_keys_mk, hmyc] at hok ⊢
        cases hfun : function (fs.map some ++ residualSlots T function cs) ks with
        | error e => rw [hfun] at hok; simp at hok
        | ok r =>
          simp only []
          rw [hmyb, hst2]
          have hA : (adopt init (adoptionsList T cs (init.length + new.length + 1))).length =
              init.length := adopt_length _ _
          have hloop := adoption_loop_layout T fs
            (adopt init (adoptionsList T cs (init.length + new.length + 1)))
            (new.modify
                (fun n => { n with children := n.children ++ [init.length + new.length] })
                pi ++
              ({ conditional_ := none,
                 parent_ := if d.parentData = true then some d.bayesTreeNode else none,
                 children := [] ++ childIds cs (init.length + new.length + 1) } :
                BayesTreeNode C) ::
              (placementList cs (init.length + new.length + 1)
                (some st.cliques.length)).map (outputClique T function))
            new.length
            (by
              intro q hq
              rw [hA]
              exact hrange (q, init.length + new.length) (by
                simp only [adoptions]
                exact List.mem_append_right _ (List.mem_map.2 ⟨q, hq, rfl⟩)))
          rw [hA] at hloop
          rw [hloop]
          have hX : (new.modify
              (fun n => { n with children := n.children ++ [init.length + new.length] })
              pi).length = new.length := by simp
          rw [modify_at_length _ _ _ _ new.length hX.symm,
            modify_append_ge _ _ _ (init.length + new.length)
              (by rw [adopt_length, adopt_length]; omega),
            adopt_length, adopt_length,
            Nat.add_sub_cancel_left, modify_at_length _ _ _ _ new.length hX.symm]
          simp only [adoptions, adopt_append, placement, List.map_cons, outputClique,
            conditionalOfClique_of_ok T function ks fs cs p r hfun, node_children_mk,
            Node.orphans, node_factors_mk, List.nil_append, hlen]
      · simp

/-- The store and the roots when `eliminate` returns: the pre-built cliques
with the adoptions of the forest, the dummy root whose children are the
output cliques of the roots, then the output cliques in the order of their
placement; the returned roots are the children of the dummy root. -/
theorem eliminate_layout (T : FactorTraits F C) (this : JunctionTree F)
    (function : List (Option F) → List Key → Except E (C × F))
    (cliques : List (BayesTreeNode C))
    (hrange : ∀ a ∈ adoptionsList T this.roots_ (cliques.length + 1), a.1 < cliques.length) :
    ∀ out, (JunctionTree.eliminate T this function cliques).1 = .ok out →
      (JunctionTree.eliminate T this function cliques).2.cliques =
        adopt cliques (adoptionsList T this.roots_ (cliques.length + 1)) ++
          ({ conditional_ := none, parent_ := none,
             children := childIds this.roots_ (cliques.length + 1) } ::
            (placementList this.roots_ (cliques.length + 1) none).map
              (outputClique T function)) ∧
      out.1.roots_ = childIds this.roots_ (cliques.length + 1) ∧
      out.1.nodes_ = (JunctionTree.eliminate T this function cliques).2.nodesIndex := by
  intro out hout
  rw [eliminate_unfold] at hout ⊢
  have hspec := (eliminateForest_spec T function this.roots_
      { parentData := false, myIndexInParent := 0, childFactors := [],
        bayesTreeNode := cliques.length }
      { cliques := cliques ++ [{ conditional_ := none, parent_ := none, children := [] }],
        nodesIndex := [], calls := [] }).2
  have hlay := eliminateForest_layout_of T function this.roots_
      (fun n _ => eliminateNode_layout T function n)
      { parentData := false, myIndexInParent := 0, childFactors := [],
        bayesTreeNode := cliques.length }
      { cliques := cliques ++ [{ conditional_ := none, parent_ := none, children := [] }],
        nodesIndex := [], calls := [] }
      cliques [{ conditional_ := none, parent_ := none, children := [] }] 0 rfl rfl
      (by simp) (by simpa using hrange)
  rcases hf : eliminateForest T function this.roots_
      { parentData := false, myIndexInParent := 0, childFactors := [],
        bayesTreeNode := cliques.length }
      { cliques := cliques ++ [{ conditional_ := none, parent_ := none, children := [] }],
        nodesIndex := [], calls := [] }
    with ⟨r, st⟩
  rw [hf] at hspec hout hlay
  cases r with
  | error e => simp at hout
  | ok d1 =>
    obtain ⟨_, hd1⟩ := hspec d1 rfl
    have hst := hlay d1 rfl
    simp only [List.length_singleton, List.modify_zero_cons, List.modify_nil,
      List.nil_append, List.singleton_append, Bool.false_eq_true, if_false] at hst
    simp only [Except.ok.injEq] at hout
    have hb : d1.bayesTreeNode = cliques.length := by rw [hd1]
    refine ⟨hst, ?_, ?_⟩
    · rw [← hout]
      simp only [hb]
      rw [hst, List.getElem?_append_right (by rw [adopt_length]), adopt_length, Nat.sub_self]
      simp
    · rw [← hout]
theorem preOrderVisitor_length (node : Node F) (d : EliminationData F)
    (st : EliminationState F C) :
    (eliminationPreOrderVisitor node d st).2.2.cliques.length = st.cliques.length + 1 ∧
    (eliminationPreOrderVisitor node d st).2.2.nodesIndex = st.nodesIndex := by
  have e : (eliminationPreOrderVisitor node d st).2.2.cliques =
      (if d.parentData = true then
          (st.cliques ++
            [({ conditional_ := none, parent_ := none, children := [] } :
              BayesTreeNode C)]).modify
            (fun n => { n with parent_ := some d.bayesTreeNode }) st.cliques.length
        else st.cliques ++
          [({ conditional_ := none, parent_ := none, children := [] } :
            BayesTreeNode C)]).modify
        (fun n => { n with children := n.children ++ [st.cliques.length] })
        d.bayesTreeNode := rfl
  refine ⟨?_, rfl⟩
  rw [e]
  by_cases hp : d.parentData = true
  · simp [if_pos hp]
  · simp [if_neg hp]

theorem adoption_loop_length (T : FactorTraits F C) (k : Nat) :
    ∀ (fs : List F) (store : List (BayesTreeNode C)),
      (fs.foldl
          (fun cliques f =>
            match T.asSubtree f with
            | some clique =>
              (cliques.modify (fun n => { n with children := n.children ++ [clique] })
                k).modify (fun n => { n with parent_ := some k }) clique
            | none => cliques)
          store).length = store.length := by
  intro fs
  induction fs with
  | nil => intro store; rfl
  | cons f fs ih =>
    intro store
    simp only [List.foldl_cons]
    rw [ih]
    cases T.asSubtree f with
    | none => rfl
    | some q => simp

theorem registerAll_append (index e1 e2 : List (Key × Nat)) :
    registerAll index (e1 ++ e2) = registerAll (registerAll index e1) e2 := by
  simp [registerAll, List.foldl_append]

theorem registerAll_nil (index : List (Key × Nat)) : registerAll index [] = index := rfl

/-- The post-order visitor, when the elimination function returns, keeps the
number of cliques in the store and registers the frontal variables of the
returned conditional for the visited clique. -/
theorem postOrderVisitor_index (T : FactorTraits F C)
    (function : List (Option F) → List Key → Except E (C × F)) (node : Node F)
    (myData parentData : EliminationData F) (st : EliminationState F C) (r : C × F)
    (hr : function (node.factors.map some ++ myData.childFactors) node.keys = .ok r) :
    (EliminationPostOrderVisitor T function node myData parentData st).2.cliques.length =
      st.cliques.length ∧
    (EliminationPostOrderVisitor T function node myData parentData st).2.nodesIndex =
      registerAll st.nodesIndex
        ((T.frontals r.1).map (fun j => (j, myData.bayesTreeNode))) := by
  unfold EliminationPostOrderVisitor
  simp only [List.nil_append, hr]
  constructor
  · simp [adoption_loop_length]
  · simp [registerAll, List.foldl_map]

/-- The number of cliques in the store and the index after the successful
traversal of a list of sibling subtrees, from the same facts for each. -/
theorem eliminateForest_index_of (T : FactorTraits F C)
    (function : List (Option F) → List Key → Except E (C × F)) :
    ∀ (ns : List (Node F)),
      (∀ n ∈ ns, ∀ (d : EliminationData F) (st : EliminationState F C),
        ∀ d1, (eliminateNode T function n d st).1 = .ok d1 →
          (eliminateNode T function n d st).2.cliques.length =
            st.cliques.length + n.cliques.length ∧
          (eliminateNode T function n d st).2.nodesIndex =
            registerAll st.nodesIndex
              ((postPlacement n st.cliques.length).flatMap (indexEntries T function))) →
      ∀ (d : EliminationData F) (st : EliminationState F C),
        ∀ d1, (eliminateForest T function ns d st).1 = .ok d1 →
          (eliminateForest T function ns d st).2.cliques.length =
            st.cliques.length + (Node.cliquesList ns).length ∧
          (eliminateForest T function ns d st).2.nodesIndex =
            registerAll st.nodesIndex
              ((postPlacementList ns st.cliques.length).flatMap
                (indexEntries T function)) := by
  intro ns
  induction ns with
  | nil =>
    intro _ d st d1 _
    simp [eliminateForest, Node.cliquesList, postPlacementList, registerAll_nil]
  | cons n ns ih =>
    intro h d st d1 hok
    have hn1 := h n (List.mem_cons_self _ _) d st
    have ihns := ih (fun m hm => h m (List.mem_cons_of_mem _ hm))
    rcases hn : eliminateNode T function n d st with ⟨r, st1⟩
    rw [hn] at hn1
    cases r with
    | error e => simp [eliminateForest, hn] at hok
    | ok d0 =>
      obtain ⟨hl, hi⟩ := hn1 d0 rfl
      simp only at hl hi
      simp only [eliminateForest, hn] at hok ⊢
      obtain ⟨hl2, hi2⟩ := ihns d0 st1 d1 hok
      rw [hl2, hi2, hl, hi]
      simp only [Node.cliquesList, postPlacementList, List.length_append, List.flatMap_append,
        registerAll_append]
      exact ⟨by omega, trivial⟩

theorem eliminateNode_index (T : FactorTraits F C)
    (function : List (Option F) → List Key → Except E (C × F)) (n : Node F) :
    ∀ (d : EliminationData F) (st : EliminationState F C),
      ∀ d1, (eliminateNode T function n d st).1 = .ok d1 →
        (eliminateNode T function n d st).2.cliques.length =
          st.cliques.length + n.cliques.length ∧
        (eliminateNode T function n d st).2.nodesIndex =
          registerAll st.nodesIndex
            ((postPlacement n st.cliques.length).flatMap (indexEntries T function)) := by
  induction n using node_induct with
  | h ks fs cs p ih =>
    intro d st d1 hok
    obtain ⟨hpl, hpi⟩ := preOrderVisitor_length (C := C) (.mk ks fs cs p) d st
    have hforest := eliminateForest_index_of T function cs ih
      (eliminationPreOrderVisitor (.mk ks fs cs p) d st).1
      (eliminationPreOrderVisitor (.mk ks fs cs p) d st).2.2
    have hspec := (eliminateForest_spec T function cs
      (eliminationPreOrderVisitor (.mk ks fs cs p) d st).1
      (eliminationPreOrderVisitor (.mk ks fs cs p) d st).2.2).2
    rcases hf : eliminateForest T function cs
        (eliminationPreOrderVisitor (.mk ks fs cs p) d st).1
        (eliminationPreOrderVisitor (.mk ks fs cs p) d st).2.2 with ⟨r, st2⟩
    rw [hf] at hforest hspec
    cases r with
    | error e => simp [eliminateNode, hf] at hok
    | ok myData =>
      obtain ⟨hl2, hi2⟩ := hforest myData rfl
      simp only at hl2 hi2
      have hmy : myData = { (eliminationPreOrderVisitor (C := C) (.mk ks fs cs p) d st).1 with
          childFactors := residualSlots T function cs } := by
        rw [(hspec myData rfl).2]; simp [preOrderVisitor_fst]
      have hmyb : myData.bayesTreeNode = st.cliques.length := by
        rw [hmy, preOrderVisitor_fst]
      have hmyc : myData.childFactors = residualSlots T function cs := by rw [hmy]
      simp only [eliminateNode, hf] at hok ⊢
      cases hfun : function (fs.map some ++ residualSlots T function cs) ks with
      | error e =>
        unfold EliminationPostOrderVisitor at hok
        simp only [List.nil_append, node_factors_mk, node_keys_mk, hmyc, hfun] at hok
        simp at hok
      | ok r =>
        obtain ⟨hl3, hi3⟩ := postOrderVisitor_index T function (.mk ks fs cs p) myData
          (eliminationPreOrderVisitor (.mk ks fs cs p) d st).2.1 st2 r
          (by simp only [node_factors_mk, node_keys_mk, hmyc]; exact hfun)
        rw [hl3, hi3, hl2, hi2, hpl, hpi, hmyb]
        simp only [Node.cliques, postPlacement, List.length_cons, List.flatMap_append,
          registerAll_append, List.flatMap_cons, List.flatMap_nil, List.append_nil,
          indexEntries, conditionalOfClique_of_ok T function ks fs cs p r hfun]
        exact ⟨by omega, trivial⟩

/-- The index returned by `eliminate`: the entries of the forest's cliques are
registered in post-order, without overwriting, starting from an empty index. -/
theorem eliminate_index (T : FactorTraits F C) (this : JunctionTree F)
    (function : List (Option F) → List Key → Except E (C × F))
    (cliques : List (BayesTreeNode C)) :
    ∀ out, (JunctionTree.eliminate T this function cliques).1 = .ok out →
      out.1.nodes_ = registerAll []
        ((postPlacementList this.roots_ (cliques.length + 1)).flatMap
          (indexEntries T function)) := by
  intro out hout
  rw [eliminate_unfold] at hout
  have hidx := eliminateForest_index_of T function this.roots_
      (fun n _ => eliminateNode_index T function n)
      { parentData := false, myIndexInParent := 0, childFactors := [],
        bayesTreeNode := cliques.length }
      { cliques := cliques ++ [{ conditional_ := none, parent_ := none, children := [] }],
        nodesIndex := [], calls := [] }
  rcases hf : eliminateForest T function this.roots_
      { parentData := false, myIndexInParent := 0, childFactors := [],
        bayesTreeNode := cliques.length }
      { cliques := cliques ++ [{ conditional_ := none, parent_ := none, children := [] }],
        nodesIndex := [], calls := [] }
    with ⟨r, st⟩
  rw [hf] at hout hidx
  cases r with
  | error e => simp at hout
  | ok d1 =>
    have h := (hidx d1 rfl).2
    simp only [Except.ok.injEq] at hout
    rw [← hout]
    simpa using h

theorem placementList_cons (c : Node F) (cs : List (Node F)) (b : Nat) (pp : Option Nat) :
    placementList (c :: cs) b pp =
      placement c b pp ++ placementList cs (b + c.cliques.length) pp := by
  simp [placementList]

theorem placementList_map_clique_of :
    ∀ (cs : List (Node F)),
      (∀ c ∈ cs, ∀ b pp, (placement c b pp).map (fun x => x.2.2) = c.cliques) →
      ∀ b pp, (placementList cs b pp).map (fun x => x.2.2) = Node.cliquesList cs := by
  intro cs
  induction cs with
  | nil => intro _ b pp; simp [placementList, Node.cliquesList]
  | cons c cs ih =>
    intro h b pp
    simp only [placementList, Node.cliquesList, List.map_append]
    rw [h c (List.mem_cons_self _ _), ih (fun x hx => h x (List.mem_cons_of_mem _ hx))]

theorem placement_map_clique (Q : Node F) :
    ∀ b pp, (placement Q b pp).map (fun x => x.2.2) = Q.cliques := by
  induction Q using node_induct with
  | h ks fs cs p ih =>
    intro b pp
    simp only [placement, Node.cliques, List.map_cons]
    rw [placementList_map_clique_of cs ih]

/-- The placed cliques are the cliques of the forest, each once, in pre-order. -/
theorem placementList_map_clique (cs : List (Node F)) (b : Nat) (pp : Option Nat) :
    (placementList cs b pp).map (fun x => x.2.2) = Node.cliquesList cs :=
  placementList_map_clique_of cs (fun c _ => placement_map_clique c) b pp

theorem cliquesList_length_eq (cs : List (Node F)) (b : Nat) (pp : Option Nat) :
    (placementList cs b pp).length = (Node.cliquesList cs).length :=
  placementList_length cs (fun c _ => placement_length c) b pp

theorem placementList_map_pos_of :
    ∀ (cs : List (Node F)),
      (∀ c ∈ cs, ∀ b pp,
        (placement c b pp).map (fun x => x.1) = List.range' b c.cliques.length) →
      ∀ b pp, (placementList cs b pp).map (fun x => x.1) =
        List.range' b (Node.cliquesList cs).length := by
  intro cs
  induction cs with
  | nil => intro _ b pp; simp [placementList, Node.cliquesList]
  | cons c cs ih =>
    intro h b pp
    simp only [placementList, Node.cliquesList, List.map_append, List.length_append]
    rw [h c (List.mem_cons_self _ _), ih (fun x hx => h x (List.mem_cons_of_mem _ hx)),
      List.range'_append_1, Nat.add_comm]

theorem placement_map_pos (Q : Node F) :
    ∀ b pp, (placement Q b pp).map (fun x => x.1) = List.range' b Q.cliques.length := by
  induction Q using node_induct with
  | h ks fs cs p ih =>
    intro b pp
    simp only [placement, Node.cliques, List.map_cons, List.length_cons]
    rw [placementList_map_pos_of cs ih, List.range'_succ]

/-- The output cliques take consecutive positions of the store, in the order
of their placement. -/
theorem placementList_map_pos (cs : List (Node F)) (b : Nat) (pp : Option Nat) :
    (placementList cs b pp).map (fun x => x.1) =
      List.range' b (Node.cliquesList cs).length :=
  placementList_map_pos_of cs (fun c _ => placement_map_pos c) b pp

/-- The roots of a placed list of subtrees: the positions `childIds` hold them,
with the parent pointer given to the list. -/
theorem placementList_roots_mem :
    ∀ (cs : List (Node F)) (b : Nat) (pp : Option Nat),
      ∀ e ∈ (childIds cs b).zip cs, (e.1, pp, e.2) ∈ placementList cs b pp := by
  intro cs
  induction cs with
  | nil => intro b pp e he; simp [childIds] at he
  | cons c cs ih =>
    intro b pp e he
    simp only [childIds, List.zip_cons_cons, List.mem_cons] at he
    rw [placementList_cons, List.mem_append]
    rcases he with he | he
    · left
      rw [he, placement_eq]
      exact List.mem_cons_self _ _
    · right
      exact ih _ pp e he

theorem placementList_children_mem_of :
    ∀ (cs : List (Node F)),
      (∀ c ∈ cs, ∀ b pp, ∀ x ∈ placement c b pp,
        ∀ e ∈ (childIds x.2.2.children (x.1 + 1)).zip x.2.2.children,
          (e.1, some x.1, e.2) ∈ placement c b pp) →
      ∀ b pp, ∀ x ∈ placementList cs b pp,
        ∀ e ∈ (childIds x.2.2.children (x.1 + 1)).zip x.2.2.children,
          (e.1, some x.1, e.2) ∈ placementList cs b pp := by
  intro cs
  induction cs with
  | nil => intro _ b pp x hx; simp [placementList] at hx
  | cons c cs ih =>
    intro h b pp x hx e he
    rw [placementList_cons, List.mem_append] at hx ⊢
    rcases hx with hx | hx
    · exact Or.inl (h c (List.mem_cons_self _ _) b pp x hx e he)
    · exact Or.inr (ih (fun m hm => h m (List.mem_cons_of_mem _ hm)) _ pp x hx e he)

theorem placement_children_mem (Q : Node F) :
    ∀ b pp, ∀ x ∈ placement Q b pp,
      ∀ e ∈ (childIds x.2.2.children (x.1 + 1)).zip x.2.2.children,
        (e.1, some x.1, e.2) ∈ placement Q b pp := by
  induction Q using node_induct with
  | h ks fs cs p ih =>
    intro b pp x hx e he
    simp only [placement, List.mem_cons] at hx ⊢
    right
    rcases hx with hx | hx
    · subst hx
      exact placementList_roots_mem cs (b + 1) (some b) e he
    · exact placementList_children_mem_of cs ih (b + 1) (some b) x hx e he

/-- The children of a placed clique: the positions listed as the children of
its output clique hold the output cliques of its children, whose parent
pointer is the position of the clique's output clique. -/
theorem placementList_children_mem (cs : List (Node F)) (b : Nat) (pp : Option Nat) :
    ∀ x ∈ placementList cs b pp,
      ∀ e ∈ (childIds x.2.2.children (x.1 + 1)).zip x.2.2.children,
        (e.1, some x.1, e.2) ∈ placementList cs b pp :=
  placementList_children_mem_of cs (fun c _ => placement_children_mem c) b pp

theorem placementList_cases_of :
    ∀ (cs : List (Node F)),
      (∀ c ∈ cs, ∀ b pp, ∀ x ∈ placement c b pp,
        x = (b, pp, c) ∨ ∃ y ∈ placement c b pp, x.2.1 = some y.1 ∧
          (x.1, x.2.2) ∈ (childIds y.2.2.children (y.1 + 1)).zip y.2.2.children) →
      ∀ b pp, ∀ x ∈ placementList cs b pp,
        (x.2.1 = pp ∧ (x.1, x.2.2) ∈ (childIds cs b).zip cs) ∨
        ∃ y ∈ placementList cs b pp, x.2.1 = some y.1 ∧
          (x.1, x.2.2) ∈ (childIds y.2.2.children (y.1 + 1)).zip y.2.2.children := by
  intro cs
  induction cs with
  | nil => intro _ b pp x hx; simp [placementList] at hx
  | cons c cs ih =>
    intro h b pp x hx
    rw [placementList_cons, List.mem_append] at hx
    rcases hx with hx | hx
    · rcases h c (List.mem_cons_self _ _) b pp x hx with hx1 | ⟨y, hy, hxy⟩
      · left
        rw [hx1]
        exact ⟨rfl, by simp [childIds]⟩
      · right
        exact ⟨y, by rw [placementList_cons]; exact List.mem_append_left _ hy, hxy⟩
    · rcases ih (fun m hm => h m (List.mem_cons_of_mem _ hm)) _ pp x hx with
        ⟨hx1, hx2⟩ | ⟨y, hy, hxy⟩
      · left
        exact ⟨hx1, by simp only [childIds, List.zip_cons_cons]; exact List.mem_cons_of_mem _ hx2⟩
      · right
        exact ⟨y, by rw [placementList_cons]; exact List.mem_append_right _ hy, hxy⟩

theorem placement_cases (Q : Node F) :
    ∀ b pp, ∀ x ∈ placement Q b pp,
      x = (b, pp, Q) ∨ ∃ y ∈ placement Q b pp, x.2.1 = some y.1 ∧
        (x.1, x.2.2) ∈ (childIds y.2.2.children (y.1 + 1)).zip y.2.2.children := by
  induction Q using node_induct with
  | h ks fs cs p ih =>
    intro b pp x hx
    simp only [placement, List.mem_cons] at hx
    rcases hx with hx | hx
    · exact Or.inl hx
    · right
      rcases placementList_cases_of cs ih (b + 1) (some b) x hx with ⟨hx1, hx2⟩ | ⟨y, hy, hxy⟩
      · exact ⟨(b, pp, .mk ks fs cs p), by simp [placement], hx1, hx2⟩
      · exact ⟨y, by simp only [placement]; exact List.mem_cons_of_mem _ hy, hxy⟩

/-- Every placed clique is a root of the list, with the parent pointer given to
the list, or a child of a placed clique, with that clique's position as its
parent pointer. -/
theorem placementList_cases (cs : List (Node F)) (b : Nat) (pp : Option Nat) :
    ∀ x ∈ placementList cs b pp,
      (x.2.1 = pp ∧ (x.1, x.2.2) ∈ (childIds cs b).zip cs) ∨
      ∃ y ∈ placementList cs b pp, x.2.1 = some y.1 ∧
        (x.1, x.2.2) ∈ (childIds y.2.2.children (y.1 + 1)).zip y.2.2.children :=
  placementList_cases_of cs (fun c _ => placement_cases c) b pp

theorem postPlacementList_cons (c : Node F) (cs : List (Node F)) (b : Nat) :
    postPlacementList (c :: cs) b =
      postPlacement c b ++ postPlacementList cs (b + c.cliques.length) := by
  simp [postPlacementList]

theorem postPlacementList_perm_of :
    ∀ (cs : List (Node F)),
      (∀ c ∈ cs, ∀ b pp,
        List.Perm (postPlacement c b) ((placement c b pp).map (fun x => (x.1, x.2.2)))) →
      ∀ b pp, List.Perm (postPlacementList cs b)
        ((placementList cs b pp).map (fun x => (x.1, x.2.2))) := by
  intro cs
  induction cs with
  | nil => intro _ b pp; simp [placementList, postPlacementList]
  | cons c cs ih =>
    intro h b pp
    rw [placementList_cons, postPlacementList_cons, List.map_append]
    exact List.Perm.append (h c (List.mem_cons_self _ _) b pp)
      (ih (fun m hm => h m (List.mem_cons_of_mem _ hm)) _ pp)

theorem postPlacement_perm (Q : Node F) :
    ∀ b pp, List.Perm (postPlacement Q b) ((placement Q b pp).map (fun x => (x.1, x.2.2))) := by
  induction Q using node_induct with
  | h ks fs cs p ih =>
    intro b pp
    simp only [placement, postPlacement, List.map_cons]
    refine List.Perm.trans List.perm_append_comm ?_
    exact List.Perm.cons _ (postPlacementList_perm_of cs ih (b + 1) (some b))

/-- The cliques in elimination order are the placed cliques, in another order. -/
theorem postPlacementList_perm (cs : List (Node F)) (b : Nat) (pp : Option Nat) :
    List.Perm (postPlacementList cs b) ((placementList cs b pp).map (fun x => (x.1, x.2.2))) :=
  postPlacementList_perm_of cs (fun c _ => postPlacement_perm c) b pp

theorem adoptionsList_eq_flatMap_of (T : FactorTraits F C) :
    ∀ (cs : List (Node F)),
      (∀ c ∈ cs, ∀ b, adoptions T c b =
        (postPlacement c b).flatMap (fun x => (x.2.orphans T).map (fun q => (q, x.1)))) →
      ∀ b, adoptionsList T cs b =
        (postPlacementList cs b).flatMap
          (fun x => (x.2.orphans T).map (fun q => (q, x.1))) := by
  intro cs
  induction cs with
  | nil => intro _ b; simp [adoptionsList, postPlacementList]
  | cons c cs ih =>
    intro h b
    rw [adoptionsList_eq_nil_or, postPlacementList_cons, List.flatMap_append,
      h c (List.mem_cons_self _ _), ih (fun m hm => h m (List.mem_cons_of_mem _ hm))]

theorem adoptions_eq_flatMap (T : FactorTraits F C) (Q : Node F) :
    ∀ b, adoptions T Q b =
      (postPlacement Q b).flatMap (fun x => (x.2.orphans T).map (fun q => (q, x.1))) := by
  induction Q using node_induct with
  | h ks fs cs p ih =>
    intro b
    simp only [adoptions, postPlacement, List.flatMap_append, List.flatMap_cons,
      List.flatMap_nil, List.append_nil, Node.orphans, node_factors_mk]
    rw [adoptionsList_eq_flatMap_of T cs ih]
    rfl

/-- The adoptions of a forest are those asked by the orphan wrappers of its
cliques, clique by clique in elimination order. -/
theorem adoptionsList_eq_flatMap (T : FactorTraits F C) (cs : List (Node F)) (b : Nat) :
    adoptionsList T cs b =
      (postPlacementList cs b).flatMap (fun x => (x.2.orphans T).map (fun q => (q, x.1))) :=
  adoptionsList_eq_flatMap_of T cs (fun c _ => adoptions_eq_flatMap T c) b

theorem mem_adoptionsList (T : FactorTraits F C) (cs : List (Node F)) (b : Nat)
    (pp : Option Nat) (a : Nat × Nat) :
    a ∈ adoptionsList T cs b ↔
      ∃ x ∈ placementList cs b pp, a.2 = x.1 ∧ a.1 ∈ x.2.2.orphans T := by
  rw [adoptionsList_eq_flatMap, List.mem_flatMap]
  constructor
  · rintro ⟨y, hy, hay⟩
    have hy1 := (postPlacementList_perm cs b pp).mem_iff.1 hy
    obtain ⟨x, hx, hxy⟩ := List.mem_map.1 hy1
    obtain ⟨q, hq, hqa⟩ := List.mem_map.1 hay
    refine ⟨x, hx, ?_, ?_⟩
    · rw [← hqa, ← hxy]
    · rw [← hqa, ← hxy] at *; exact hq
  · rintro ⟨x, hx, h2, h1⟩
    refine ⟨(x.1, x.2.2), (postPlacementList_perm cs b pp).mem_iff.2
      (List.mem_map.2 ⟨x, hx, rfl⟩), List.mem_map.2 ⟨a.1, h1, ?_⟩⟩
    rw [← h2]

theorem placementList_clique_mem (cs : List (Node F)) (b : Nat) (pp : Option Nat) :
    ∀ x ∈ placementList cs b pp, x.2.2 ∈ Node.cliquesList cs := by
  intro x hx
  rw [← placementList_map_clique cs b pp]
  exact List.mem_map.2 ⟨x, hx, rfl⟩

theorem adoptionsList_range (T : FactorTraits F C) (cs : List (Node F)) (b h0 : Nat)
    (hrange : ∀ Q ∈ Node.cliquesList cs, ∀ q ∈ Q.orphans T, q < h0) :
    ∀ a ∈ adoptionsList T cs b, a.1 < h0 := by
  intro a ha
  obtain ⟨x, hx, _, h1⟩ := (mem_adoptionsList T cs b none a).1 ha
  exact hrange x.2.2 (placementList_clique_mem cs b none x hx) a.1 h1

theorem adoptionsList_eq_nil (T : FactorTraits F C) (cs : List (Node F)) (b : Nat)
    (hno : ∀ Q ∈ Node.cliquesList cs, ∀ f ∈ Q.factors, T.asSubtree f = none) :
    adoptionsList T cs b = [] := by
  rw [List.eq_nil_iff_forall_not_mem]
  intro a ha
  obtain ⟨x, hx, _, h1⟩ := (mem_adoptionsList T cs b none a).1 ha
  simp only [Node.orphans, List.mem_filterMap] at h1
  obtain ⟨f, hf, hfa⟩ := h1
  rw [hno x.2.2 (placementList_clique_mem cs b none x hx) f hf] at hfa
  cases hfa

theorem orphans_eq_nil (T : FactorTraits F C) (Q : Node F)
    (hno : ∀ f ∈ Q.factors, T.asSubtree f = none) : Q.orphans T = [] := by
  rw [List.eq_nil_iff_forall_not_mem]
  intro q hq
  simp only [Node.orphans, List.mem_filterMap] at hq
  obtain ⟨f, hf, hfa⟩ := hq
  rw [hno f hf] at hfa
  cases hfa

/-- Positions in a list of placed cliques that takes consecutive positions
from `b`. -/
theorem placementList_getElem?_pos (cs : List (Node F)) (b : Nat) (pp : Option Nat)
    (k : Nat) (x : Nat × Option Nat × Node F)
    (hk : (placementList cs b pp)[k]? = some x) : x.1 = b + k := by
  have h1 : ((placementList cs b pp).map (fun x => x.1))[k]? = some x.1 := by
    rw [List.getElem?_map, hk]; rfl
  rw [placementList_map_pos] at h1
  have hlt : k < (Node.cliquesList cs).length := by
    have := (List.getElem?_eq_some_iff.1 hk).1
    rw [cliquesList_length_eq] at this
    exact this
  rw [List.getElem?_range' _ _ hlt] at h1
  simp only [Option.some.injEq] at h1
  omega

theorem placementList_mem_getElem? (cs : List (Node F)) (b : Nat) (pp : Option Nat)
    (x : Nat × Option Nat × Node F) (hx : x ∈ placementList cs b pp) :
    b ≤ x.1 ∧ (placementList cs b pp)[x.1 - b]? = some x := by
  obtain ⟨k, hk⟩ := List.mem_iff_getElem?.1 hx
  have := placementList_getElem?_pos cs b pp k x hk
  refine ⟨by omega, ?_⟩
  rw [this, Nat.add_sub_cancel_left]
  exact hk

theorem placementList_pos_inj (cs : List (Node F)) (b : Nat) (pp : Option Nat)
    (x y : Nat × Option Nat × Node F) (hx : x ∈ placementList cs b pp)
    (hy : y ∈ placementList cs b pp) (hxy : x.1 = y.1) : x = y := by
  have h1 := (placementList_mem_getElem? cs b pp x hx).2
  have h2 := (placementList_mem_getElem? cs b pp y hy).2
  rw [hxy, h2] at h1
  exact (Option.some.inj h1).symm

/-- Reading a store made of pre-built cliques, the dummy root and the output
cliques of a placement, at the position of a placed clique. -/
theorem store_getElem?_placed (T : FactorTraits F C)
    (function : List (Option F) → List Key → Except E (C × F))
    (A : List (BayesTreeNode C)) (dummy : BayesTreeNode C) (cs : List (Node F))
    (pp : Option Nat) (x : Nat × Option Nat × Node F)
    (hx : x ∈ placementList cs (A.length + 1) pp) :
    A.length < x.1 ∧
    (A ++ dummy :: (placementList cs (A.length + 1) pp).map (outputClique T function))[x.1]? =
      some (outputClique T function x) := by
  obtain ⟨h1, h2⟩ := placementList_mem_getElem? cs (A.length + 1) pp x hx
  refine ⟨by omega, ?_⟩
  rw [List.getElem?_append_right (by omega)]
  have : x.1 - A.length = (x.1 - (A.length + 1)) + 1 := by omega
  rw [this, List.getElem?_cons_succ, List.getElem?_map, h2]
  rfl

theorem store_getElem?_above (T : FactorTraits F C)
    (function : List (Option F) → List Key → Except E (C × F))
    (A : List (BayesTreeNode C)) (dummy : BayesTreeNode C) (cs : List (Node F))
    (pp : Option Nat) (B : Nat) (cell : BayesTreeNode C) (hB : A.length < B)
    (hcell : (A ++ dummy ::
      (placementList cs (A.length + 1) pp).map (outputClique T function))[B]? = some cell) :
    ∃ x ∈ placementList cs (A.length + 1) pp, x.1 = B ∧ cell = outputClique T function x := by
  rw [List.getElem?_append_right (by omega)] at hcell
  have : B - A.length = (B - (A.length + 1)) + 1 := by omega
  rw [this, List.getElem?_cons_succ, List.getElem?_map] at hcell
  cases hk : (placementList cs (A.length + 1) pp)[B - (A.length + 1)]? with
  | none => rw [hk] at hcell; cases hcell
  | some x =>
    rw [hk] at hcell
    have hpos := placementList_getElem?_pos cs (A.length + 1) pp _ x hk
    exact ⟨x, List.mem_iff_getElem?.2 ⟨_, hk⟩, by omega, (Option.some.inj hcell).symm⟩

theorem adopt_cons (store : List (BayesTreeNode C)) (a : Nat × Nat) (as : List (Nat × Nat)) :
    adopt store (a :: as) =
      adopt (store.modify (fun n => { n with parent_ := some a.2 }) a.1) as := rfl

/-- A clique that no adoption refers to is left as it is. -/
theorem adopt_getElem?_of_not_mem (i : Nat) :
    ∀ (as : List (Nat × Nat)) (store : List (BayesTreeNode C)),
      (∀ a ∈ as, a.1 ≠ i) → (adopt store as)[i]? = store[i]? := by
  intro as
  induction as with
  | nil => intro store _; rfl
  | cons a as ih =>
    intro store h
    rw [adopt_cons, ih _ (fun x hx => h x (List.mem_cons_of_mem _ hx)),
      List.getElem?_modify_ne _ _ (h a (List.mem_cons_self _ _))]

/-- A clique that all adoptions referring to it give the same parent has that
parent afterwards, and is otherwise as before. -/
theorem adopt_getElem?_of_same (i v : Nat) :
    ∀ (as : List (Nat × Nat)) (store : List (BayesTreeNode C)) (cell : BayesTreeNode C),
      store[i]? = some cell → (∀ a ∈ as, a.1 = i → a.2 = v) →
      (adopt store as)[i]? =
        some { cell with
          parent_ := if as.any (fun a => a.1 == i) then some v else cell.parent_ } := by
  intro as
  induction as with
  | nil => intro store cell h _; simpa using h
  | cons a as ih =>
    intro store cell h hv
    rw [adopt_cons]
    by_cases hai : a.1 = i
    · have h1 : (store.modify (fun n => { n with parent_ := some a.2 }) a.1)[i]? =
          some ({ cell with parent_ := some v } : BayesTreeNode C) := by
        rw [hai, List.getElem?_modify_eq, h, hv a (List.mem_cons_self _ _) hai]
        rfl
      rw [ih _ _ h1 (fun x hx => hv x (List.mem_cons_of_mem _ hx))]
      simp [hai]
    · have h1 : (store.modify (fun n => { n with parent_ := some a.2 }) a.1)[i]? =
          some cell := by
        rw [List.getElem?_modify_ne _ _ hai, h]
      rw [ih _ _ h1 (fun x hx => hv x (List.mem_cons_of_mem _ hx))]
      have hb : (a.1 == i) = false := by simpa using hai
      simp only [List.any_cons, hb, Bool.false_or]

theorem registerAll_cons (index : List (Key × Nat)) (e : Key × Nat)
    (es : List (Key × Nat)) :
    registerAll index (e :: es) =
      registerAll (if index.any (fun entry => entry.1 == e.1) then index else index ++ [e])
        es := rfl

theorem any_key_iff (index : List (Key × Nat)) (j : Key) :
    index.any (fun entry => entry.1 == j) = true ↔ j ∈ index.map Prod.fst := by
  simp only [List.any_eq_true, beq_iff_eq, List.mem_map]

/-- Registration keeps the entries already present, all of them first. -/
theorem registerAll_prefix :
    ∀ (es index : List (Key × Nat)), ∃ added, registerAll index es = index ++ added ∧
      ∀ e ∈ added, e ∈ es := by
  intro es
  induction es with
  | nil => intro index; exact ⟨[], by simp [registerAll_nil], by simp⟩
  | cons e es ih =>
    intro index
    rw [registerAll_cons]
    by_cases hany : index.any (fun entry => entry.1 == e.1) = true
    · rw [if_pos hany]
      obtain ⟨added, h1, h2⟩ := ih index
      exact ⟨added, h1, fun x hx => List.mem_cons_of_mem _ (h2 x hx)⟩
    · rw [if_neg hany]
      obtain ⟨added, h1, h2⟩ := ih (index ++ [e])
      refine ⟨e :: added, by rw [h1]; simp, ?_⟩
      intro x hx
      rcases List.mem_cons.1 hx with hx | hx
      · rw [hx]; exact List.mem_cons_self _ _
      · exact List.mem_cons_of_mem _ (h2 x hx)

/-- Registration never gives a variable two entries. -/
theorem registerAll_nodup :
    ∀ (es index : List (Key × Nat)), (index.map Prod.fst).Nodup →
      ((registerAll index es).map Prod.fst).Nodup := by
  intro es
  induction es with
  | nil => intro index h; exact h
  | cons e es ih =>
    intro index h
    rw [registerAll_cons]
    by_cases hany : index.any (fun entry => entry.1 == e.1) = true
    · rw [if_pos hany]; exact ih index h
    · rw [if_neg hany]
      apply ih
      rw [List.map_append, List.nodup_append]
      refine ⟨h, by simp, ?_⟩
      intro a ha hb
      simp only [List.map_cons, List.map_nil, List.mem_singleton] at hb
      rw [hb] at ha
      exact hany ((any_key_iff index e.1).2 ha)

/-- Every variable asked to be registered has an entry afterwards. -/
theorem registerAll_key_mem :
    ∀ (es index : List (Key × Nat)), ∀ e ∈ es,
      e.1 ∈ (registerAll index es).map Prod.fst := by
  intro es
  induction es with
  | nil => intro index e he; cases he
  | cons e0 es ih =>
    intro index e he
    rw [registerAll_cons]
    rcases List.mem_cons.1 he with he | he
    · obtain ⟨added, h1, _⟩ := registerAll_prefix es
        (if index.any (fun entry => entry.1 == e0.1) then index else index ++ [e0])
      rw [h1, List.map_append, List.mem_append]
      left
      rw [he]
      by_cases hany : index.any (fun entry => entry.1 == e0.1) = true
      · rw [if_pos hany]; exact (any_key_iff index e0.1).1 hany
      · rw [if_neg hany]; simp
    · exact ih _ e he

/-- When the entries asked for give each variable one clique only, the index
built from the empty index holds exactly the entries asked for. -/
theorem registerAll_mem_iff (es : List (Key × Nat))
    (hfun : ∀ e ∈ es, ∀ e1 ∈ es, e.1 = e1.1 → e.2 = e1.2) (e : Key × Nat) :
    e ∈ registerAll [] es ↔ e ∈ es := by
  obtain ⟨added, h1, h2⟩ := registerAll_prefix es []
  constructor
  · intro he
    rw [h1] at he
    exact h2 e (by simpa using he)
  · intro he
    obtain ⟨e1, he1, h⟩ := List.mem_map.1 (registerAll_key_mem es [] e he)
    have he1s : e1 ∈ es := by
      rw [h1] at he1
      exact h2 e1 (by simpa using he1)
    have hval := hfun e1 he1s e he h
    have : e1 = e := Prod.ext h hval
    rw [← this]
    exact he1

/-- In a list whose images under `g` are pairwise disjoint, a variable lies in
the image of one element only. -/
theorem pairwise_disjoint_unique {α : Type} (g : α → List Key) :
    ∀ (l : List α), (l.map g).Pairwise (fun a b => ∀ j ∈ a, j ∉ b) →
      ∀ x ∈ l, ∀ y ∈ l, ∀ j, j ∈ g x → j ∈ g y → x = y := by
  intro l
  induction l with
  | nil => intro _ x hx; cases hx
  | cons a l ih =>
    intro h x hx y hy j hjx hjy
    rw [List.map_cons, List.pairwise_cons] at h
    rcases List.mem_cons.1 hx with hx | hx
    · rcases List.mem_cons.1 hy with hy | hy
      · rw [hx, hy]
      · exfalso
        rw [hx] at hjx
        exact h.1 (g y) (List.mem_map.2 ⟨y, hy, rfl⟩) j hjx hjy
    · rcases List.mem_cons.1 hy with hy | hy
      · exfalso
        rw [hy] at hjy
        exact h.1 (g x) (List.mem_map.2 ⟨x, hx, rfl⟩) j hjy hjx
      · exact ih h.2 x hx y hy j hjx hjy

theorem mem_indexEntries (T : FactorTraits F C)
    (function : List (Option F) → List Key → Except E (C × F)) (x : Nat × Node F)
    (e : Key × Nat) :
    e ∈ indexEntries T function x ↔ e.2 = x.1 ∧ e.1 ∈ frontalsOf T function x.2 := by
  unfold indexEntries frontalsOf
  cases conditionalOfClique T function x.2 with
  | none => simp
  | some c =>
    simp only [List.mem_map]
    constructor
    · rintro ⟨j, hj, rfl⟩; exact ⟨rfl, hj⟩
    · rintro ⟨h1, h2⟩; exact ⟨e.1, h2, by rw [← h1]⟩

/-- The entries asked for in a pass, in terms of the placed cliques. -/
theorem mem_entries (T : FactorTraits F C)
    (function : List (Option F) → List Key → Except E (C × F)) (cs : List (Node F))
    (b : Nat) (pp : Option Nat) (e : Key × Nat) :
    e ∈ (postPlacementList cs b).flatMap (indexEntries T function) ↔
      ∃ x ∈ placementList cs b pp, x.1 = e.2 ∧ e.1 ∈ frontalsOf T function x.2.2 := by
  rw [List.mem_flatMap]
  constructor
  · rintro ⟨y, hy, hey⟩
    obtain ⟨x, hx, hxy⟩ := List.mem_map.1 ((postPlacementList_perm cs b pp).mem_iff.1 hy)
    rw [mem_indexEntries] at hey
    rw [← hxy] at hey
    exact ⟨x, hx, hey.1.symm, hey.2⟩
  · rintro ⟨x, hx, h1, h2⟩
    refine ⟨(x.1, x.2.2), (postPlacementList_perm cs b pp).mem_iff.2
      (List.mem_map.2 ⟨x, hx, rfl⟩), ?_⟩
    rw [mem_indexEntries]
    exact ⟨h1.symm, h2⟩

/-- When `eliminate` returns, the elimination function has returned for every
clique of the forest. -/
theorem eliminate_ok_function (T : FactorTraits F C) (this : JunctionTree F)
    (function : List (Option F) → List Key → Except E (C × F))
    (cliques : List (BayesTreeNode C)) :
    ∀ out, (JunctionTree.eliminate T this function cliques).1 = .ok out →
      ∀ Q ∈ this.cliques, ∃ r,
        function (Q.factors.map some ++ Q.children.map (residualSlot T function)) Q.keys =
          .ok r := by
  intro out hout Q hQ
  have hcalls := (eliminate_calls T this function cliques).2 out hout
  rw [invocationsList_eq_postOrderList] at hcalls
  have hall := (eliminate_outcome T this function cliques).1 out hout
  have hQ1 : Q ∈ Node.postOrderList this.roots_ :=
    (postOrderList_perm_cliques this.roots_).mem_iff.2 hQ
  exact hall _ (by rw [hcalls]; exact List.mem_map.2 ⟨Q, hQ1, rfl⟩)

theorem conditionalOfClique_eq (T : FactorTraits F C)
    (function : List (Option F) → List Key → Except E (C × F)) (Q : Node F) (r : C × F)
    (hr : function (Q.factors.map some ++ Q.children.map (residualSlot T function)) Q.keys =
      .ok r) :
    conditionalOfClique T function Q = some r.1 := by
  simp only [conditionalOfClique, hr]

/-- C12 (output shape). For a forest without orphan wrappers on which
`eliminate` returns, the store afterwards is the store before, untouched,
followed by the dummy root and one output clique per clique of the forest, at
consecutive positions in pre-order; the returned roots are the children of
the dummy root, which are the output cliques of the forest's roots.  The
output clique of a clique holds the conditional that the elimination function
returned for the clique, and its children are the output cliques of the
clique's children; these have the clique's output clique as their parent
pointer, the output cliques of the roots have none, and every output clique is
of one of these two kinds. -/
theorem output_shape (T : FactorTraits F C) (this : JunctionTree F)
    (function : List (Option F) → List Key → Except E (C × F))
    (cliques : List (BayesTreeNode C)) (out : BayesTree × List F)
    (hno : ∀ Q ∈ this.cliques, ∀ f ∈ Q.factors, T.asSubtree f = none)
    (hok : (JunctionTree.eliminate T this function cliques).1 = .ok out) :
    (JunctionTree.eliminate T this function cliques).2.cliques =
      cliques ++
        ({ conditional_ := none, parent_ := none, children := out.1.roots_ } ::
          (placementList this.roots_ (cliques.length + 1) none).map
            (outputClique T function)) ∧
    out.1.roots_ = childIds this.roots_ (cliques.length + 1) ∧
    (placementList this.roots_ (cliques.length + 1) none).map (fun x => x.2.2) =
      this.cliques ∧
    (placementList this.roots_ (cliques.length + 1) none).map (fun x => x.1) =
      List.range' (cliques.length + 1) this.cliques.length ∧
    (∀ e ∈ (childIds this.roots_ (cliques.length + 1)).zip this.roots_,
      (e.1, none, e.2) ∈ placementList this.roots_ (cliques.length + 1) none) ∧
    (∀ x ∈ placementList this.roots_ (cliques.length + 1) none,
      (∃ r,
        function
            (x.2.2.factors.map some ++ x.2.2.children.map (residualSlot T function))
            x.2.2.keys = .ok r ∧
        outputClique T function x =
          { conditional_ := some r.1, parent_ := x.2.1,
            children := childIds x.2.2.children (x.1 + 1) }) ∧
      (∀ e ∈ (childIds x.2.2.children (x.1 + 1)).zip x.2.2.children,
        (e.1, some x.1, e.2) ∈ placementList this.roots_ (cliques.length + 1) none) ∧
      ((x.2.1 = none ∧
          (x.1, x.2.2) ∈ (childIds this.roots_ (cliques.length + 1)).zip this.roots_) ∨
        ∃ y ∈ placementList this.roots_ (cliques.length + 1) none,
          x.2.1 = some y.1 ∧
          (x.1, x.2.2) ∈ (childIds y.2.2.children (y.1 + 1)).zip y.2.2.children)) := by
  have hnil : adoptionsList T this.roots_ (cliques.length + 1) = [] :=
    adoptionsList_eq_nil T this.roots_ _ hno
  obtain ⟨hstore, hroots, _⟩ := eliminate_layout T this function cliques
    (by rw [hnil]; intro a ha; cases ha) out hok
  refine ⟨?_, hroots, placementList_map_clique _ _ _, placementList_map_pos _ _ _,
    placementList_roots_mem _ _ _, ?_⟩
  · rw [hstore, hnil, hroots]; rfl
  · intro x hx
    have hxc : x.2.2 ∈ this.cliques := placementList_clique_mem _ _ _ x hx
    refine ⟨?_, placementList_children_mem _ _ _ x hx, placementList_cases _ _ _ x hx⟩
    obtain ⟨r, hr⟩ := eliminate_ok_function T this function cliques out hok x.2.2 hxc
    refine ⟨r, hr, ?_⟩
    simp only [outputClique, conditionalOfClique_eq T function x.2.2 r hr,
      orphans_eq_nil T x.2.2 (hno x.2.2 hxc), List.append_nil]

/-- C13 (orphan splice). Let `eliminate` return on a forest whose orphan
wrappers all refer to pre-built cliques, and let the clique `P`, placed at
`idP`, have a wrapper around the pre-built clique at `q`, which no clique
placed elsewhere refers to.  Then afterwards the clique at `q` has its
conditional and children as before and `idP` as parent pointer; the output
clique of `P` holds the returned conditional and lists, after the output
cliques of the children of `P`, the orphans of `P`, among them `q`; every
pre-built clique keeps its conditional and children, and is unchanged when no
wrapper refers to it; and the elimination function has been called for the
cliques of the forest only, once each, in post-order. -/
theorem orphan_splice (T : FactorTraits F C) (this : JunctionTree F)
    (function : List (Option F) → List Key → Except E (C × F))
    (cliques : List (BayesTreeNode C)) (out : BayesTree × List F)
    (idP : Nat) (pp : Option Nat) (P : Node F) (f : F) (q : Nat) (cell : BayesTreeNode C)
    (hok : (JunctionTree.eliminate T this function cliques).1 = .ok out)
    (hrange : ∀ Q ∈ this.cliques, ∀ g ∈ Q.factors, ∀ q1,
      T.asSubtree g = some q1 → q1 < cliques.length)
    (hP : (idP, pp, P) ∈ placementList this.roots_ (cliques.length + 1) none)
    (hf : f ∈ P.factors) (hfq : T.asSubtree f = some q)
    (hone : ∀ x ∈ placementList this.roots_ (cliques.length + 1) none,
      ∀ g ∈ x.2.2.factors, T.asSubtree g = some q → x.1 = idP)
    (hcell : cliques[q]? = some cell) :
    (JunctionTree.eliminate T this function cliques).2.cliques[q]? =
      some { cell with parent_ := some idP } ∧
    (∃ r,
      function (P.factors.map some ++ P.children.map (residualSlot T function)) P.keys =
        .ok r ∧
      (JunctionTree.eliminate T this function cliques).2.cliques[idP]? =
        some { conditional_ := some r.1, parent_ := pp,
               children := childIds P.children (idP + 1) ++
                 P.factors.filterMap T.asSubtree }) ∧
    q ∈ P.factors.filterMap T.asSubtree ∧
    (∀ (i : Nat) (cell0 : BayesTreeNode C), cliques[i]? = some cell0 →
      ∃ cell1, (JunctionTree.eliminate T this function cliques).2.cliques[i]? = some cell1 ∧
        cell1.conditional_ = cell0.conditional_ ∧ cell1.children = cell0.children) ∧
    (∀ (i : Nat) (cell0 : BayesTreeNode C), cliques[i]? = some cell0 →
      (∀ Q ∈ this.cliques, ∀ g ∈ Q.factors, T.asSubtree g ≠ some i) →
      (JunctionTree.eliminate T this function cliques).2.cliques[i]? = some cell0) ∧
    (JunctionTree.eliminate T this function cliques).2.calls =
      (Node.postOrderList this.roots_).map (fun X =>
        (X.factors.map some ++ X.children.map (residualSlot T function), X.keys)) ∧
    (JunctionTree.eliminate T this function cliques).2.calls.length = this.cliques.length := by
  have hrange1 : ∀ Q ∈ Node.cliquesList this.roots_, ∀ q1 ∈ Q.orphans T,
      q1 < cliques.length := by
    intro Q hQ q1 hq1
    obtain ⟨g, hg, hgq⟩ := List.mem_filterMap.1 hq1
    exact hrange Q hQ g hg q1 hgq
  obtain ⟨hstore, _, _⟩ := eliminate_layout T this function cliques
    (adoptionsList_range T this.roots_ _ _ hrange1) out hok
  have hqP : q ∈ P.orphans T := List.mem_filterMap.2 ⟨f, hf, hfq⟩
  have hqlt : q < cliques.length := hrange P (placementList_clique_mem _ _ _ _ hP) f hf q hfq
  have hcalls := (eliminate_calls T this function cliques).2 out hok
  rw [invocationsList_eq_postOrderList] at hcalls
  refine ⟨?_, ?_, hqP, ?_, ?_, hcalls, ?_⟩
  · rw [hstore, List.getElem?_append_left (by rw [adopt_length]; exact hqlt),
      adopt_getElem?_of_same q idP _ cliques cell hcell]
    · have hany : (adoptionsList T this.roots_ (cliques.length + 1)).any
          (fun a => a.1 == q) = true := by
        rw [List.any_eq_true]
        exact ⟨(q, idP), (mem_adoptionsList T this.roots_ _ none (q, idP)).2
          ⟨(idP, pp, P), hP, rfl, hqP⟩, by simp⟩
      rw [if_pos hany]
    · intro a ha haq
      obtain ⟨x, hx, h2, h1⟩ := (mem_adoptionsList T this.roots_ _ none a).1 ha
      obtain ⟨g, hg, hgq⟩ := List.mem_filterMap.1 h1
      rw [h2]
      exact hone x hx g hg (by rw [hgq, haq])
  · obtain ⟨r, hr⟩ := eliminate_ok_function T this function cliques out hok P
      (placementList_clique_mem _ _ _ _ hP)
    refine ⟨r, hr, ?_⟩
    have hlen : (adopt cliques (adoptionsList T this.roots_ (cliques.length + 1))).length =
        cliques.length := adopt_length _ _
    have hP1 : (idP, pp, P) ∈ placementList this.roots_
        ((adopt cliques (adoptionsList T this.roots_ (cliques.length + 1))).length + 1)
        none := by rw [hlen]; exact hP
    have := (store_getElem?_placed T function
      (adopt cliques (adoptionsList T this.roots_ (cliques.length + 1)))
      { conditional_ := none, parent_ := none,
        children := childIds this.roots_ (cliques.length + 1) }
      this.roots_ none (idP, pp, P) hP1).2
    rw [hlen] at this
    rw [hstore, this]
    simp only [outputClique, conditionalOfClique_eq T function P r hr, Node.orphans]
  · intro i cell0 hi
    obtain ⟨cell1, h1, h2, h3, _⟩ :=
      eliminate_preserved T this function cliques out hok i
        (by
          rcases Nat.lt_or_ge i cliques.length with h | h
          · exact h
          · rw [List.getElem?_eq_none h] at hi; cases hi) cell0 hi
    exact ⟨cell1, h1, h2, h3⟩
  · intro i cell0 hi hnot
    have hilt : i < cliques.length := by
      rcases Nat.lt_or_ge i cliques.length with h | h
      · exact h
      · rw [List.getElem?_eq_none h] at hi; cases hi
    rw [hstore, List.getElem?_append_left (by rw [adopt_length]; exact hilt),
      adopt_getElem?_of_not_mem i _ cliques, hi]
    intro a ha hai
    obtain ⟨x, hx, _, h1⟩ := (mem_adoptionsList T this.roots_ _ none a).1 ha
    obtain ⟨g, hg, hgq⟩ := List.mem_filterMap.1 h1
    exact hnot x.2.2 (placementList_clique_mem _ _ _ x hx) g hg (by rw [hgq, hai])
  · rw [hcalls, List.length_map]
    exact (postOrderList_perm_cliques this.roots_).length_eq

/-- The theorem `output_shape` applied to the forest of the chain A - B - C,
the identity elimination function and an empty store. -/
theorem output_shape_witness :
    (∀ Q ∈ chainForest.cliques, ∀ f ∈ Q.factors, sampleTraits.asSubtree f = none) ∧
    (JunctionTree.eliminate sampleTraits chainForest identityEliminate []).1 =
      .ok chainOutput ∧
    ((JunctionTree.eliminate sampleTraits chainForest identityEliminate []).2.cliques =
      [] ++
        ({ conditional_ := none, parent_ := none, children := chainOutput.1.roots_ } ::
          (placementList chainForest.roots_
            (([] : List (BayesTreeNode (List Key))).length + 1) none).map
            (outputClique sampleTraits identityEliminate)) ∧
    chainOutput.1.roots_ =
      childIds chainForest.roots_ (([] : List (BayesTreeNode (List Key))).length + 1) ∧
    (placementList chainForest.roots_
        (([] : List (BayesTreeNode (List Key))).length + 1) none).map (fun x => x.2.2) =
      chainForest.cliques ∧
    (placementList chainForest.roots_
        (([] : List (BayesTreeNode (List Key))).length + 1) none).map (fun x => x.1) =
      List.range' (([] : List (BayesTreeNode (List Key))).length + 1)
        chainForest.cliques.length ∧
    (∀ e ∈ (childIds chainForest.roots_
        (([] : List (BayesTreeNode (List Key))).length + 1)).zip chainForest.roots_,
      (e.1, none, e.2) ∈ placementList chainForest.roots_
        (([] : List (BayesTreeNode (List Key))).length + 1) none) ∧
    (∀ x ∈ placementList chainForest.roots_
        (([] : List (BayesTreeNode (List Key))).length + 1) none,
      (∃ r,
        identityEliminate
            (x.2.2.factors.map some ++
              x.2.2.children.map (residualSlot sampleTraits identityEliminate))
            x.2.2.keys = .ok r ∧
        outputClique sampleTraits identityEliminate x =
          { conditional_ := some r.1, parent_ := x.2.1,
            children := childIds x.2.2.children (x.1 + 1) }) ∧
      (∀ e ∈ (childIds x.2.2.children (x.1 + 1)).zip x.2.2.children,
        (e.1, some x.1, e.2) ∈ placementList chainForest.roots_
          (([] : List (BayesTreeNode (List Key))).length + 1) none) ∧
      ((x.2.1 = none ∧
          (x.1, x.2.2) ∈ (childIds chainForest.roots_
            (([] : List (BayesTreeNode (List Key))).length + 1)).zip chainForest.roots_) ∨
        ∃ y ∈ placementList chainForest.roots_
            (([] : List (BayesTreeNode (List Key))).length + 1) none,
          x.2.1 = some y.1 ∧
          (x.1, x.2.2) ∈ (childIds y.2.2.children (y.1 + 1)).zip y.2.2.children))) :=
  ⟨fun _ _ _ _ => rfl, rfl,
    output_shape sampleTraits chainForest identityEliminate [] chainOutput
      (fun _ _ _ _ => rfl) rfl⟩

/-- The theorem `orphan_splice` applied to the forest with one orphan wrapper
around the pre-built clique at position 0, the identity elimination function
and the store with that one clique: the forest's clique is placed at
position 2. -/
theorem orphan_splice_witness :
    (JunctionTree.eliminate wrappedTraits orphanForest wrappedIdentity orphanStore).1 =
      .ok orphanOutput ∧
    ((JunctionTree.eliminate wrappedTraits orphanForest wrappedIdentity orphanStore).2.cliques[0]?
        = some { conditional_ := some [5], parent_ := some 2, children := [] } ∧
      (∃ r,
        wrappedIdentity
            ((Node.mk [1] [WrappedFactor.factor [1], WrappedFactor.orphanWrapper 0] []
                1).factors.map some ++
              (Node.mk [1] [WrappedFactor.factor [1], WrappedFactor.orphanWrapper 0] []
                1).children.map (residualSlot wrappedTraits wrappedIdentity))
            (Node.mk [1] [WrappedFactor.factor [1], WrappedFactor.orphanWrapper 0] []
              1).keys = .ok r ∧
        (JunctionTree.eliminate wrappedTraits orphanForest wrappedIdentity
            orphanStore).2.cliques[2]? =
          some { conditional_ := some r.1, parent_ := none,
                 children :=
                   childIds
                       (Node.mk [1] [WrappedFactor.factor [1], WrappedFactor.orphanWrapper 0]
                         [] 1).children (2 + 1) ++
                     (Node.mk [1] [WrappedFactor.factor [1], WrappedFactor.orphanWrapper 0] []
                       1).factors.filterMap wrappedTraits.asSubtree }) ∧
      0 ∈ (Node.mk [1] [WrappedFactor.factor [1], WrappedFactor.orphanWrapper 0] []
            1).factors.filterMap wrappedTraits.asSubtree ∧
      (∀ (i : Nat) (cell0 : BayesTreeNode (List Key)), orphanStore[i]? = some cell0 →
        ∃ cell1,
          (JunctionTree.eliminate wrappedTraits orphanForest wrappedIdentity
            orphanStore).2.cliques[i]? = some cell1 ∧
          cell1.conditional_ = cell0.conditional_ ∧ cell1.children = cell0.children) ∧
      (∀ (i : Nat) (cell0 : BayesTreeNode (List Key)), orphanStore[i]? = some cell0 →
        (∀ Q ∈ orphanForest.cliques, ∀ g ∈ Q.factors, wrappedTraits.asSubtree g ≠ some i) →
        (JunctionTree.eliminate wrappedTraits orphanForest wrappedIdentity
          orphanStore).2.cliques[i]? = some cell0) ∧
      (JunctionTree.eliminate wrappedTraits orphanForest wrappedIdentity orphanStore).2.calls =
        (Node.postOrderList orphanForest.roots_).map (fun X =>
          (X.factors.map some ++ X.children.map (residualSlot wrappedTraits wrappedIdentity),
            X.keys)) ∧
      (JunctionTree.eliminate wrappedTraits orphanForest wrappedIdentity
        orphanStore).2.calls.length = orphanForest.cliques.length) :=
  ⟨rfl,
    orphan_splice wrappedTraits orphanForest wrappedIdentity orphanStore orphanOutput 2 none
      (Node.mk [1] [WrappedFactor.factor [1], WrappedFactor.orphanWrapper 0] [] 1)
      (WrappedFactor.orphanWrapper 0) 0
      { conditional_ := some [5], parent_ := none, children := [] } rfl
      (by
        intro Q hQ g hg q1 hq1
        simp only [orphanForest, JunctionTree.cliques, Node.cliquesList, Node.cliques,
          List.append_nil, List.mem_singleton] at hQ
        subst hQ
        simp only [node_factors_mk, List.mem_cons, List.mem_singleton, List.not_mem_nil,
          or_false] at hg
        rcases hg with hg | hg
        · subst hg; simp [wrappedTraits] at hq1
        · subst hg
          simp only [wrappedTraits, Option.some.injEq] at hq1
          subst hq1
          simp [orphanStore])
      (List.Mem.head _) (List.Mem.tail _ (List.Mem.head _)) rfl
      (by
        intro x hx g _ _
        simp only [orphanForest, orphanStore, placementList, placement, List.append_nil,
          List.mem_singleton] at hx
        subst hx
        rfl)
      rfl⟩

theorem mem_frontalsOf (T : FactorTraits F C)
    (function : List (Option F) → List Key → Except E (C × F)) (Q : Node F) (j : Key) :
    j ∈ frontalsOf T function Q ↔
      ∃ c, conditionalOfClique T function Q = some c ∧ j ∈ T.frontals c := by
  unfold frontalsOf
  cases conditionalOfClique T function Q with
  | none => simp
  | some c => simp

/-- C14 (global index). Let `eliminate` return on a forest whose orphan
wrappers all refer to pre-built cliques and for whose cliques the returned
conditionals have pairwise disjoint frontal variables.  Then the returned
index has an entry `(j, B)` exactly when `B` is a position allocated by this
pass and `j` is a frontal variable of the conditional of the clique at `B`; no
variable has two entries; and a variable that is not frontal in a conditional
of a clique allocated by this pass, such as one that is frontal in pre-built
cliques only, has no entry. -/
theorem global_index (T : FactorTraits F C) (this : JunctionTree F)
    (function : List (Option F) → List Key → Except E (C × F))
    (cliques : List (BayesTreeNode C)) (out : BayesTree × List F)
    (hok : (JunctionTree.eliminate T this function cliques).1 = .ok out)
    (hrange : ∀ Q ∈ this.cliques, ∀ g ∈ Q.factors, ∀ q1,
      T.asSubtree g = some q1 → q1 < cliques.length)
    (hdisj : (this.cliques.map (frontalsOf T function)).Pairwise
      (fun a b => ∀ j ∈ a, j ∉ b)) :
    (∀ (j : Key) (B : Nat), (j, B) ∈ out.1.nodes_ ↔
      cliques.length ≤ B ∧
        ∃ cell c, (JunctionTree.eliminate T this function cliques).2.cliques[B]? = some cell ∧
          cell.conditional_ = some c ∧ j ∈ T.frontals c) ∧
    (out.1.nodes_.map Prod.fst).Nodup ∧
    (∀ j : Key,
      (∀ (B : Nat) (cell : BayesTreeNode C) (c : C), cliques.length ≤ B →
        (JunctionTree.eliminate T this function cliques).2.cliques[B]? = some cell →
        cell.conditional_ = some c → j ∉ T.frontals c) →
      j ∉ out.1.nodes_.map Prod.fst) := by
  have hrange1 : ∀ Q ∈ Node.cliquesList this.roots_, ∀ q1 ∈ Q.orphans T,
      q1 < cliques.length := by
    intro Q hQ q1 hq1
    obtain ⟨g, hg, hgq⟩ := List.mem_filterMap.1 hq1
    exact hrange Q hQ g hg q1 hgq
  obtain ⟨hstore, _, _⟩ := eliminate_layout T this function cliques
    (adoptionsList_range T this.roots_ _ _ hrange1) out hok
  have hidx := eliminate_index T this function cliques out hok
  have hlen : (adopt cliques (adoptionsList T this.roots_ (cliques.length + 1))).length =
      cliques.length := adopt_length _ _
  have hstore1 : (JunctionTree.eliminate T this function cliques).2.cliques =
      adopt cliques (adoptionsList T this.roots_ (cliques.length + 1)) ++
        ({ conditional_ := none, parent_ := none,
           children := childIds this.roots_ (cliques.length + 1) } ::
          (placementList this.roots_
            ((adopt cliques (adoptionsList T this.roots_ (cliques.length + 1))).length + 1)
            none).map (outputClique T function)) := by
    rw [hlen]; exact hstore
  have hfun : ∀ e ∈ (postPlacementList this.roots_ (cliques.length + 1)).flatMap
        (indexEntries T function),
      ∀ e1 ∈ (postPlacementList this.roots_ (cliques.length + 1)).flatMap
        (indexEntries T function), e.1 = e1.1 → e.2 = e1.2 := by
    intro e he e1 he1 hee
    obtain ⟨x, hx, hxe, hxj⟩ := (mem_entries T function _ _ none e).1 he
    obtain ⟨x1, hx1, hxe1, hxj1⟩ := (mem_entries T function _ _ none e1).1 he1
    have hpw : ((placementList this.roots_ (cliques.length + 1) none).map
        (fun x => frontalsOf T function x.2.2)).Pairwise (fun a b => ∀ j ∈ a, j ∉ b) := by
      have : (placementList this.roots_ (cliques.length + 1) none).map
          (fun x => frontalsOf T function x.2.2) =
          this.cliques.map (frontalsOf T function) := by
        have hc : this.cliques =
            (placementList this.roots_ (cliques.length + 1) none).map (fun x => x.2.2) :=
          (placementList_map_clique this.roots_ (cliques.length + 1) none).symm
        rw [hc, List.map_map]
        rfl
      rw [this]; exact hdisj
    have := pairwise_disjoint_unique (fun x : Nat × Option Nat × Node F =>
      frontalsOf T function x.2.2) _ hpw x hx x1 hx1 e.1 hxj (by rw [hee]; exact hxj1)
    rw [← hxe, ← hxe1, this]
  have hiff : ∀ (j : Key) (B : Nat), (j, B) ∈ out.1.nodes_ ↔
      cliques.length ≤ B ∧
        ∃ cell c, (JunctionTree.eliminate T this function cliques).2.cliques[B]? = some cell ∧
          cell.conditional_ = some c ∧ j ∈ T.frontals c := by
    intro j B
    rw [hidx, registerAll_mem_iff _ hfun, mem_entries T function _ _ none]
    constructor
    · rintro ⟨x, hx, hxB, hj⟩
      simp only at hxB hj
      obtain ⟨c, hc, hjc⟩ := (mem_frontalsOf T function x.2.2 j).1 hj
      have hx1 : x ∈ placementList this.roots_
          ((adopt cliques (adoptionsList T this.roots_ (cliques.length + 1))).length + 1)
          none := by rw [hlen]; exact hx
      obtain ⟨h1, h2⟩ := store_getElem?_placed T function
        (adopt cliques (adoptionsList T this.roots_ (cliques.length + 1)))
        { conditional_ := none, parent_ := none,
          children := childIds this.roots_ (cliques.length + 1) }
        this.roots_ none x hx1
      rw [hlen] at h1
      refine ⟨by omega, outputClique T function x, c, ?_, hc, hjc⟩
      rw [hstore1, ← hxB]
      exact h2
    · rintro ⟨hB, cell, c, hcell, hc, hjc⟩
      rw [hstore1] at hcell
      rcases Nat.eq_or_lt_of_le hB with hB | hB
      · exfalso
        rw [← hB, List.getElem?_append_right (by rw [hlen]), hlen, Nat.sub_self] at hcell
        simp only [List.getElem?_cons_zero, Option.some.injEq] at hcell
        rw [← hcell] at hc
        cases hc
      · obtain ⟨x, hx, hxB, hxc⟩ := store_getElem?_above T function
          (adopt cliques (adoptionsList T this.roots_ (cliques.length + 1)))
          { conditional_ := none, parent_ := none,
            children := childIds this.roots_ (cliques.length + 1) }
          this.roots_ none B cell (by rw [hlen]; exact hB) hcell
        rw [hlen] at hx
        refine ⟨x, hx, hxB, ?_⟩
        rw [hxc] at hc
        exact (mem_frontalsOf T function x.2.2 j).2 ⟨c, hc, hjc⟩
  refine ⟨hiff, ?_, ?_⟩
  · rw [hidx]
    exact registerAll_nodup _ [] (by simp)
  · intro j hj hmem
    obtain ⟨e, he, hej⟩ := List.mem_map.1 hmem
    have he1 : (j, e.2) ∈ out.1.nodes_ := by rw [← hej]; exact he
    obtain ⟨hB, cell, c, hcell, hc, hjc⟩ := (hiff j e.2).1 he1
    exact hj e.2 cell c hB hcell hc hjc

/-- The theorem `global_index` applied to the forest of the chain A - B - C, the
identity elimination function and an empty store: the conditionals `[B, A]`
and `[C]` have disjoint frontal variables. -/
theorem global_index_witness :
    (JunctionTree.eliminate sampleTraits chainForest identityEliminate []).1 =
      .ok chainOutput ∧
    (chainForest.cliques.map (frontalsOf sampleTraits identityEliminate)).Pairwise
      (fun a b => ∀ j ∈ a, j ∉ b) ∧
    ((∀ (j : Key) (B : Nat), (j, B) ∈ chainOutput.1.nodes_ ↔
      ([] : List (BayesTreeNode (List Key))).length ≤ B ∧
        ∃ cell c,
          (JunctionTree.eliminate sampleTraits chainForest identityEliminate
            []).2.cliques[B]? = some cell ∧
          cell.conditional_ = some c ∧ j ∈ sampleTraits.frontals c) ∧
    (chainOutput.1.nodes_.map Prod.fst).Nodup ∧
    (∀ j : Key,
      (∀ (B : Nat) (cell : BayesTreeNode (List Key)) (c : List Key),
        ([] : List (BayesTreeNode (List Key))).length ≤ B →
        (JunctionTree.eliminate sampleTraits chainForest identityEliminate
          []).2.cliques[B]? = some cell →
        cell.conditional_ = some c → j ∉ sampleTraits.frontals c) →
      j ∉ chainOutput.1.nodes_.map Prod.fst)) :=
  ⟨rfl, by decide,
    global_index sampleTraits chainForest identityEliminate [] chainOutput rfl
      (fun _ _ _ _ _ h => nomatch h) (by decide)⟩

/-- Registration only appends, and only entries of variables that have no
entry yet. -/
theorem registerAll_prefix_fresh :
    ∀ (es index : List (Key × Nat)), ∃ added, registerAll index es = index ++ added ∧
      (∀ e ∈ added, e ∈ es) ∧ ∀ e ∈ added, e.1 ∉ index.map Prod.fst := by
  intro es
  induction es with
  | nil => intro index; exact ⟨[], by simp [registerAll_nil], by simp, by simp⟩
  | cons e es ih =>
    intro index
    rw [registerAll_cons]
    by_cases hany : index.any (fun entry => entry.1 == e.1) = true
    · rw [if_pos hany]
      obtain ⟨added, h1, h2, h3⟩ := ih index
      exact ⟨added, h1, fun x hx => List.mem_cons_of_mem _ (h2 x hx), h3⟩
    · rw [if_neg hany]
      obtain ⟨added, h1, h2, h3⟩ := ih (index ++ [e])
      refine ⟨e :: added, by rw [h1]; simp, ?_, ?_⟩
      · intro x hx
        rcases List.mem_cons.1 hx with hx | hx
        · rw [hx]; exact List.mem_cons_self _ _
        · exact List.mem_cons_of_mem _ (h2 x hx)
      · intro x hx
        rcases List.mem_cons.1 hx with hx | hx
        · rw [hx]
          intro hmem
          exact hany ((any_key_iff index e.1).2 hmem)
        · intro hmem
          exact h3 x hx (by rw [List.map_append]; exact List.mem_append_left _ hmem)

/-- A variable without entry keeps being without entry when no entry is asked
for it. -/
theorem registerAll_key_not_mem (j : Key) (es index : List (Key × Nat))
    (hindex : j ∉ index.map Prod.fst) (hes : ∀ e ∈ es, e.1 ≠ j) :
    j ∉ (registerAll index es).map Prod.fst := by
  obtain ⟨added, h1, h2, _⟩ := registerAll_prefix_fresh es index
  rw [h1, List.map_append, List.mem_append]
  rintro (h | h)
  · exact hindex h
  · obtain ⟨e, he, hej⟩ := List.mem_map.1 h
    exact hes e (h2 e he) hej

/-- A variable without entry gets the clique of the entries asked for it, when
these all name the same clique. -/
theorem registerAll_mem_of_fresh (j : Key) (B : Nat) (es index : List (Key × Nat))
    (hindex : j ∉ index.map Prod.fst) (hmem : (j, B) ∈ es)
    (hsame : ∀ e ∈ es, e.2 = B) : (j, B) ∈ registerAll index es := by
  obtain ⟨added, h1, h2, _⟩ := registerAll_prefix_fresh es index
  obtain ⟨e, he, hej⟩ := List.mem_map.1 (registerAll_key_mem es index (j, B) hmem)
  have he1 := he
  rw [h1, List.mem_append] at he1
  rcases he1 with he1 | he1
  · exact absurd (List.mem_map.2 ⟨e, he1, hej⟩) hindex
  · have : e = (j, B) := Prod.ext hej (hsame e (h2 e he1))
    rw [← this]; exact he

/-- An entry stays in the index whatever is registered afterwards. -/
theorem registerAll_mem_mono (x : Key × Nat) (es index : List (Key × Nat))
    (hx : x ∈ index) : x ∈ registerAll index es := by
  obtain ⟨added, h1, _⟩ := registerAll_prefix es index
  rw [h1]; exact List.mem_append_left _ hx

theorem postPlacementList_map_snd_of :
    ∀ (cs : List (Node F)),
      (∀ c ∈ cs, ∀ b, (postPlacement c b).map Prod.snd = c.postOrder) →
      ∀ b, (postPlacementList cs b).map Prod.snd = Node.postOrderList cs := by
  intro cs
  induction cs with
  | nil => intro _ b; simp [postPlacementList, Node.postOrderList]
  | cons c cs ih =>
    intro h b
    rw [postPlacementList_cons, List.map_append, h c (List.mem_cons_self _ _),
      ih (fun m hm => h m (List.mem_cons_of_mem _ hm))]
    simp [Node.postOrderList]

theorem postPlacement_map_snd (Q : Node F) :
    ∀ b, (postPlacement Q b).map Prod.snd = Q.postOrder := by
  induction Q using node_induct with
  | h ks fs cs p ih =>
    intro b
    simp only [postPlacement, Node.postOrder, List.map_append, List.map_cons, List.map_nil]
    rw [postPlacementList_map_snd_of cs ih]

/-- The cliques of `postPlacementList` are the cliques of the forest in
post-order, the order of the calls of the elimination function. -/
theorem postPlacementList_map_snd (cs : List (Node F)) (b : Nat) :
    (postPlacementList cs b).map Prod.snd = Node.postOrderList cs :=
  postPlacementList_map_snd_of cs (fun c _ => postPlacement_map_snd c) b

/-- The post-order visitor only appends to the index, and never an entry for a
variable that has one. -/
theorem postOrderVisitor_index_appends (T : FactorTraits F C)
    (function : List (Option F) → List Key → Except E (C × F)) (node : Node F)
    (myData parentData : EliminationData F) (st : EliminationState F C) :
    ∃ added,
      (EliminationPostOrderVisitor T function node myData parentData st).2.nodesIndex =
        st.nodesIndex ++ added ∧
      ∀ e ∈ added, e.1 ∉ st.nodesIndex.map Prod.fst ∧ e.2 = myData.bayesTreeNode := by
  cases hr : function (node.factors.map some ++ myData.childFactors) node.keys with
  | error e =>
    refine ⟨[], ?_, by simp⟩
    unfold EliminationPostOrderVisitor
    simp only [List.nil_append, hr, List.append_nil]
  | ok r =>
    obtain ⟨added, h1, h2, h3⟩ := registerAll_prefix_fresh
      ((T.frontals r.1).map (fun j => (j, myData.bayesTreeNode))) st.nodesIndex
    refine ⟨added, ?_, ?_⟩
    · rw [(postOrderVisitor_index T function node myData parentData st r hr).2, h1]
    · intro e he
      refine ⟨h3 e he, ?_⟩
      obtain ⟨j, _, hje⟩ := List.mem_map.1 (h2 e he)
      rw [← hje]

/-- C21 (index is write-once). Let `eliminate` return, and let `Q`, whose output
clique is at position `B`, be the first clique in post-order for which the
returned conditional lists the variable `j` as frontal (other cliques after
it may list `j` too).  Then the returned index maps `j` to `B` and to nothing
else.  The list `postPlacementList` holds the cliques in post-order, and
every run of the post-order visitor only appends entries to the index, for
variables that had none. -/
theorem index_write_once (T : FactorTraits F C) (this : JunctionTree F)
    (function : List (Option F) → List Key → Except E (C × F))
    (cliques : List (BayesTreeNode C)) (out : BayesTree × List F)
    (j : Key) (B : Nat) (Q : Node F) (earlier later : List (Nat × Node F))
    (hok : (JunctionTree.eliminate T this function cliques).1 = .ok out)
    (horder : postPlacementList this.roots_ (cliques.length + 1) =
      earlier ++ (B, Q) :: later)
    (hj : j ∈ frontalsOf T function Q)
    (hfirst : ∀ x ∈ earlier, j ∉ frontalsOf T function x.2) :
    (j, B) ∈ out.1.nodes_ ∧
    (∀ B1, (j, B1) ∈ out.1.nodes_ → B1 = B) ∧
    (postPlacementList this.roots_ (cliques.length + 1)).map Prod.snd =
      Node.postOrderList this.roots_ ∧
    (∀ (node : Node F) (myData parentData : EliminationData F) (st : EliminationState F C),
      ∃ added,
        (EliminationPostOrderVisitor T function node myData parentData st).2.nodesIndex =
          st.nodesIndex ++ added ∧
        ∀ e ∈ added, e.1 ∉ st.nodesIndex.map Prod.fst ∧ e.2 = myData.bayesTreeNode) := by
  have hidx := eliminate_index T this function cliques out hok
  have hmem : (j, B) ∈ out.1.nodes_ := by
    rw [hidx, horder, List.flatMap_append, List.flatMap_cons, registerAll_append,
      registerAll_append]
    apply registerAll_mem_mono
    apply registerAll_mem_of_fresh
    · apply registerAll_key_not_mem j _ [] (by simp)
      intro e he hej
      obtain ⟨x, hx, hex⟩ := List.mem_flatMap.1 he
      rw [mem_indexEntries] at hex
      exact hfirst x hx (by rw [← hej]; exact hex.2)
    · rw [mem_indexEntries]; exact ⟨rfl, hj⟩
    · intro e he
      rw [mem_indexEntries] at he
      exact he.1
  refine ⟨hmem, ?_, postPlacementList_map_snd _ _,
    fun node myData parentData st =>
      postOrderVisitor_index_appends T function node myData parentData st⟩
  intro B1 hB1
  have hnodup : (out.1.nodes_.map Prod.fst).Nodup := by
    rw [hidx]; exact registerAll_nodup _ [] (by simp)
  have := List.inj_on_of_nodup_map hnodup hB1 hmem rfl
  exact (Prod.ext_iff.1 this).2

/-- The theorem `index_write_once` applied to the forest of the chain A - B - C
with an elimination function whose conditional lists the variable 1 for both
cliques: the child clique, at position 2, is eliminated first and gets the
entry; the root clique, at position 1, lists the variable too. -/
theorem index_write_once_witness :
    (JunctionTree.eliminate sampleTraits chainForest constantEliminate []).1 =
      .ok constantOutput ∧
    postPlacementList chainForest.roots_ (([] : List (BayesTreeNode (List Key))).length + 1) =
      [] ++ (2, Node.mk [3] [[3, 2]] [] 2) ::
        [(1, Node.mk [2, 1] [[2, 1]] [Node.mk [3] [[3, 2]] [] 2] 2)] ∧
    1 ∈ frontalsOf sampleTraits constantEliminate (Node.mk [3] [[3, 2]] [] 2) ∧
    1 ∈ frontalsOf sampleTraits constantEliminate
      (Node.mk [2, 1] [[2, 1]] [Node.mk [3] [[3, 2]] [] 2] 2) ∧
    ((1, 2) ∈ constantOutput.1.nodes_ ∧
    (∀ B1, (1, B1) ∈ constantOutput.1.nodes_ → B1 = 2) ∧
    (postPlacementList chainForest.roots_
        (([] : List (BayesTreeNode (List Key))).length + 1)).map Prod.snd =
      Node.postOrderList chainForest.roots_ ∧
    (∀ (node : Node (List Key)) (myData parentData : EliminationData (List Key))
        (st : EliminationState (List Key) (List Key)),
      ∃ added,
        (EliminationPostOrderVisitor sampleTraits constantEliminate node myData parentData
          st).2.nodesIndex = st.nodesIndex ++ added ∧
        ∀ e ∈ added, e.1 ∉ st.nodesIndex.map Prod.fst ∧ e.2 = myData.bayesTreeNode)) :=
  ⟨rfl, rfl, by decide, by decide,
    index_write_once sampleTraits chainForest constantEliminate [] constantOutput 1 2
      (Node.mk [3] [[3, 2]] [] 2) []
      [(1, Node.mk [2, 1] [[2, 1]] [Node.mk [3] [[3, 2]] [] 2] 2)] rfl rfl (by decide)
      (fun _ h => nomatch h)⟩

end EliminationTheorems

section SmartStereoTheorems

variable {Camera Pose Point3 Tol Matrix X : Type}

/-- The comparison loop answers `true` exactly when some camera's pose is not
equal, within the threshold, to the cached pose at the same index. -/
theorem posesDiffer_iff (ops : StereoOps Camera Pose Point3 Tol Matrix X) (threshold : Tol) :
    ∀ (cameras : List Camera) (cache : List Pose),
      posesDiffer ops threshold cameras cache = true ↔
        ∃ (i : Nat) (camera : Camera) (cached : Pose),
          cameras[i]? = some camera ∧ cache[i]? = some cached ∧
            ops.equals (ops.pose camera) cached threshold = false := by
  intro cameras
  induction cameras with
  | nil =>
    intro cache
    simp [posesDiffer]
  | cons c cameras ih =>
    intro cache
    cases cache with
    | nil => simp [posesDiffer]
    | cons p rest =>
      simp only [posesDiffer]
      cases heq : ops.equals (ops.pose c) p threshold with
      | false =>
        simp only [Bool.not_false, if_true, true_iff]
        exact ⟨0, c, p, by simp, by simp, heq⟩
      | true =>
        simp only [Bool.not_true, Bool.false_eq_true, if_false]
        rw [ih rest]
        constructor
        · rintro ⟨i, c1, p1, h1, h2, h3⟩
          exact ⟨i + 1, c1, p1, by simpa using h1, by simpa using h2, h3⟩
        · rintro ⟨i, c1, p1, h1, h2, h3⟩
          cases i with
          | zero =>
            simp only [List.getElem?_cons_zero, Option.some.injEq] at h1 h2
            rw [← h1, ← h2, heq] at h3
            cases h3
          | succ i =>
            exact ⟨i, c1, p1, by simpa using h1, by simpa using h2, h3⟩

/-- The comparison loop answers `false` on the cameras against their own poses,
when equality within the threshold is reflexive. -/
theorem posesDiffer_self (ops : StereoOps Camera Pose Point3 Tol Matrix X) (threshold : Tol)
    (hrefl : ∀ p, ops.equals p p threshold = true) :
    ∀ cameras : List Camera, posesDiffer ops threshold cameras (cameras.map ops.pose) = false := by
  intro cameras
  induction cameras with
  | nil => simp [posesDiffer]
  | cons c cameras ih =>
    simp only [List.map_cons, posesDiffer, hrefl, Bool.not_true, Bool.false_eq_true, if_false]
    exact ih

/-- The answer of `decideIfTriangulate` as one boolean expression. -/
theorem decideIfTriangulate_fst (ops : StereoOps Camera Pose Point3 Tol Matrix X)
    (this : SmartStereoProjectionFactor Pose Point3 Tol) (cameras : List Camera) :
    (this.decideIfTriangulate ops cameras).1 =
      (this.cameraPosesTriangulation_.isEmpty
        || cameras.length != this.cameraPosesTriangulation_.length
        || posesDiffer ops this.params_.retriangulationThreshold cameras
            this.cameraPosesTriangulation_) := by
  unfold SmartStereoProjectionFactor.decideIfTriangulate
  cases h0 : (this.cameraPosesTriangulation_.isEmpty
      || cameras.length != this.cameraPosesTriangulation_.length) with
  | true => simp
  | false =>
    cases h1 : posesDiffer ops this.params_.retriangulationThreshold cameras
        this.cameraPosesTriangulation_ with
    | true => simp [h1]
    | false => simp [h1]

/-- The factor after `decideIfTriangulate`, by its answer. -/
theorem decideIfTriangulate_snd (ops : StereoOps Camera Pose Point3 Tol Matrix X)
    (this : SmartStereoProjectionFactor Pose Point3 Tol) (cameras : List Camera) :
    (this.decideIfTriangulate ops cameras).2 =
      if (this.decideIfTriangulate ops cameras).1 = true then
        { this with cameraPosesTriangulation_ := cameras.map ops.pose }
      else this := by
  unfold SmartStereoProjectionFactor.decideIfTriangulate
  cases h0 : (this.cameraPosesTriangulation_.isEmpty
      || cameras.length != this.cameraPosesTriangulation_.length) with
  | true => simp
  | false =>
    cases h1 : posesDiffer ops this.params_.retriangulationThreshold cameras
        this.cameraPosesTriangulation_ with
    | true => simp [h1]
    | false => simp [h1]

/-- C24 (`decideIfTriangulate`). The answer is `true` exactly when the cache is
empty, or its length differs from the number of cameras, or some camera's
pose is not equal within the threshold to the cached pose at the same index.
When the answer is `true` the cache afterwards is the list of the cameras'
poses, in order; when it is `false` the factor is unchanged; the parameters
and the stored result are never changed. -/
theorem decideIfTriangulate_spec (ops : StereoOps Camera Pose Point3 Tol Matrix X)
    (this : SmartStereoProjectionFactor Pose Point3 Tol) (cameras : List Camera) :
    ((this.decideIfTriangulate ops cameras).1 = true ↔
      this.cameraPosesTriangulation_ = [] ∨
      this.cameraPosesTriangulation_.length ≠ cameras.length ∨
      ∃ (i : Nat) (camera : Camera) (cached : Pose),
        cameras[i]? = some camera ∧ this.cameraPosesTriangulation_[i]? = some cached ∧
          ops.equals (ops.pose camera) cached this.params_.retriangulationThreshold = false) ∧
    ((this.decideIfTriangulate ops cameras).1 = true →
      (this.decideIfTriangulate ops cameras).2.cameraPosesTriangulation_ =
        cameras.map ops.pose) ∧
    ((this.decideIfTriangulate ops cameras).1 = false →
      (this.decideIfTriangulate ops cameras).2 = this) ∧
    (this.decideIfTriangulate ops cameras).2.params_ = this.params_ ∧
    (this.decideIfTriangulate ops cameras).2.result_ = this.result_ := by
  refine ⟨?_, ?_, ?_, ?_, ?_⟩
  · rw [decideIfTriangulate_fst, Bool.or_eq_true, Bool.or_eq_true, posesDiffer_iff,
      List.isEmpty_iff, bne_iff_ne, or_assoc]
    constructor
    · rintro (h | h | h)
      · exact Or.inl h
      · exact Or.inr (Or.inl (fun e => h e.symm))
      · exact Or.inr (Or.inr h)
    · rintro (h | h | h)
      · exact Or.inl h
      · exact Or.inr (Or.inl (fun e => h e.symm))
      · exact Or.inr (Or.inr h)
  · intro h
    rw [decideIfTriangulate_snd, if_pos h]
  · intro h
    rw [decideIfTriangulate_snd, if_neg (by rw [h]; exact Bool.false_ne_true)]
  · rw [decideIfTriangulate_snd]; split <;> rfl
  · rw [decideIfTriangulate_snd]; split <;> rfl

/-- C25 (no re-triangulation at an unchanged linearization point). For a
non-empty list of cameras and a pose equality that is reflexive at the
factor's threshold, a second call of `decideIfTriangulate` with the same
cameras, right after a first one, answers `false`, whatever the factor's
cache was before the first call. -/
theorem second_call_does_not_retriangulate (ops : StereoOps Camera Pose Point3 Tol Matrix X)
    (this : SmartStereoProjectionFactor Pose Point3 Tol) (cameras : List Camera)
    (hne : cameras ≠ [])
    (hrefl : ∀ p, ops.equals p p this.params_.retriangulationThreshold = true) :
    ((this.decideIfTriangulate ops cameras).2.decideIfTriangulate ops cameras).1 = false := by
  cases h1 : (this.decideIfTriangulate ops cameras).1 with
  | false =>
    rw [decideIfTriangulate_snd, if_neg (by rw [h1]; exact Bool.false_ne_true)]
    exact h1
  | true =>
    rw [decideIfTriangulate_snd, if_pos h1, decideIfTriangulate_fst]
    simp only [List.length_map, bne_self_eq_false, Bool.or_false, Bool.false_or]
    rw [posesDiffer_self ops _ hrefl, Bool.or_false, List.isEmpty_eq_false]
    simpa using hne

/-- The theorem `second_call_does_not_retriangulate` applied to a freshly
constructed factor and two cameras, with integer poses that are equal within
the threshold 0 when they are the same. -/
theorem second_call_does_not_retriangulate_witness :
    ([3, 5] : List Int) ≠ [] ∧
    (∀ p, sampleStereoOps.equals p p freshFactor.params_.retriangulationThreshold = true) ∧
    (freshFactor.decideIfTriangulate sampleStereoOps [3, 5]).1 = true ∧
    ((freshFactor.decideIfTriangulate sampleStereoOps [3, 5]).2.decideIfTriangulate
      sampleStereoOps [3, 5]).1 = false :=
  ⟨by decide, by intro p; simp [sampleStereoOps], rfl,
    second_call_does_not_retriangulate sampleStereoOps freshFactor [3, 5] (by decide)
      (by intro p; simp [sampleStereoOps])⟩

/-- The member `result_` is the same after `triangulateSafe` as before. -/
theorem triangulateSafe_result (ops : StereoOps Camera Pose Point3 Tol Matrix X)
    (this : SmartStereoProjectionFactor Pose Point3 Tol) (cameras : List Camera) :
    (this.triangulateSafe ops cameras).2.result_ = this.result_ := by
  unfold SmartStereoProjectionFactor.triangulateSafe
  simp only []
  split
  · rfl
  · simp only [decideIfTriangulate_snd]
    split <;> rfl

/-- What `triangulateForLinearize` returns is the validity of the result stored
in the factor before the call. -/
theorem triangulateForLinearize_eq_stored (ops : StereoOps Camera Pose Point3 Tol Matrix X)
    (this : SmartStereoProjectionFactor Pose Point3 Tol) (cameras : List Camera) :
    (this.triangulateForLinearize ops cameras).1 = this.result_.valid := by
  simp only [SmartStereoProjectionFactor.triangulateForLinearize, triangulateSafe_result]

/-- C26, evaluated at a failing input. On a freshly constructed factor, whose
stored result is the degenerate one, and two cameras, `triangulateSafe`
returns a valid result, while `triangulateForLinearize` returns `false` and
`triangulateAndComputeE` returns `false` and leaves `E` as it was: they
report the stored result, which `triangulateSafe` does not assign. -/
theorem stale_result_reported :
    (freshFactor.triangulateSafe sampleStereoOps [3, 5]).1 = .ofPoint 0 ∧
    (freshFactor.triangulateSafe sampleStereoOps [3, 5]).1.valid = true ∧
    (freshFactor.triangulateForLinearize sampleStereoOps [3, 5]).1 = false ∧
    (freshFactor.triangulateAndComputeE sampleStereoOps 7 [3, 5]).1 = .ok (false, 7) ∧
    (freshFactor.triangulateAndComputeE sampleStereoOps 7 [3, 5]).2.result_ = .Degenerate :=
  ⟨rfl, rfl, rfl, rfl, rfl⟩

/-- C27 (`triangulateSafe`). The result is the degenerate one exactly when
there are fewer than two cameras, and then the factor, its cache included, is
unchanged; with two or more cameras the result is `TriangulationResult(Point3())`,
which is valid and not degenerate. -/
theorem triangulateSafe_spec (ops : StereoOps Camera Pose Point3 Tol Matrix X)
    (this : SmartStereoProjectionFactor Pose Point3 Tol) (cameras : List Camera) :
    ((this.triangulateSafe ops cameras).1 = .Degenerate ↔ cameras.length < 2) ∧
    ((this.triangulateSafe ops cameras).1.degenerate = true ↔ cameras.length < 2) ∧
    (cameras.length < 2 → (this.triangulateSafe ops cameras).2 = this) ∧
    (2 ≤ cameras.length →
      (this.triangulateSafe ops cameras).1 = .ofPoint ops.origin ∧
      (this.triangulateSafe ops cameras).1.valid = true ∧
      (this.triangulateSafe ops cameras).2 = (this.decideIfTriangulate ops cameras).2) := by
  have e : this.triangulateSafe ops cameras =
      if cameras.length < 2 then (.Degenerate, this)
      else (.ofPoint ops.origin, (this.decideIfTriangulate ops cameras).2) := rfl
  rw [e]
  by_cases h : cameras.length < 2
  · rw [if_pos h]
    refine ⟨⟨fun _ => h, fun _ => rfl⟩, ⟨fun _ => h, fun _ => rfl⟩, fun _ => rfl, ?_⟩
    intro h2
    omega
  · rw [if_neg h]
    refine ⟨⟨fun h2 => ?_, fun h2 => absurd h2 h⟩, ⟨fun h2 => ?_, fun h2 => absurd h2 h⟩,
      fun h2 => absurd h2 h, fun _ => ⟨rfl, rfl, rfl⟩⟩
    · cases h2
    · simp [TriangulationResult.degenerate] at h2

/-- C28 (`linearizeDamped`). In each of the modes `IMPLICIT_SCHUR`, `JACOBIAN_Q`
and `JACOBIAN_SVD` the call throws the runtime error "unknown mode", whatever
the cameras, lambda and `createHessianFactor` are; in mode `HESSIAN` the
outcome is that of `createHessianFactor` on the same arguments; so
`createHessianFactor` is reached exactly in mode `HESSIAN`. -/
theorem linearizeDamped_modes {Lambda R : Type}
    (createHessianFactor :
      SmartStereoProjectionFactor Pose Point3 Tol → List Camera → Lambda → R)
    (this : SmartStereoProjectionFactor Pose Point3 Tol) (cameras : List Camera)
    (lambda : Lambda) :
    ((this.params_.linearizationMode = .IMPLICIT_SCHUR ∨
        this.params_.linearizationMode = .JACOBIAN_Q ∨
        this.params_.linearizationMode = .JACOBIAN_SVD) →
      this.linearizeDamped createHessianFactor cameras lambda =
        .error ⟨"SmartStereoFactorlinearize: unknown mode"⟩) ∧
    (this.params_.linearizationMode = .HESSIAN →
      this.linearizeDamped createHessianFactor cameras lambda =
        .ok (createHessianFactor this cameras lambda)) ∧
    ((∃ r, this.linearizeDamped createHessianFactor cameras lambda = .ok r) ↔
      this.params_.linearizationMode = .HESSIAN) ∧
    ((∃ e, this.linearizeDamped createHessianFactor cameras lambda = .error e) ↔
      (this.params_.linearizationMode = .IMPLICIT_SCHUR ∨
        this.params_.linearizationMode = .JACOBIAN_Q ∨
        this.params_.linearizationMode = .JACOBIAN_SVD)) := by
  unfold SmartStereoProjectionFactor.linearizeDamped
  cases this.params_.linearizationMode <;> simp

end SmartStereoTheorems

end gtsam

namespace wrap

variable {Q : Type}

/-- The outcome of `initializeOrCheck` is an exception exactly when the name
is empty, or the object has a name and an argument differs from what is
stored. -/
theorem initializeOrCheck_error_iff (ops : QualifiedOps Q) (this : Function Q)
    (name : String) (instName : Q) (verbose : Bool) :
    (∃ e, (this.initializeOrCheck ops name instName verbose).1 = .error e) ↔
      (name = "" ∨
        (this.name_ ≠ "" ∧
          (this.name_ ≠ name ∨ ops.ne this.templateArgValue_ instName = true ∨
            this.verbose_ ≠ verbose))) := by
  unfold Function.initializeOrCheck
  by_cases h1 : name = ""
  · simp [h1]
  · by_cases h2 : this.name_ = ""
    · simp [h1, h2]
    · by_cases h3 : (this.name_ != name || ops.ne this.templateArgValue_ instName
          || this.verbose_ != verbose) = true
      · simp only [if_neg h1, if_neg h2, if_pos h3]
        simp only [Bool.or_eq_true, bne_iff_ne, ne_eq, or_assoc] at h3
        simp [h1, h2, h3]
      · simp only [if_neg h1, if_neg h2, if_neg h3]
        simp only [Bool.or_eq_true, bne_iff_ne, ne_eq, or_assoc] at h3
        simp [h1, h3]

/-- The object is unchanged whenever `initializeOrCheck` does not return
`true`. -/
theorem initializeOrCheck_unchanged (ops : QualifiedOps Q) (this : Function Q)
    (name : String) (instName : Q) (verbose : Bool)
    (h : (this.initializeOrCheck ops name instName verbose).1 ≠ .ok true) :
    (this.initializeOrCheck ops name instName verbose).2 = this := by
  unfold Function.initializeOrCheck at h ⊢
  by_cases h1 : name = ""
  · simp [h1]
  · by_cases h2 : this.name_ = ""
    · simp [h1, h2] at h
    · simp only [if_neg h1, if_neg h2]
      split <;> rfl

/-- C22 (initialise, then check). On an object whose stored name is empty, a
call with a non-empty name returns `true` and stores the name, the template
argument value and the verbose flag; a call with the same three arguments
right after it returns `false` and leaves the three members as they are.
The comparison `!=` of template argument values is taken to be false of a
value and itself. -/
theorem initialize_then_check (ops : QualifiedOps Q) (this : Function Q)
    (name : String) (instName : Q) (verbose : Bool)
    (hblank : this.name_ = "") (hname : name ≠ "")
    (hirr : ops.ne instName instName = false) :
    this.initializeOrCheck ops name instName verbose =
      (.ok true, { name_ := name, templateArgValue_ := instName, verbose_ := verbose }) ∧
    (this.initializeOrCheck ops name instName verbose).2.initializeOrCheck ops name instName
        verbose =
      (.ok false, { name_ := name, templateArgValue_ := instName, verbose_ := verbose }) := by
  have h1 : this.initializeOrCheck ops name instName verbose =
      (.ok true, { name_ := name, templateArgValue_ := instName, verbose_ := verbose }) := by
    unfold Function.initializeOrCheck
    simp [hname, hblank]
  refine ⟨h1, ?_⟩
  rw [h1]
  unfold Function.initializeOrCheck
  simp [hname, hirr]

/-- The theorem `initialize_then_check` applied to an object that has not been
initialised, with template argument values given as strings. -/
theorem initialize_then_check_witness :
    blankFunction.name_ = "" ∧ "f" ≠ "" ∧ stringOps.ne "T" "T" = false ∧
    (blankFunction.initializeOrCheck stringOps "f" "T" true =
      (.ok true, { name_ := "f", templateArgValue_ := "T", verbose_ := true }) ∧
    (blankFunction.initializeOrCheck stringOps "f" "T" true).2.initializeOrCheck stringOps
        "f" "T" true =
      (.ok false, { name_ := "f", templateArgValue_ := "T", verbose_ := true })) :=
  ⟨rfl, by decide, by decide,
    initialize_then_check stringOps blankFunction "f" "T" true rfl (by decide) (by decide)⟩

/-- C23 (when `initializeOrCheck` raises). The call throws exactly when the
name argument is empty, or the object is initialised (its stored name is not
empty) and the name, the template argument value (by `!=`) or the verbose
flag differs from the stored one; whenever it throws, the object, and so the
stored name, template argument value and verbose flag, is unchanged. -/
theorem raises_exactly_when (ops : QualifiedOps Q) (this : Function Q)
    (name : String) (instName : Q) (verbose : Bool) :
    ((∃ e, (this.initializeOrCheck ops name instName verbose).1 = .error e) ↔
      (name = "" ∨
        (this.name_ ≠ "" ∧
          (this.name_ ≠ name ∨ ops.ne this.templateArgValue_ instName = true ∨
            this.verbose_ ≠ verbose)))) ∧
    (∀ e, (this.initializeOrCheck ops name instName verbose).1 = .error e →
      (this.initializeOrCheck ops name instName verbose).2 = this) := by
  refine ⟨initializeOrCheck_error_iff ops this name instName verbose, ?_⟩
  intro e he
  exact initializeOrCheck_unchanged ops this name instName verbose (by rw [he]; simp)

end wrap
